import Mathlib

/-! The chat widget of `src/App.jsx`.

A shallow embedding of the two pieces of logic of the `ChatBot` component:

* the reply extraction and the request construction of `sendMessage`
  (lines 81-157), over a model of the values `response.json()` can yield;
* the markdown formatter `formatBotResponse` (lines 21-69), over a model of
  the eight regular expressions it applies, each written as the
  deterministic matcher the expression denotes.

A JavaScript string is modelled as a `List Char`.  None of the code looks
inside a character (every test is for a line terminator, white space, a digit
or one of a few ASCII markers), so reading a string as code points or as
UTF-16 units gives the same results.
-/

namespace ChatBot

/-! ## Characters -/

/-- The line terminators of ECMAScript: the characters `.` does not match
(without the `s` flag) and around which `^` and `$` match under the `m`
flag. -/
def isLineTerminator (c : Char) : Bool :=
  c.toNat == 0x0A || c.toNat == 0x0D || c.toNat == 0x2028 || c.toNat == 0x2029

/-- The characters matched by `\s` and removed by `String.prototype.trim`:
ECMAScript white space together with the line terminators. -/
def isWhiteSpace (c : Char) : Bool :=
  c.toNat == 0x09 || c.toNat == 0x0B || c.toNat == 0x0C || c.toNat == 0x20 ||
  c.toNat == 0xA0 || c.toNat == 0x1680 || (0x2000 ≤ c.toNat && c.toNat ≤ 0x200A) ||
  c.toNat == 0x202F || c.toNat == 0x205F || c.toNat == 0x3000 || c.toNat == 0xFEFF ||
  isLineTerminator c

/-- The characters matched by `\d`. -/
def isDigit (c : Char) : Bool :=
  0x30 ≤ c.toNat && c.toNat ≤ 0x39

/-- The backtick character. -/
def tick : Char := Char.ofNat 96

/-! ## Values of the backend payload -/

/-- A value as `response.json()` produces it, with `undefined` for what a
property read yields when the property is missing.  A number only matters
here through its truthiness, so it is kept as an integer. -/
inductive JSValue where
  | undefined
  | null
  | bool (b : Bool)
  | num (n : Int)
  | str (s : List Char)
  | arr (items : List JSValue)
  | obj (fields : List (String × JSValue))

/-- JavaScript truthiness (`ToBoolean`). -/
def truthy : JSValue → Bool
  | .undefined => false
  | .null => false
  | .bool b => b
  | .num n => n != 0
  | .str s => !s.isEmpty
  | .arr _ => true
  | .obj _ => true

/-- Whether a value is a string (`typeof v === 'string'`). -/
def isStr : JSValue → Bool
  | .str _ => true
  | _ => false

/-- The property read `v.key` for the names `sendMessage` reads (`success`,
`response`, `error`, `result`, `content`, `message`, `text`, `reply`,
`output`): a `TypeError` on `null` and `undefined`, the stored value on an
object that has the key, and `undefined` otherwise (no prototype of a string,
number, boolean, array or object defines one of these names). -/
def getProp (v : JSValue) (key : String) : Except String JSValue :=
  match v with
  | .undefined => .error "TypeError"
  | .null => .error "TypeError"
  | .obj fields => .ok ((fields.lookup key).getD .undefined)
  | _ => .ok .undefined

/-- The operator `a || b` on two property reads. -/
def jsOr (a b : Except String JSValue) : Except String JSValue :=
  match a with
  | .error e => .error e
  | .ok v => if truthy v then .ok v else b

/-- The message used when a successful payload has no usable field (line 143). -/
def unrecognizedFallback : List Char :=
  "I received your message but couldn't format a proper response.".toList

/-- The message used when a failed payload has no usable `error` (line 154). -/
def errorFallback : List Char :=
  "Sorry, I encountered an error. Please try again.".toList

/-- Lines 126-132: the chain of `||` over the fields of `data.response`. -/
def probeResponse (response : JSValue) : Except String JSValue :=
  jsOr (getProp response "result")
    (jsOr (getProp response "content")
      (jsOr (getProp response "message")
        (jsOr (getProp response "text")
          (jsOr (getProp response "reply")
            (jsOr (getProp response "output")
              (.ok (if isStr response then response else .null)))))))

/-- Line 137: the chain of `||` over the top-level fields. -/
def probeTopLevel (data : JSValue) : Except String JSValue :=
  jsOr (getProp data "result")
    (jsOr (getProp data "message")
      (jsOr (getProp data "content")
        (jsOr (getProp data "text") (getProp data "reply"))))

/-- Lines 120-157 of `sendMessage`: the content of the bot message appended
for the parsed payload `data`.  An `error` result stands for a thrown
`TypeError` (which the surrounding `try` turns into the connection message). -/
def extractReply (data : JSValue) : Except String JSValue :=
  match getProp data "success" with
  | .error e => .error e
  | .ok success =>
    if truthy success then
      match getProp data "response" with
      | .error e => .error e
      | .ok response =>
        match (if truthy response then probeResponse response else .ok .undefined) with
        | .error e => .error e
        | .ok nested =>
          match (if !truthy nested then probeTopLevel data else .ok nested) with
          | .error e => .error e
          | .ok botResponse =>
            if !truthy botResponse then .ok (.str unrecognizedFallback) else .ok botResponse
    else
      jsOr (getProp data "error") (.ok (.str errorFallback))

/-! ## The request of `sendMessage` -/

/-- A chat message `{ role, content }`. -/
structure ChatMessage where
  role : String
  content : List Char
deriving DecidableEq, Repr

/-- The initial state of `messages` (lines 4-6). -/
def initialGreeting : ChatMessage :=
  ⟨"bot", "Hello! I'm your AI assistant. How can I help you today? ✨".toList⟩

/-- The method `String.prototype.trim`. -/
def jsTrim (s : List Char) : List Char :=
  ((s.dropWhile isWhiteSpace).reverse.dropWhile isWhiteSpace).reverse

/-- The JSON body of the request (lines 106-109). -/
structure RequestBody where
  message : List Char
  conversation : List ChatMessage
deriving DecidableEq, Repr

/-- Lines 82-109 of `sendMessage`: the body posted for the state
`messages`, `inputMessage`, `isLoading`, or `none` when the guard of line 82
returns without sending. -/
def sendMessageBody (messages : List ChatMessage) (inputMessage : List Char)
    (isLoading : Bool) : Option RequestBody :=
  if (jsTrim inputMessage).isEmpty || isLoading then none
  else
    let userMessage := jsTrim inputMessage
    let apiMessages := (messages.filter (fun msg => msg.role != "bot")).map
      (fun msg => (⟨msg.role, msg.content⟩ : ChatMessage))
    some ⟨userMessage, apiMessages ++ [⟨"user", userMessage⟩]⟩

/-! ## Regular expressions of the formatter -/

/-- The rest of `s` after the literal `p`, when `s` starts with `p`. -/
def stripPrefix : List Char → List Char → Option (List Char)
  | [], s => some s
  | _ :: _, [] => none
  | a :: p, b :: s => if a = b then stripPrefix p s else none

/-- The lazy group `(C*?)` followed by the literal `closer`: the shortest run
of characters satisfying `ok` after which `closer` stands. -/
def lazyUntil (ok : Char → Bool) (closer : List Char) : List Char → Option (List Char)
  | [] => none
  | c :: cs =>
    if closer.isPrefixOf (c :: cs) then some []
    else if ok c then (lazyUntil ok closer cs).map (fun g => c :: g)
    else none

/-- A match of `^marker(.*$)` under the flag `m` at a position whose
line-start status is `bol`: the group `$1` and the length of the match.
Used with the markers `### `, `## ` and `# ` (lines 27-29). -/
def matchHeading (marker : List Char) (bol : Bool) (s : List Char) :
    Option (List Char × Nat) :=
  if bol then
    match stripPrefix marker s with
    | some r =>
      let g := r.takeWhile (fun c => !isLineTerminator c)
      some (g, marker.length + g.length)
    | none => none
  else none

/-- A match of `opener(C*?)closer` at the start of `s`: the group `$1` and
the length of the match. -/
def matchSpan (opener closer : List Char) (ok : Char → Bool) (s : List Char) :
    Option (List Char × Nat) :=
  match stripPrefix opener s with
  | some r =>
    match lazyUntil ok closer r with
    | some g => some (g, opener.length + g.length + closer.length)
    | none => none
  | none => none

/-- The expression `/\*\*(.*?)\*\*/` (line 32). -/
def matchBold ( _bol : Bool) (s : List Char) : Option (List Char × Nat) :=
  matchSpan ['*', '*'] ['*', '*'] (fun c => !isLineTerminator c) s

/-- The expression `/\*(.*?)\*/` (line 35). -/
def matchItalic ( _bol : Bool) (s : List Char) : Option (List Char × Nat) :=
  matchSpan ['*'] ['*'] (fun c => !isLineTerminator c) s

/-- The expression of line 38: three backticks, `([\s\S]*?)`, three backticks. -/
def matchFence ( _bol : Bool) (s : List Char) : Option (List Char × Nat) :=
  matchSpan [tick, tick, tick] [tick, tick, tick] (fun _ => true) s

/-- The expression of line 41: a backtick, one or more characters other than
a backtick (greedy), a backtick. -/
def matchInlineCode ( _bol : Bool) (s : List Char) : Option (List Char × Nat) :=
  match s with
  | [] => none
  | c :: r =>
    if c = tick then
      let g := r.takeWhile (fun x => x != tick)
      if !g.isEmpty && (r.dropWhile (fun x => x != tick)).head? == some tick then
        some (g, g.length + 2)
      else none
    else none

/-- The expression `/^\d+\.\s(.+)$/` under the flag `m` (line 44): the
longest run of digits, a dot, one white-space character (a line terminator is
one), and the non-empty rest of the line. -/
def matchNumbered (bol : Bool) (s : List Char) : Option (List Char × Nat) :=
  if bol then
    let ds := s.takeWhile isDigit
    if ds.isEmpty then none
    else
      match s.dropWhile isDigit with
      | d :: w :: r =>
        if d = '.' && isWhiteSpace w then
          let g := r.takeWhile (fun c => !isLineTerminator c)
          if g.isEmpty then none else some (g, ds.length + 2 + g.length)
        else none
      | _ => none
  else none

/-- The expression `/^[-*]\s(.+)$/` under the flag `m` (line 48). -/
def matchBullet (bol : Bool) (s : List Char) : Option (List Char × Nat) :=
  if bol then
    match s with
    | b :: w :: r =>
      if (b = '-' || b = '*') && isWhiteSpace w then
        let g := r.takeWhile (fun c => !isLineTerminator c)
        if g.isEmpty then none else some (g, 2 + g.length)
      else none
    | _ => none
  else none

/-- The call `s.replace(re, pre + '$1' + post)` for a global expression `re`
none of whose matches is empty, `m bol t` being the match of `re` at a
position where the remaining input is `t` and `bol` tells whether the
position is the start of the input or follows a line terminator.  The first
argument counts the characters of the current match still to be skipped:
the scan resumes after the match, as `lastIndex` does. -/
def replaceAllAux (m : Bool → List Char → Option (List Char × Nat)) (pre post : List Char) :
    Nat → Bool → List Char → List Char
  | _, _, [] => []
  | k + 1, _, c :: cs => replaceAllAux m pre post k (isLineTerminator c) cs
  | 0, bol, c :: cs =>
    match m bol (c :: cs) with
    | some (g, n) =>
      pre ++ g ++ post ++ replaceAllAux m pre post (n - 1) (isLineTerminator c) cs
    | none => c :: replaceAllAux m pre post 0 (isLineTerminator c) cs

/-- The global replacement from the start of a string. -/
def replaceAll (m : Bool → List Char → Option (List Char × Nat)) (pre post : List Char)
    (s : List Char) : List Char :=
  replaceAllAux m pre post 0 true s

/-- The first occurrence of `pat` in `s`: what stands before it and after it. -/
def splitAtFirst (pat : List Char) : List Char → Option (List Char × List Char)
  | [] => none
  | c :: cs =>
    match stripPrefix pat (c :: cs) with
    | some r => some ([], r)
    | none => (splitAtFirst pat cs).map (fun x => (c :: x.1, x.2))

/-- The last occurrence of `pat` in `s`: what stands before it and after it. -/
def splitAtLast (pat : List Char) : List Char → Option (List Char × List Char)
  | [] => none
  | c :: cs =>
    match splitAtLast pat cs with
    | some x => some (c :: x.1, x.2)
    | none =>
      match stripPrefix pat (c :: cs) with
      | some r => some ([], r)
      | none => none

/-- The opening tag of a list item. -/
def liOpen : List Char := "<li>".toList

/-- The closing tag of a list item. -/
def liClose : List Char := "</li>".toList

/-- The call `s.replace(/(<li>.*<\/li>)/s, op + '$1' + cl)` (lines 45 and 51):
the expression is not global and `.` matches every character, so the one
match runs from the first `<li>` to the last `</li>` after it. -/
def wrapList (op cl : List Char) (s : List Char) : List Char :=
  match splitAtFirst liOpen s with
  | some (before, r) =>
    match splitAtLast liClose r with
    | some (mid, after) => before ++ op ++ liOpen ++ mid ++ liClose ++ cl ++ after
    | none => s
  | none => s

/-- The method `String.prototype.includes` for a non-empty pattern. -/
def includes (pat : List Char) : List Char → Bool
  | [] => false
  | c :: cs => pat.isPrefixOf (c :: cs) || includes pat cs

/-- The call `s.split('\n\n')`. -/
def splitBlank : List Char → List (List Char)
  | [] => [[]]
  | [c] => [[c]]
  | c :: d :: rest =>
    if c = '\n' && d = '\n' then [] :: splitBlank rest
    else
      match splitBlank (d :: rest) with
      | [] => [[c]]
      | p :: ps => (c :: p) :: ps

/-- The callback of `paragraphs.map` (lines 56-66). -/
def wrapParagraph (p : List Char) : List Char :=
  if "<h".toList.isPrefixOf p || "<ol>".toList.isPrefixOf p || "<ul>".toList.isPrefixOf p
      || "<pre>".toList.isPrefixOf p then p
  else if liOpen.isPrefixOf (jsTrim p) then p
  else "<p>".toList ++ p ++ "</p>".toList

/-- Lines 55-66: split on blank lines, drop the candidates that are empty
after trimming, wrap the others and join them. -/
def paragraphs (formatted : List Char) : List Char :=
  (((splitBlank formatted).filter (fun p => !(jsTrim p).isEmpty)).map wrapParagraph).flatten

/-- The text after the headings, bold, italic, fenced and inline code rules
(lines 27-41). -/
def inlineStage (text : List Char) : List Char :=
  let f1 := replaceAll (matchHeading "### ".toList) "<h3>".toList "</h3>".toList text
  let f2 := replaceAll (matchHeading "## ".toList) "<h2>".toList "</h2>".toList f1
  let f3 := replaceAll (matchHeading "# ".toList) "<h1>".toList "</h1>".toList f2
  let f4 := replaceAll matchBold "<strong>".toList "</strong>".toList f3
  let f5 := replaceAll matchItalic "<em>".toList "</em>".toList f4
  let f6 := replaceAll matchFence "<pre><code>".toList "</code></pre>".toList f5
  replaceAll matchInlineCode "<code>".toList "</code>".toList f6

/-- The text after line 44: numbered lines turned into list items. -/
def numberedStage (text : List Char) : List Char :=
  replaceAll matchNumbered liOpen liClose (inlineStage text)

/-- The text after line 45: the items wrapped once in `<ol>`. -/
def olStage (text : List Char) : List Char :=
  wrapList "<ol>".toList "</ol>".toList (numberedStage text)

/-- The text after line 48: bullet lines turned into list items. -/
def bulletStage (text : List Char) : List Char :=
  replaceAll matchBullet liOpen liClose (olStage text)

/-- The text after lines 50-52: the items wrapped in `<ul>` unless the text
has an `<ol>`. -/
def ulStage (text : List Char) : List Char :=
  if !includes "<ol>".toList (bulletStage text) then
    wrapList "<ul>".toList "</ul>".toList (bulletStage text)
  else bulletStage text

/-- The function `formatBotResponse` (lines 21-69) on a string. -/
def formatBotResponse (text : List Char) : List Char :=
  if text.isEmpty then text else paragraphs (ulStage text)

/-! ## The reply extractor as the specification words it -/

/-- The field `key` of a payload as the specification reads it: the stored
value when `v` is an object that has the key, and absent (`undefined`)
otherwise. -/
def field (v : JSValue) (key : String) : JSValue :=
  match v with
  | .obj fields => (fields.lookup key).getD .undefined
  | _ => .undefined

/-- The nested candidates of the specification's resolution order: six
fields of `response`, then `response` itself when it is a string. -/
def nestedCandidates (data : JSValue) : List JSValue :=
  [field (field data "response") "result", field (field data "response") "content",
   field (field data "response") "message", field (field data "response") "text",
   field (field data "response") "reply", field (field data "response") "output",
   if isStr (field data "response") then field data "response" else .undefined]

/-- The top-level candidates of the specification's resolution order. -/
def topLevelCandidates (data : JSValue) : List JSValue :=
  [field data "result", field data "message", field data "content", field data "text",
   field data "reply"]

/-- The candidates of the specification's resolution order for a successful
payload: the nested ones, then the top-level ones. -/
def replyCandidates (data : JSValue) : List JSValue :=
  nestedCandidates data ++ topLevelCandidates data

/-- The first truthy value of a list of candidates. -/
def firstTruthy (vs : List JSValue) : Option JSValue :=
  vs.find? truthy

/-- Whether a value is a string that is not empty. -/
def isNonEmptyStr : JSValue → Bool
  | .str s => !s.isEmpty
  | _ => false

/-! ## The hypotheses of the formatter claims -/

/-- Whether some position of a string that starts a line (the start of the
string when `bol` holds, or a position after a line terminator) is followed
by a text satisfying `p`. -/
def atSomeLineStart (p : List Char → Bool) : Bool → List Char → Bool
  | _, [] => false
  | bol, c :: cs => (bol && p (c :: cs)) || atSomeLineStart p (isLineTerminator c) cs

/-- A heading marker: one to three `#` and a space. -/
def headingMarker (v : List Char) : Bool :=
  "# ".toList.isPrefixOf v || "## ".toList.isPrefixOf v || "### ".toList.isPrefixOf v

/-- A numbered-item marker: digits, a dot and a white-space character. -/
def numberedMarker (v : List Char) : Bool :=
  !(v.takeWhile isDigit).isEmpty &&
    match v.dropWhile isDigit with
    | d :: w :: _ => d == '.' && isWhiteSpace w
    | _ => false

/-- A bullet marker: `-` or `*` and a white-space character. -/
def bulletMarker (v : List Char) : Bool :=
  match v with
  | b :: w :: _ => (b == '-' || b == '*') && isWhiteSpace w
  | _ => false

/-- A numbered item: a numbered-item marker followed by item text, that is by
a character that does not end the line.  The white-space character of the
marker may be any that `\s` matches. -/
def numberedItem (v : List Char) : Bool :=
  !(v.takeWhile isDigit).isEmpty &&
    match v.dropWhile isDigit with
    | d :: w :: x :: _ => d == '.' && isWhiteSpace w && !isLineTerminator x
    | _ => false

/-- A bullet item: a bullet marker followed by item text. -/
def bulletItem (v : List Char) : Bool :=
  match v with
  | b :: w :: x :: _ => (b == '-' || b == '*') && isWhiteSpace w && !isLineTerminator x
  | _ => false

/-- Whether some position of a string is followed by a text satisfying `p`. -/
def atSomePosition (p : List Char → Bool) : List Char → Bool
  | [] => false
  | c :: cs => p (c :: cs) || atSomePosition p cs

/-- A `*` followed by another `*` on the same line. -/
def starPair (v : List Char) : Bool :=
  match v with
  | c :: r => c == '*' && (r.takeWhile (fun x => !isLineTerminator x)).contains '*'
  | [] => false

/-- A lone bullet marker: `-` or `*` directly before a line break that is
followed by text.  The white space `\s` of the bullet rule matches the line
break, so that the next line becomes the item. -/
def loneBullet (v : List Char) : Bool :=
  match v with
  | b :: w :: x :: _ => (b == '-' || b == '*') && isLineTerminator w && !isLineTerminator x
  | _ => false

/-- Whether a string has an `<li>` with a `</li>` somewhere after it, the
text the expression `/(<li>.*<\/li>)/s` matches. -/
def hasItemSpan (s : List Char) : Bool :=
  match splitAtFirst liOpen s with
  | some x => includes liClose x.2
  | none => false

/-- The opening tag `<hn>` of a heading of level `n`. -/
def headingOpen (n : Nat) : List Char :=
  ['<', 'h', Nat.digitChar n, '>']

/-- The closing tag `</hn>` of a heading of level `n`. -/
def headingClose (n : Nat) : List Char :=
  ['<', '/', 'h', Nat.digitChar n, '>']

/-- The fence of a code block: three backticks. -/
def fence : List Char :=
  [tick, tick, tick]

/-! ## Auxiliary notions for the formatter -/

/-- The line-start status after reading `u` from a position whose status is
`bol`: whether the last character read is a line terminator. -/
def endsLine : Bool → List Char → Bool
  | bol, [] => bol
  | _, c :: cs => endsLine (isLineTerminator c) cs

/-- The number of occurrences of the non-empty pattern `pat` in a string. -/
def countOcc (pat : List Char) : List Char → Nat
  | [] => 0
  | c :: cs => (if pat.isPrefixOf (c :: cs) then 1 else 0) + countOcc pat cs

/-- Whether the expression matched by `m` matches at some position of a
string read from a position whose line-start status is `bol`. -/
def anyMatch (m : Bool → List Char → Option (List Char × Nat)) : Bool → List Char → Bool
  | _, [] => false
  | bol, c :: cs => (m bol (c :: cs)).isSome || anyMatch m (isLineTerminator c) cs

/-- Whether the expression matched by `m` matches at some position inside
`a` when `a` is followed by `b`. -/
def anyMatchIn (m : Bool → List Char → Option (List Char × Nat)) :
    Bool → List Char → List Char → Bool
  | _, [], _ => false
  | bol, c :: cs, b =>
    (m bol (c :: cs ++ b)).isSome || anyMatchIn m (isLineTerminator c) cs b

/-- The characters the expressions delete around a group: the markers `#`,
`*`, backtick, `-`, the dot and digits of a numbered item, and white space. -/
def isMarkerChar (c : Char) : Bool :=
  c == '#' || c == '*' || c == tick || c == '-' || c == '.' || isDigit c || isWhiteSpace c

/-- The characters at which a match of one of the rules of lines 27-41 can
start or end: `#`, `*` and the backtick. -/
def isInlineMarker (c : Char) : Bool :=
  c == '#' || c == '*' || c == tick

/-- The anatomy of a match on `s`: deleted opener `o`, group `g`, deleted
closer `cl`, unread rest. -/
structure HitShape (s g o cl rest : List Char) : Prop where
  split : s = o ++ g ++ cl ++ rest
  opener_ne : o ≠ []
  opener_mk : ∀ c ∈ o, isMarkerChar c = true
  closer_mk : ∀ c ∈ cl, isMarkerChar c = true
  boundary : cl = [] → ∀ c ∈ rest.head?, isLineTerminator c = true
  ends : ∀ bol, endsLine bol (o ++ g ++ cl) = false

/-- Every match of `m` has the anatomy `HitShape`. -/
def MatchShape (m : Bool → List Char → Option (List Char × Nat)) : Prop :=
  ∀ bol s g n, m bol s = some (g, n) →
    ∃ o cl rest, n = (o ++ g ++ cl).length ∧ HitShape s g o cl rest

/-- What the matches of the rules of lines 27-41 have in common beyond
`HitShape`: the opener holds no line terminator and no digit and starts with
`#`, `*` or a backtick, the closer is made of such markers, and the group
stays on one line unless there is a closer. -/
structure InlineHit (g o cl : List Char) : Prop where
  opener_plain : ∀ c ∈ o, isLineTerminator c = false ∧ isDigit c = false
  opener_head : ∃ h t, o = h :: t ∧ isInlineMarker h = true
  closer_inline : ∀ c ∈ cl, isInlineMarker c = true
  group_line : (∀ c ∈ g, isLineTerminator c = false) ∨ cl ≠ []

/-- Every match of `m` has the anatomy of a rule of lines 27-41. -/
def InlineShape (m : Bool → List Char → Option (List Char × Nat)) : Prop :=
  ∀ bol s g n, m bol s = some (g, n) →
    ∃ o cl rest, n = (o ++ g ++ cl).length ∧ HitShape s g o cl rest ∧ InlineHit g o cl

/-- The characters of the marker of a list item: `-`, `*`, the dot, digits
and white space. -/
def isItemChar (c : Char) : Bool :=
  c == '-' || c == '*' || c == '.' || isDigit c || isWhiteSpace c

/-- A test on the text at a line start that reads a marker `u` made of
item-marker characters and then only asks that the next character does not
end the line. -/
def LocalPattern (p : List Char → Bool) : Prop :=
  ∀ v, p v = true → ∃ u x r, v = u ++ x :: r ∧ u ≠ [] ∧ (∀ c ∈ u, isItemChar c = true)
    ∧ isLineTerminator x = false ∧ ∀ y Y, isLineTerminator y = false → p (u ++ y :: Y) = true

/-- A test at a line start, seen as a rule that matches there. -/
def lineRule (p : List Char → Bool) : Bool → List Char → Option (List Char × Nat) :=
  fun bol v => if bol && p v then some ([], 0) else none

/-- Whether a text starts with the line `L`: with `L` followed by the end of
the text or by a line terminator. -/
def lineIs (L v : List Char) : Bool :=
  match stripPrefix L v with
  | some r => r.head?.all isLineTerminator
  | none => false

/-- Whether some line has a `*` after another `*`, read from a position
before which the current line has a `*` exactly when `seen` holds. -/
def twoStars : Bool → List Char → Bool
  | _, [] => false
  | seen, c :: cs =>
    if isLineTerminator c then twoStars false cs
    else if c == '*' then seen || twoStars true cs
    else twoStars seen cs

/-- What the matches of the heading, fence and inline-code rules have in
common beyond `InlineHit`: the opener starts with a backtick, or with `#` at
a line start, and holds no `*`, and the closer is made of backticks. -/
structure PlainHit (bol : Bool) (o cl : List Char) : Prop where
  opener_head : ∃ h t, o = h :: t ∧ (h = tick ∨ (h = '#' ∧ bol = true))
  opener_star : '*' ∉ o
  closer_tick : ∀ c ∈ cl, c = tick

/-- Every match of `m` has the anatomy of a heading, fence or inline-code
rule. -/
def PlainShape (m : Bool → List Char → Option (List Char × Nat)) : Prop :=
  ∀ bol s g n, m bol s = some (g, n) →
    ∃ o cl rest, n = (o ++ g ++ cl).length ∧ HitShape s g o cl rest ∧ InlineHit g o cl
      ∧ PlainHit bol o cl

/-- A replacement text that starts with `<` and holds no line terminator. -/
def TagText (t : List Char) : Prop :=
  (∃ r, t = '<' :: r) ∧ ∀ c ∈ t, isLineTerminator c = false

/-- The replacement texts of the rules of lines 27-41. -/
def inlineTags : List (List Char) :=
  ["<h3>".toList, "</h3>".toList, "<h2>".toList, "</h2>".toList, "<h1>".toList,
    "</h1>".toList, "<strong>".toList, "</strong>".toList, "<em>".toList, "</em>".toList,
    "<pre><code>".toList, "</code></pre>".toList, "<code>".toList, "</code>".toList]

/-- The replacement texts of `formatBotResponse`, the list wrappers apart. -/
def insertedTags : List (List Char) :=
  inlineTags ++ [liOpen, liClose, "<p>".toList, "</p>".toList]

/-- A pattern in which `<` can only stand first and `>` only last, as in a tag. -/
def TagLike (pat : List Char) : Prop :=
  pat ≠ [] ∧ '<' ∉ pat.tail ∧ '>' ∉ pat.dropLast

/-- A replacement text that starts with `<` and ends with `>`. -/
def TagBounded (t : List Char) : Prop :=
  (∃ r, t = '<' :: r) ∧ (∃ r, t = r ++ ['>'])

/-! ## The reply extractor -/

theorem jsOr_ok (v : JSValue) (b : Except String JSValue) :
    jsOr (.ok v) b = if truthy v then .ok v else b := rfl

theorem getProp_obj (fields : List (String × JSValue)) (key : String) :
    getProp (.obj fields) key = .ok (field (.obj fields) key) := rfl

theorem getProp_of_truthy (v : JSValue) (key : String) (h : truthy v = true) :
    getProp v key = .ok (field v key) := by
  cases v <;> simp_all [truthy, getProp, field]

theorem field_of_not_truthy (v : JSValue) (key : String) (h : truthy v = false) :
    field v key = .undefined := by
  cases v <;> simp_all [truthy, field]

theorem extractReply_success (fields : List (String × JSValue))
    (h : truthy (field (.obj fields) "success") = true) :
    extractReply (.obj fields) =
      .ok ((firstTruthy (replyCandidates (.obj fields))).getD (.str unrecognizedFallback)) := by
  simp only [extractReply, getProp_obj, h, if_true]
  generalize hr : field (JSValue.obj fields) "response" = r
  have hund : truthy JSValue.undefined = false := rfl
  have hnull : truthy JSValue.null = false := rfl
  have hstr : ∀ x : JSValue, truthy (if isStr r = true then x else JSValue.undefined) =
      (isStr r && truthy x) := by
    intro x; cases isStr r <;> simp [hund]
  by_cases hrt : truthy r = true
  · simp only [hrt, if_true, probeResponse, getProp_of_truthy r _ hrt, jsOr_ok,
      probeTopLevel, getProp_obj, replyCandidates, nestedCandidates, topLevelCandidates,
      List.cons_append, List.nil_append, firstTruthy, hr, List.find?]
    by_cases h1 : truthy (field r "result") = true
    · simp [h1]
    by_cases h2 : truthy (field r "content") = true
    · simp [h1, h2]
    by_cases h3 : truthy (field r "message") = true
    · simp [h1, h2, h3]
    by_cases h4 : truthy (field r "text") = true
    · simp [h1, h2, h3, h4]
    by_cases h5 : truthy (field r "reply") = true
    · simp [h1, h2, h3, h4, h5]
    by_cases h6 : truthy (field r "output") = true
    · simp [h1, h2, h3, h4, h5, h6]
    by_cases h7 : isStr r = true
    · simp [h1, h2, h3, h4, h5, h6, h7, hrt]
    simp only [h1, h2, h3, h4, h5, h6, h7, hnull, if_false, Bool.false_eq_true, Bool.not_false,
      if_true, hund]
    by_cases g1 : truthy (field (JSValue.obj fields) "result") = true
    · simp [g1]
    by_cases g2 : truthy (field (JSValue.obj fields) "message") = true
    · simp [g1, g2]
    by_cases g3 : truthy (field (JSValue.obj fields) "content") = true
    · simp [g1, g2, g3]
    by_cases g4 : truthy (field (JSValue.obj fields) "text") = true
    · simp [g1, g2, g3, g4]
    by_cases g5 : truthy (field (JSValue.obj fields) "reply") = true
    · simp [g1, g2, g3, g4, g5]
    simp [g1, g2, g3, g4, g5]
  · have hrf : truthy r = false := by simpa using hrt
    have hs : truthy (if isStr r = true then r else JSValue.undefined) = false := by
      cases isStr r <;> simp [hund, hrf]
    simp only [hrf, Bool.false_eq_true, if_false, hund, Bool.not_false, if_true,
      probeTopLevel, getProp_obj, jsOr_ok, replyCandidates, nestedCandidates,
      topLevelCandidates, List.cons_append, List.nil_append, firstTruthy, hr, List.find?,
      field_of_not_truthy r _ hrf, hs]
    by_cases g1 : truthy (field (JSValue.obj fields) "result") = true
    · simp [g1]
    by_cases g2 : truthy (field (JSValue.obj fields) "message") = true
    · simp [g1, g2]
    by_cases g3 : truthy (field (JSValue.obj fields) "content") = true
    · simp [g1, g2, g3]
    by_cases g4 : truthy (field (JSValue.obj fields) "text") = true
    · simp [g1, g2, g3, g4]
    by_cases g5 : truthy (field (JSValue.obj fields) "reply") = true
    · simp [g1, g2, g3, g4, g5]
    simp [g1, g2, g3, g4, g5]


theorem extractReply_failure (fields : List (String × JSValue))
    (h : truthy (field (.obj fields) "success") = false) :
    extractReply (.obj fields) =
      .ok (if truthy (field (.obj fields) "error") then field (.obj fields) "error"
        else .str errorFallback) := by
  simp only [extractReply, getProp_obj, h, jsOr_ok]
  by_cases he : truthy (field (JSValue.obj fields) "error") = true <;> simp [he]

theorem firstTruthy_append_of_exists (l₁ l₂ : List JSValue)
    (h : ∃ c ∈ l₁, truthy c = true) : firstTruthy (l₁ ++ l₂) = firstTruthy l₁ := by
  induction l₁ with
  | nil => obtain ⟨c, hc, _⟩ := h; cases hc
  | cons a l ih =>
    by_cases ha : truthy a = true
    · simp [firstTruthy, List.find?, ha]
    · obtain ⟨c, hc, hct⟩ := h
      have hc2 : c ∈ l := by
        rcases List.mem_cons.1 hc with rfl | h2
        · exact absurd hct ha
        · exact h2
      have := ih ⟨c, hc2, hct⟩
      simp only [firstTruthy] at this
      simp [firstTruthy, List.find?, ha, this]

theorem firstTruthy_spec (l : List JSValue) (v : JSValue) (h : firstTruthy l = some v) :
    v ∈ l ∧ truthy v = true := by
  induction l with
  | nil => simp [firstTruthy] at h
  | cons a l ih =>
    by_cases ha : truthy a = true
    · simp only [firstTruthy, List.find?, ha] at h
      cases h
      exact ⟨List.mem_cons_self _ _, ha⟩
    · simp only [firstTruthy, List.find?, ha] at h
      have := ih h
      exact ⟨List.mem_cons_of_mem _ this.1, this.2⟩

theorem isNonEmptyStr_of_truthy_isStr (v : JSValue) (h₁ : truthy v = true)
    (h₂ : isStr v = true) : isNonEmptyStr v = true := by
  cases v <;> simp_all [truthy, isStr, isNonEmptyStr]

/-- C1: for a payload whose `success` is truthy the reply is the first truthy
candidate in the order `response.result`, `response.content`,
`response.message`, `response.text`, `response.reply`, `response.output`,
`response` itself when a string, then the top-level `result`, `message`,
`content`, `text`, `reply`, and the fixed message when none is truthy; a
truthy nested candidate wins over every top-level one; and the two payloads
`{success:true, response:{result:"hi"}}` and `{success:true, response:"hi"}`
give `"hi"`. -/
theorem C1_success_reply_is_first_truthy_candidate (fields : List (String × JSValue))
    (h : truthy (field (.obj fields) "success") = true) :
    extractReply (.obj fields) =
        .ok ((firstTruthy (replyCandidates (.obj fields))).getD (.str unrecognizedFallback))
    ∧ ((∃ c ∈ nestedCandidates (.obj fields), truthy c = true) →
        extractReply (.obj fields) =
          .ok ((firstTruthy (nestedCandidates (.obj fields))).getD
            (.str unrecognizedFallback)))
    ∧ extractReply (.obj [("success", .bool true),
          ("response", .obj [("result", .str "hi".toList)])]) = .ok (.str "hi".toList)
    ∧ extractReply (.obj [("success", .bool true), ("response", .str "hi".toList)])
        = .ok (.str "hi".toList) := by
  refine ⟨extractReply_success fields h, ?_, rfl, rfl⟩
  intro hex
  rw [extractReply_success fields h, replyCandidates, firstTruthy_append_of_exists _ _ hex]

/-- Witness of C1: a payload with a falsy nested `result`, a truthy nested
`text` and a truthy top-level `result`. -/
theorem C1_witness :
    truthy (field (.obj [("success", .bool true),
        ("response", .obj [("result", .str []), ("text", .str "nested".toList)]),
        ("result", .str "top".toList)]) "success") = true
    ∧ extractReply (.obj [("success", .bool true),
        ("response", .obj [("result", .str []), ("text", .str "nested".toList)]),
        ("result", .str "top".toList)]) = .ok (.str "nested".toList) :=
  ⟨rfl, (C1_success_reply_is_first_truthy_candidate [("success", .bool true),
        ("response", .obj [("result", .str []), ("text", .str "nested".toList)]),
        ("result", .str "top".toList)] rfl).1.trans rfl⟩

/-- Counterexample to C2 as stated: in `{success:false, error:""}` the field
`error` is present, yet the reply is the fixed message and not `error`. -/
theorem C2_counterexample :
    truthy (field (.obj [("success", .bool false), ("error", .str [])]) "success") = false
    ∧ List.lookup "error" [("success", JSValue.bool false), ("error", JSValue.str [])]
        = some (.str [])
    ∧ extractReply (.obj [("success", .bool false), ("error", .str [])])
        = .ok (.str errorFallback)
    ∧ extractReply (.obj [("success", .bool false), ("error", .str [])]) ≠ .ok (.str []) := by
  refine ⟨rfl, rfl, rfl, ?_⟩
  intro h
  have h2 : extractReply (.obj [("success", .bool false), ("error", .str [])])
      = .ok (.str errorFallback) := rfl
  rw [h2] at h
  injection h with h
  injection h with h
  exact absurd h (by decide)

/-- C2 (amended): for a payload whose `success` is falsy or absent the reply
is `payload.error` when that value is truthy and the fixed error message
otherwise, and it is the same for any two such payloads with the same
`error`, whatever their `response` and top-level reply fields. -/
theorem C2_failure_reply_is_truthy_error_or_fallback (fields : List (String × JSValue))
    (h : truthy (field (.obj fields) "success") = false) :
    extractReply (.obj fields) =
        .ok (if truthy (field (.obj fields) "error") then field (.obj fields) "error"
          else .str errorFallback)
    ∧ ∀ other : List (String × JSValue), truthy (field (.obj other) "success") = false →
        field (.obj other) "error" = field (.obj fields) "error" →
        extractReply (.obj other) = extractReply (.obj fields) := by
  refine ⟨extractReply_failure fields h, ?_⟩
  intro other ho he
  rw [extractReply_failure fields h, extractReply_failure other ho, he]

/-- Witness of C2: the payload `{success:false, error:"bad", response:"x"}`. -/
theorem C2_witness :
    truthy (field (.obj [("success", .bool false), ("error", .str "bad".toList),
        ("response", .str "x".toList)]) "success") = false
    ∧ extractReply (.obj [("success", .bool false), ("error", .str "bad".toList),
        ("response", .str "x".toList)]) = .ok (.str "bad".toList) :=
  ⟨rfl, (C2_failure_reply_is_truthy_error_or_fallback [("success", .bool false),
        ("error", .str "bad".toList), ("response", .str "x".toList)] rfl).1.trans rfl⟩

/-- C3, the code at the failing input `{success:true, response:{result:42}}`:
the reply extraction of lines 120-144 returns the number `42`, which is not a
non-empty string, although the claim says the reply is always one.  Line 126
takes `data.response.result` as it is, whereas the sibling candidate of line
132 is taken only when `typeof data.response === 'string'`: for
`{success:true, response:42}` the number is refused and the reply is the
fixed message. -/
theorem C3_reply_is_a_number_at_failing_input :
    extractReply (.obj [("success", .bool true), ("response", .obj [("result", .num 42)])])
        = .ok (.num 42)
    ∧ isStr (.num 42) = false
    ∧ isNonEmptyStr (.num 42) = false
    ∧ extractReply (.obj [("success", .bool true), ("response", .num 42)])
        = .ok (.str unrecognizedFallback) :=
  ⟨rfl, rfl, rfl, rfl⟩

/-- The extraction never fails on an object and its result is truthy; the
result is a non-empty string whenever every truthy value among `error` and
the candidates is a string. -/
theorem extractReply_ok_of_obj (fields : List (String × JSValue)) :
    ∃ v, extractReply (.obj fields) = .ok v ∧ truthy v = true
      ∧ ((∀ c ∈ field (.obj fields) "error" :: replyCandidates (.obj fields),
            truthy c = true → isStr c = true) → isNonEmptyStr v = true) := by
  by_cases hs : truthy (field (.obj fields) "success") = true
  · rw [extractReply_success fields hs]
    cases hf : firstTruthy (replyCandidates (.obj fields)) with
    | none => exact ⟨_, rfl, rfl, fun _ => rfl⟩
    | some v =>
      obtain ⟨hmem, ht⟩ := firstTruthy_spec _ _ hf
      exact ⟨v, rfl, ht, fun hall =>
        isNonEmptyStr_of_truthy_isStr v ht (hall v (List.mem_cons_of_mem _ hmem) ht)⟩
  · have hs2 : truthy (field (.obj fields) "success") = false := by simpa using hs
    rw [extractReply_failure fields hs2]
    by_cases he : truthy (field (.obj fields) "error") = true
    · refine ⟨field (.obj fields) "error", by simp [he], he, fun hall =>
        isNonEmptyStr_of_truthy_isStr _ he (hall _ (List.mem_cons_self _ _) he)⟩
    · exact ⟨.str errorFallback, by simp [he], rfl, fun _ => rfl⟩

/-! ## The request body -/

theorem sendMessageBody_eq (messages : List ChatMessage) (input : List Char)
    (h : (jsTrim input).isEmpty = false) :
    sendMessageBody messages input false =
      some ⟨jsTrim input,
        messages.filter (fun msg => msg.role != "bot") ++ [⟨"user", jsTrim input⟩]⟩ := by
  simp [sendMessageBody, h]

/-- Counterexample to C10 as stated: with the history greeting, user `hi`,
bot `hello` and the input `x`, the conversation sent is user `hi`, user `x`;
the earlier bot message `hello` is not part of it. -/
theorem C10_counterexample :
    sendMessageBody [initialGreeting, ⟨"user", "hi".toList⟩, ⟨"bot", "hello".toList⟩]
        " x ".toList false
      = some ⟨"x".toList, [⟨"user", "hi".toList⟩, ⟨"user", "x".toList⟩]⟩
    ∧ sendMessageBody [initialGreeting, ⟨"user", "hi".toList⟩, ⟨"bot", "hello".toList⟩]
        " x ".toList false
      ≠ some ⟨"x".toList,
          [⟨"user", "hi".toList⟩, ⟨"bot", "hello".toList⟩, ⟨"user", "x".toList⟩]⟩ := by
  decide

/-- C10 (amended): for every history that begins with the initial greeting
and every input whose trimmed text is non-empty, sent while no request is
outstanding, `message` is the trimmed input and `conversation` consists of
the history's messages whose role is not `bot` (the greeting and every
earlier bot reply are left out), in their original order, followed by the
just-sent user message as last element. -/
theorem C10_conversation_is_user_history_then_input (history : List ChatMessage)
    (input : List Char) (h : (jsTrim input).isEmpty = false) :
    sendMessageBody (initialGreeting :: history) input false =
      some ⟨jsTrim input,
        history.filter (fun msg => msg.role != "bot") ++ [⟨"user", jsTrim input⟩]⟩ := by
  rw [sendMessageBody_eq _ _ h]
  rfl

/-- Witness of C10: a history with a user message and a bot reply. -/
theorem C10_witness :
    (jsTrim " x ".toList).isEmpty = false
    ∧ sendMessageBody [initialGreeting, ⟨"user", "hi".toList⟩, ⟨"bot", "hello".toList⟩]
        " x ".toList false
      = some ⟨"x".toList, [⟨"user", "hi".toList⟩, ⟨"user", "x".toList⟩]⟩ :=
  ⟨by decide, (C10_conversation_is_user_history_then_input _ _ (by decide)).trans (by decide)⟩

/-! ## Prefixes and occurrences -/

theorem stripPrefix_eq_some_iff (p s r : List Char) :
    stripPrefix p s = some r ↔ s = p ++ r := by
  induction p generalizing s with
  | nil => simp [stripPrefix, eq_comm]
  | cons a p ih =>
    cases s with
    | nil => simp [stripPrefix]
    | cons b s =>
      by_cases hab : a = b
      · subst hab
        simp [stripPrefix, ih]
      · simp [stripPrefix, hab]
        intro h
        exact fun _ => hab h.symm

theorem stripPrefix_append (p r : List Char) : stripPrefix p (p ++ r) = some r :=
  (stripPrefix_eq_some_iff p _ r).2 rfl

theorem stripPrefix_eq_none_iff (p s : List Char) :
    stripPrefix p s = none ↔ ¬ p <+: s := by
  constructor
  · intro h ⟨r, hr⟩
    rw [← hr, stripPrefix_append] at h
    cases h
  · intro h
    cases hs : stripPrefix p s with
    | none => rfl
    | some r => exact absurd ⟨r, ((stripPrefix_eq_some_iff p s r).1 hs).symm⟩ h

theorem endsLine_append (bol : Bool) (a b : List Char) :
    endsLine bol (a ++ b) = endsLine (endsLine bol a) b := by
  induction a generalizing bol with
  | nil => rfl
  | cons c a ih => simp [endsLine, ih]

theorem endsLine_append_singleton (bol : Bool) (a : List Char) (c : Char) :
    endsLine bol (a ++ [c]) = isLineTerminator c := by
  rw [endsLine_append]; rfl

theorem endsLine_of_no_terminator (a : List Char) (h : ∀ c ∈ a, isLineTerminator c = false) :
    ∀ bol, endsLine bol a = (bol && a.isEmpty) := by
  induction a with
  | nil => intro bol; simp [endsLine]
  | cons c a ih =>
    intro bol
    have hc := h c (List.mem_cons_self _ _)
    rw [endsLine, ih (fun x hx => h x (List.mem_cons_of_mem _ hx)), hc]
    simp

theorem endsLine_false_of_no_terminator (a : List Char)
    (h : ∀ c ∈ a, isLineTerminator c = false) : endsLine false a = false := by
  rw [endsLine_of_no_terminator a h]; rfl

theorem endsLine_of_ne_nil (a : List Char) (h : a ≠ []) (b₁ b₂ : Bool) :
    endsLine b₁ a = endsLine b₂ a := by
  cases a with
  | nil => exact absurd rfl h
  | cons c a => rfl

theorem prefix_of_prefix_append_cons {X L b : List Char} {c : Char} (hL : L ≠ [])
    (hc : c ∉ X.tail) (h : X <+: L ++ c :: b) : X <+: L := by
  rcases List.prefix_or_prefix_of_prefix h (List.prefix_append L (c :: b)) with h1 | h1
  · exact h1
  · obtain ⟨x, rfl⟩ := h1
    rw [List.prefix_append_right_inj] at h
    cases x with
    | nil => simp
    | cons d x =>
      rw [List.cons_prefix_cons] at h
      obtain ⟨rfl, _⟩ := h
      exfalso
      apply hc
      cases L with
      | nil => exact absurd rfl hL
      | cons e L => simp

theorem prefix_of_prefix_snoc_append {X L b : List Char} {c : Char}
    (hc : c ∉ X.dropLast) (h : X <+: (L ++ [c]) ++ b) : X <+: L ++ [c] := by
  rcases List.prefix_or_prefix_of_prefix h (List.prefix_append (L ++ [c]) b) with h1 | h1
  · exact h1
  · obtain ⟨x, rfl⟩ := h1
    cases x with
    | nil => simp
    | cons d x =>
      exfalso
      apply hc
      have : (L ++ [c] ++ d :: x).dropLast = L ++ [c] ++ (d :: x).dropLast := by
        rw [List.dropLast_append_of_ne_nil _ (by simp)]
      rw [this]
      simp

theorem isPrefixOf_eq_of_iff {X a b : List Char} (h : X <+: a ↔ X <+: b) :
    X.isPrefixOf a = X.isPrefixOf b := by
  rw [Bool.eq_iff_iff, List.isPrefixOf_iff_prefix, List.isPrefixOf_iff_prefix]
  exact h

theorem countOcc_cons (X : List Char) (c : Char) (cs : List Char) :
    countOcc X (c :: cs) = (if X.isPrefixOf (c :: cs) then 1 else 0) + countOcc X cs := rfl

theorem countOcc_append_cons (X a b : List Char) (c : Char) (hc : c ∉ X.tail) :
    countOcc X (a ++ c :: b) = countOcc X a + countOcc X (c :: b) := by
  induction a with
  | nil => simp [countOcc]
  | cons d a ih =>
    have hp : X.isPrefixOf (d :: (a ++ c :: b)) = X.isPrefixOf (d :: a) := by
      apply isPrefixOf_eq_of_iff
      constructor
      · intro h
        exact prefix_of_prefix_append_cons (L := d :: a) (by simp) hc (by simpa using h)
      · intro h
        exact h.trans (List.prefix_append (d :: a) (c :: b))
    simp only [List.cons_append, countOcc_cons, hp, ih]
    omega

theorem countOcc_snoc_append (X a b : List Char) (c : Char) (hc : c ∉ X.dropLast) :
    countOcc X (a ++ [c] ++ b) = countOcc X (a ++ [c]) + countOcc X b := by
  induction a with
  | nil =>
    have hp : X.isPrefixOf (c :: b) = X.isPrefixOf [c] := by
      apply isPrefixOf_eq_of_iff
      constructor
      · intro h
        exact prefix_of_prefix_snoc_append (L := []) hc (by simpa using h)
      · intro h
        exact h.trans (List.prefix_append [c] b)
    simp [countOcc, hp]
  | cons d a ih =>
    have hp : X.isPrefixOf (d :: (a ++ [c] ++ b)) = X.isPrefixOf (d :: (a ++ [c])) := by
      apply isPrefixOf_eq_of_iff
      constructor
      · intro h
        exact prefix_of_prefix_snoc_append (L := d :: a) hc (by simpa using h)
      · intro h
        exact h.trans (by simp)
    simp only [List.cons_append, List.append_assoc, countOcc_cons] at hp ih ⊢
    rw [hp, ih]
    omega

theorem isPrefixOf_cons_of_head_ne {X : List Char} (hX : X ≠ []) (c : Char) (w : List Char)
    (hc : c ∉ X) : X.isPrefixOf (c :: w) = false := by
  cases X with
  | nil => exact absurd rfl hX
  | cons x X =>
    have : x ≠ c := fun h => hc (h ▸ List.mem_cons_self _ _)
    simp [List.isPrefixOf, this]

theorem countOcc_markers_append (X o v : List Char) (hX : X ≠ [])
    (ho : ∀ c ∈ o, c ∉ X) : countOcc X (o ++ v) = countOcc X v := by
  induction o with
  | nil => rfl
  | cons c o ih =>
    simp only [List.cons_append, countOcc,
      isPrefixOf_cons_of_head_ne hX c _ (ho c (List.mem_cons_self _ _))]
    simpa using ih (fun x hx => ho x (List.mem_cons_of_mem _ hx))

theorem countOcc_append_markers (X u o v : List Char) (hX : X ≠ []) (hne : o ≠ [])
    (ho : ∀ c ∈ o, c ∉ X) : countOcc X (u ++ o ++ v) = countOcc X u + countOcc X v := by
  cases o with
  | nil => exact absurd rfl hne
  | cons c o =>
    have hc : c ∉ X.tail := fun h => ho c (List.mem_cons_self _ _) (List.mem_of_mem_tail h)
    rw [List.append_assoc, List.cons_append, countOcc_append_cons X u _ c hc,
      ← List.cons_append, countOcc_markers_append X (c :: o) v hX ho]

theorem countOcc_nil (X : List Char) : countOcc X [] = 0 := rfl

theorem countOcc_append_tag (X a t b : List Char) (hX : TagLike X) (ht : TagBounded t) :
    countOcc X (a ++ t ++ b) = countOcc X a + countOcc X t + countOcc X b := by
  obtain ⟨⟨r, hr⟩, ⟨r2, hr2⟩⟩ := ht
  have h1 : countOcc X (a ++ t ++ b) = countOcc X a + countOcc X (t ++ b) := by
    rw [List.append_assoc, hr, List.cons_append, countOcc_append_cons X a _ '<' hX.2.1]
  have h2 : countOcc X (t ++ b) = countOcc X t + countOcc X b := by
    rw [hr2]
    exact countOcc_snoc_append X r2 b '>' hX.2.2
  rw [h1, h2]; omega

theorem countOcc_append_le (X a b : List Char) :
    countOcc X a + countOcc X b ≤ countOcc X (a ++ b) := by
  induction a with
  | nil => simp [countOcc]
  | cons d a ih =>
    have hp : X.isPrefixOf (d :: a) = true → X.isPrefixOf (d :: (a ++ b)) = true := by
      rw [List.isPrefixOf_iff_prefix, List.isPrefixOf_iff_prefix]
      intro h
      exact h.trans (by simp)
    simp only [List.cons_append, countOcc_cons]
    by_cases h : X.isPrefixOf (d :: a) = true
    · simp only [h, hp h, if_true]; omega
    · have h0 : (if X.isPrefixOf (d :: a) = true then 1 else 0) = 0 := by simp [h]
      rw [h0]
      omega

theorem countOcc_eq_zero_of_append (X a b : List Char) (h : countOcc X (a ++ b) = 0) :
    countOcc X a = 0 ∧ countOcc X b = 0 := by
  have := countOcc_append_le X a b
  omega

theorem countOcc_pos_iff (X s : List Char) (hX : X ≠ []) :
    0 < countOcc X s ↔ ∃ u v, s = u ++ X ++ v := by
  induction s with
  | nil =>
    simp only [countOcc, Nat.lt_irrefl, false_iff]
    rintro ⟨u, v, h⟩
    have := congrArg List.length h
    simp at this
    exact hX (List.length_eq_zero.1 (by omega))
  | cons c s ih =>
    rw [countOcc_cons]
    constructor
    · intro h
      by_cases hp : X.isPrefixOf (c :: s) = true
      · rw [List.isPrefixOf_iff_prefix] at hp
        obtain ⟨v, hv⟩ := hp
        exact ⟨[], v, by simpa using hv.symm⟩
      · have h0 : (if X.isPrefixOf (c :: s) = true then 1 else 0) = 0 := by simp [hp]
        rw [h0, Nat.zero_add] at h
        obtain ⟨u, v, huv⟩ := ih.1 h
        exact ⟨c :: u, v, by simp [huv]⟩
    · rintro ⟨u, v, huv⟩
      cases u with
      | nil =>
        have : X.isPrefixOf (c :: s) = true := by
          rw [List.isPrefixOf_iff_prefix]; exact ⟨v, by simpa using huv.symm⟩
        simp [this]
      | cons d u =>
        simp only [List.cons_append, List.cons.injEq] at huv
        have : 0 < countOcc X s := ih.2 ⟨u, v, by simpa using huv.2⟩
        omega

theorem includes_eq_true_iff (X s : List Char) :
    includes X s = true ↔ 0 < countOcc X s := by
  induction s with
  | nil => simp [includes, countOcc]
  | cons c s ih =>
    rw [countOcc_cons, includes]
    by_cases hp : X.isPrefixOf (c :: s) = true
    · simp [hp]
    · simp [hp, ih]

theorem includes_eq_false_iff (X s : List Char) :
    includes X s = false ↔ countOcc X s = 0 := by
  rw [← Bool.not_eq_true, includes_eq_true_iff]; omega

/-! ## The global replacement -/

theorem replaceAllAux_nil (m : Bool → List Char → Option (List Char × Nat))
    (pre post : List Char) (k : Nat) (bol : Bool) :
    replaceAllAux m pre post k bol [] = [] := by
  cases k <;> rfl

theorem replaceAllAux_skip (m : Bool → List Char → Option (List Char × Nat))
    (pre post : List Char) (k : Nat) (bol : Bool) (s : List Char) :
    replaceAllAux m pre post k bol s =
      replaceAllAux m pre post 0 (endsLine bol (s.take k)) (s.drop k) := by
  induction k generalizing bol s with
  | zero => simp [endsLine]
  | succ k ih =>
    cases s with
    | nil => simp [replaceAllAux_nil]
    | cons c cs =>
      rw [replaceAllAux, ih]
      simp [endsLine]

theorem replaceAllAux_cons_none (m : Bool → List Char → Option (List Char × Nat))
    (pre post : List Char) (bol : Bool) (c : Char) (cs : List Char)
    (h : m bol (c :: cs) = none) :
    replaceAllAux m pre post 0 bol (c :: cs) =
      c :: replaceAllAux m pre post 0 (isLineTerminator c) cs := by
  rw [replaceAllAux, h]

theorem replaceAllAux_hit (m : Bool → List Char → Option (List Char × Nat))
    (pre post : List Char) (bol : Bool) (u rest g : List Char) (hu : u ≠ [])
    (h : m bol (u ++ rest) = some (g, u.length)) :
    replaceAllAux m pre post 0 bol (u ++ rest) =
      pre ++ g ++ post ++ replaceAllAux m pre post 0 (endsLine bol u) rest := by
  cases u with
  | nil => exact absurd rfl hu
  | cons c u =>
    rw [List.cons_append] at h ⊢
    rw [replaceAllAux, h]
    simp only [List.length_cons, Nat.add_sub_cancel]
    rw [replaceAllAux_skip]
    simp [endsLine]

theorem replaceAll_induction {m : Bool → List Char → Option (List Char × Nat)}
    (pre post : List Char) (hm : MatchShape m)
    (P : Bool → List Char → List Char → Prop)
    (hnil : ∀ bol, P bol [] [])
    (hskip : ∀ bol c cs out, m bol (c :: cs) = none →
      P (isLineTerminator c) cs out → P bol (c :: cs) (c :: out))
    (hhit : ∀ bol s g o cl rest out, m bol s = some (g, (o ++ g ++ cl).length) →
      HitShape s g o cl rest → P false rest out → P bol s (pre ++ g ++ post ++ out)) :
    ∀ bol s, P bol s (replaceAllAux m pre post 0 bol s) := by
  intro bol s
  obtain ⟨n, hn⟩ : ∃ n, s.length = n := ⟨_, rfl⟩
  induction n using Nat.strong_induction_on generalizing bol s with
  | _ n ih =>
    cases s with
    | nil => exact hnil bol
    | cons c cs =>
      cases hmc : m bol (c :: cs) with
      | none =>
        rw [replaceAllAux_cons_none m pre post bol c cs hmc]
        exact hskip bol c cs _ hmc (ih cs.length (by simp [← hn]) _ cs rfl)
      | some gn =>
        obtain ⟨g, k⟩ := gn
        obtain ⟨o, cl, rest, hk, hs⟩ := hm bol (c :: cs) g k hmc
        subst hk
        have hsplit : c :: cs = (o ++ g ++ cl) ++ rest := hs.split
        have hne : o ++ g ++ cl ≠ [] := by
          have := hs.opener_ne
          simp [this]
        rw [hsplit] at hmc ⊢
        rw [replaceAllAux_hit m pre post bol (o ++ g ++ cl) rest g hne hmc, hs.ends bol]
        have hlen : rest.length < n := by
          have h1 := congrArg List.length hsplit
          have h2 : 0 < (o ++ g ++ cl).length := List.length_pos.2 hne
          rw [List.length_append] at h1
          omega
        rw [← hsplit] at hmc ⊢
        exact hhit bol (c :: cs) g o cl rest _ hmc hs (ih rest.length hlen _ rest rfl)

theorem isSome_eq_false_iff {α : Type} (x : Option α) : x.isSome = false ↔ x = none := by
  cases x <;> simp

theorem anyMatch_cons (m : Bool → List Char → Option (List Char × Nat)) (bol : Bool)
    (c : Char) (cs : List Char) :
    anyMatch m bol (c :: cs) = ((m bol (c :: cs)).isSome || anyMatch m (isLineTerminator c) cs) :=
  rfl

theorem anyMatchIn_cons (m : Bool → List Char → Option (List Char × Nat)) (bol : Bool)
    (c : Char) (cs b : List Char) :
    anyMatchIn m bol (c :: cs) b =
      ((m bol (c :: (cs ++ b))).isSome || anyMatchIn m (isLineTerminator c) cs b) :=
  rfl

theorem anyMatchIn_nil (m : Bool → List Char → Option (List Char × Nat)) (bol : Bool)
    (b : List Char) : anyMatchIn m bol [] b = false := rfl

/-- Without a match anywhere the replacement leaves the string as it is. -/
theorem replaceAllAux_of_not_anyMatch (m : Bool → List Char → Option (List Char × Nat))
    (pre post : List Char) (bol : Bool) (s : List Char) (h : anyMatch m bol s = false) :
    replaceAllAux m pre post 0 bol s = s := by
  induction s generalizing bol with
  | nil => rfl
  | cons c cs ih =>
    simp only [anyMatch_cons, Bool.or_eq_false_iff, isSome_eq_false_iff] at h
    rw [replaceAllAux_cons_none m pre post bol c cs h.1, ih _ h.2]

theorem anyMatch_append (m : Bool → List Char → Option (List Char × Nat)) (bol : Bool)
    (a b : List Char) :
    anyMatch m bol (a ++ b) = (anyMatchIn m bol a b || anyMatch m (endsLine bol a) b) := by
  induction a generalizing bol with
  | nil => simp [anyMatchIn, endsLine]
  | cons c a ih =>
    simp only [List.cons_append, anyMatch_cons, anyMatchIn_cons, endsLine, ih, Bool.or_assoc]

/-- Reading past a prefix in which no match starts. -/
theorem replaceAllAux_append_of_not_anyMatchIn (m : Bool → List Char → Option (List Char × Nat))
    (pre post : List Char) (bol : Bool) (a b : List Char) (h : anyMatchIn m bol a b = false) :
    replaceAllAux m pre post 0 bol (a ++ b) =
      a ++ replaceAllAux m pre post 0 (endsLine bol a) b := by
  induction a generalizing bol with
  | nil => rfl
  | cons c a ih =>
    simp only [anyMatchIn_cons, Bool.or_eq_false_iff, isSome_eq_false_iff] at h
    rw [List.cons_append, replaceAllAux_cons_none m pre post bol c (a ++ b) h.1, ih _ h.2]
    rfl

/-! ## Occurrences of a tag across a replacement -/

theorem not_mem_of_marker {X : List Char} (hX : ∀ c ∈ X, isMarkerChar c = false)
    {o : List Char} (ho : ∀ c ∈ o, isMarkerChar c = true) : ∀ c ∈ o, c ∉ X := by
  intro c hc hcx
  have := hX c hcx
  rw [ho c hc] at this
  cases this

theorem isMarkerChar_of_isLineTerminator (c : Char) (h : isLineTerminator c = true) :
    isMarkerChar c = true := by
  simp [isMarkerChar, isWhiteSpace, h]

theorem countOcc_hit_input (X : List Char) (hX : X ≠ [])
    (hXm : ∀ c ∈ X, isMarkerChar c = false) {s g o cl rest : List Char}
    (hs : HitShape s g o cl rest) (u : List Char) :
    countOcc X (u ++ s) = countOcc X u + countOcc X g + countOcc X rest := by
  rw [hs.split]
  have h1 : countOcc X (u ++ (o ++ g ++ cl ++ rest)) =
      countOcc X u + countOcc X (g ++ cl ++ rest) := by
    have := countOcc_append_markers X u o (g ++ cl ++ rest) hX hs.opener_ne
      (not_mem_of_marker hXm hs.opener_mk)
    simpa [List.append_assoc] using this
  rw [h1]
  by_cases hcl : cl = []
  · subst hcl
    cases rest with
    | nil => simp [countOcc]
    | cons r rest =>
      have hr : isLineTerminator r = true := hs.boundary rfl r (by simp)
      have hrX : r ∉ X := fun hx => by
        have := hXm r hx
        rw [isMarkerChar_of_isLineTerminator r hr] at this
        cases this
      have hrt : r ∉ X.tail := fun hx => hrX (List.mem_of_mem_tail hx)
      simp only [List.append_nil]
      rw [countOcc_append_cons X g rest r hrt]
      omega
  · have := countOcc_append_markers X g cl rest hX hcl (not_mem_of_marker hXm hs.closer_mk)
    rw [this]; omega

theorem countOcc_hit_output (X : List Char) (hX : TagLike X) {pre post : List Char}
    (hpre : TagBounded pre) (hpost : TagBounded post) (u g w : List Char) :
    countOcc X (u ++ (pre ++ g ++ post ++ w)) =
      countOcc X u + countOcc X pre + countOcc X g + countOcc X post + countOcc X w := by
  have h1 : countOcc X (u ++ (pre ++ g ++ post ++ w)) =
      countOcc X u + countOcc X pre + countOcc X (g ++ post ++ w) := by
    have := countOcc_append_tag X u pre (g ++ post ++ w) hX hpre
    simpa [List.append_assoc] using this
  rw [h1, countOcc_append_tag X g post w hX hpost]
  omega

/-- The number of occurrences of a tag that is not inserted and holds no
marker character is the same before and after a replacement. -/
theorem countOcc_replaceAllAux {m : Bool → List Char → Option (List Char × Nat)}
    {pre post : List Char} (hm : MatchShape m) (X : List Char) (hX : TagLike X)
    (hXm : ∀ c ∈ X, isMarkerChar c = false)
    (hpre : TagBounded pre) (hpost : TagBounded post)
    (hpre0 : countOcc X pre = 0) (hpost0 : countOcc X post = 0) (bol : Bool) (s : List Char) :
    ∀ u, countOcc X (u ++ replaceAllAux m pre post 0 bol s) = countOcc X (u ++ s) := by
  refine replaceAll_induction pre post hm
    (fun _ s out => ∀ u, countOcc X (u ++ out) = countOcc X (u ++ s)) ?_ ?_ ?_ bol s
  · intro _ u; rfl
  · intro bol c cs out _ ih u
    have := ih (u ++ [c])
    simpa [List.append_assoc] using this
  · intro bol s g o cl rest out _ hs ih u
    rw [countOcc_hit_output X hX hpre hpost, countOcc_hit_input X hX.1 hXm hs, hpre0, hpost0]
    have := ih []
    simp only [List.nil_append] at this
    rw [this]; omega

/-- An occurrence of a pattern without marker characters survives a replacement. -/
theorem countOcc_le_replaceAllAux {m : Bool → List Char → Option (List Char × Nat)}
    (pre post : List Char) (hm : MatchShape m) (X : List Char) (hX : X ≠ [])
    (hXm : ∀ c ∈ X, isMarkerChar c = false) (bol : Bool) (s : List Char) :
    ∀ u, countOcc X (u ++ s) ≤ countOcc X (u ++ replaceAllAux m pre post 0 bol s) := by
  refine replaceAll_induction pre post hm
    (fun _ s out => ∀ u, countOcc X (u ++ s) ≤ countOcc X (u ++ out)) ?_ ?_ ?_ bol s
  · intro _ u; exact Nat.le_refl _
  · intro bol c cs out _ ih u
    have := ih (u ++ [c])
    simpa [List.append_assoc] using this
  · intro bol s g o cl rest out _ hs ih u
    rw [countOcc_hit_input X hX hXm hs]
    have h0 := ih []
    simp only [List.nil_append] at h0
    have h1 := countOcc_append_le X u (pre ++ g ++ post ++ out)
    have h2 := countOcc_append_le X (pre ++ g ++ post) out
    have h3 := countOcc_append_le X (pre ++ g) post
    have h4 := countOcc_append_le X pre g
    omega

/-- A match somewhere leaves the replacement text somewhere in the result. -/
theorem replaceAllAux_of_anyMatch {m : Bool → List Char → Option (List Char × Nat)}
    (pre post : List Char) (hm : MatchShape m) (bol : Bool) (s : List Char)
    (h : anyMatch m bol s = true) :
    ∃ a g b, replaceAllAux m pre post 0 bol s = a ++ pre ++ g ++ post ++ b := by
  induction s generalizing bol with
  | nil => simp [anyMatch] at h
  | cons c cs ih =>
    cases hmc : m bol (c :: cs) with
    | none =>
      simp only [anyMatch_cons, hmc, Option.isSome_none, Bool.false_or] at h
      obtain ⟨a, g, b, hab⟩ := ih _ h
      exact ⟨c :: a, g, b, by rw [replaceAllAux_cons_none m pre post bol c cs hmc, hab]; simp⟩
    | some gn =>
      obtain ⟨g, k⟩ := gn
      obtain ⟨o, cl, rest, hk, hs⟩ := hm bol (c :: cs) g k hmc
      subst hk
      have hsplit : c :: cs = (o ++ g ++ cl) ++ rest := hs.split
      have hne : o ++ g ++ cl ≠ [] := by
        have := hs.opener_ne
        simp [this]
      rw [hsplit] at hmc ⊢
      rw [replaceAllAux_hit m pre post bol (o ++ g ++ cl) rest g hne hmc]
      exact ⟨[], g, replaceAllAux m pre post 0 (endsLine bol (o ++ g ++ cl)) rest, by simp⟩

/-! ## The anatomy of the matches -/

theorem lazyUntil_eq_some (ok : Char → Bool) (closer : List Char) (s g : List Char)
    (h : lazyUntil ok closer s = some g) :
    ∃ rest, s = g ++ closer ++ rest ∧ ∀ c ∈ g, ok c = true := by
  induction s generalizing g with
  | nil => simp [lazyUntil] at h
  | cons c cs ih =>
    rw [lazyUntil] at h
    by_cases hp : closer.isPrefixOf (c :: cs) = true
    · rw [if_pos hp] at h
      cases h
      rw [List.isPrefixOf_iff_prefix] at hp
      obtain ⟨rest, hr⟩ := hp
      exact ⟨rest, by simpa using hr.symm, by simp⟩
    · rw [if_neg hp] at h
      by_cases hok : ok c = true
      · rw [if_pos hok] at h
        cases hl : lazyUntil ok closer cs with
        | none => rw [hl] at h; cases h
        | some g' =>
          rw [hl] at h
          simp only [Option.map_some', Option.some.injEq] at h
          subst h
          obtain ⟨rest, hr, hg⟩ := ih g' hl
          refine ⟨rest, by simp [hr], ?_⟩
          intro x hx
          rcases List.mem_cons.1 hx with rfl | hx
          · exact hok
          · exact hg x hx
      · rw [if_neg hok] at h
        cases h

theorem endsLine_false_of_suffix (bol : Bool) (a b : List Char) (hb : b ≠ [])
    (h : ∀ c ∈ b, isLineTerminator c = false) : endsLine bol (a ++ b) = false := by
  rw [endsLine_append, endsLine_of_no_terminator b h]
  cases b with
  | nil => exact absurd rfl hb
  | cons c b => simp

theorem takeWhile_not_terminator (r : List Char) :
    ∀ c ∈ r.takeWhile (fun c => !isLineTerminator c), isLineTerminator c = false := by
  intro c hc
  have := List.mem_takeWhile_imp hc
  simpa using this

theorem head_dropWhile_not_terminator (r : List Char) :
    ∀ c ∈ (r.dropWhile (fun c => !isLineTerminator c)).head?, isLineTerminator c = true := by
  intro c hc
  have := List.head?_dropWhile_not (fun c => !isLineTerminator c) r
  rw [Option.mem_def] at hc
  rw [hc] at this
  simpa using this

theorem matchShape_of_inlineShape {m : Bool → List Char → Option (List Char × Nat)}
    (h : InlineShape m) : MatchShape m := by
  intro bol s g n hm
  obtain ⟨o, cl, rest, hn, hs, _⟩ := h bol s g n hm
  exact ⟨o, cl, rest, hn, hs⟩

theorem matchHeading_inline (marker : List Char)
    (hmk : ∀ c ∈ marker, isMarkerChar c = true)
    (hplain : ∀ c ∈ marker, isLineTerminator c = false ∧ isDigit c = false)
    (hhead : ∃ h t, marker = h :: t ∧ isInlineMarker h = true) :
    InlineShape (matchHeading marker) := by
  have hne : marker ≠ [] := by
    obtain ⟨h, t, ht, _⟩ := hhead
    rw [ht]; simp
  have hlt : ∀ c ∈ marker, isLineTerminator c = false := fun c hc => (hplain c hc).1
  intro bol s g n h
  unfold matchHeading at h
  cases bol with
  | false => simp at h
  | true =>
    simp only [if_true] at h
    cases hs : stripPrefix marker s with
    | none => rw [hs] at h; cases h
    | some r =>
      rw [hs] at h
      simp only [Option.some.injEq, Prod.mk.injEq] at h
      obtain ⟨hg, hn⟩ := h
      rw [stripPrefix_eq_some_iff] at hs
      refine ⟨marker, [], r.dropWhile (fun c => !isLineTerminator c), ?_, ?_, ?_⟩
      · simp [← hn, ← hg]
      · refine ⟨?_, hne, hmk, by simp, fun _ => head_dropWhile_not_terminator r, ?_⟩
        · rw [hs, ← hg]; simp
        · intro b
          by_cases hgn : g = []
          · simp only [hgn, List.append_nil]
            simpa using endsLine_false_of_suffix b [] marker hne hlt
          · rw [List.append_nil]
            exact endsLine_false_of_suffix b marker g hgn
              (by rw [← hg]; exact takeWhile_not_terminator r)
      · exact ⟨hplain, hhead, by simp, Or.inl (by rw [← hg]; exact takeWhile_not_terminator r)⟩

theorem matchSpan_inline (opener closer : List Char) (ok : Char → Bool)
    (hcne : closer ≠ [])
    (hom : ∀ c ∈ opener, isMarkerChar c = true) (hcm : ∀ c ∈ closer, isMarkerChar c = true)
    (hplain : ∀ c ∈ opener, isLineTerminator c = false ∧ isDigit c = false)
    (hhead : ∃ h t, opener = h :: t ∧ isInlineMarker h = true)
    (hcl : ∀ c ∈ closer, isLineTerminator c = false)
    (hci : ∀ c ∈ closer, isInlineMarker c = true) :
    InlineShape (fun _ s => matchSpan opener closer ok s) := by
  have hone : opener ≠ [] := by
    obtain ⟨h, t, ht, _⟩ := hhead
    rw [ht]; simp
  intro bol s g n h
  simp only [matchSpan] at h
  cases hs : stripPrefix opener s with
  | none => rw [hs] at h; cases h
  | some r =>
    rw [hs] at h
    simp only at h
    cases hl : lazyUntil ok closer r with
    | none => rw [hl] at h; cases h
    | some g' =>
      rw [hl] at h
      simp only [Option.some.injEq, Prod.mk.injEq] at h
      obtain ⟨hg, hn⟩ := h
      subst hg
      rw [stripPrefix_eq_some_iff] at hs
      obtain ⟨rest, hr, _⟩ := lazyUntil_eq_some ok closer r g' hl
      refine ⟨opener, closer, rest, ?_, ?_, ?_⟩
      · simp [← hn]; omega
      · refine ⟨?_, hone, hom, hcm, fun h => absurd h hcne, ?_⟩
        · rw [hs, hr]; simp
        · intro b
          exact endsLine_false_of_suffix b (opener ++ g') closer hcne hcl
      · exact ⟨hplain, hhead, hci, Or.inr hcne⟩

theorem isMarkerChar_star : isMarkerChar '*' = true := by decide
theorem isMarkerChar_tick : isMarkerChar tick = true := by decide
theorem isLineTerminator_star : isLineTerminator '*' = false := by decide
theorem isLineTerminator_tick : isLineTerminator tick = false := by decide

theorem isInlineMarker_star : isInlineMarker '*' = true := by decide
theorem isInlineMarker_tick : isInlineMarker tick = true := by decide

theorem matchBold_inline : InlineShape matchBold :=
  matchSpan_inline ['*', '*'] ['*', '*'] _ (by simp)
    (by simp [isMarkerChar_star]) (by simp [isMarkerChar_star]) (by decide)
    ⟨'*', ['*'], rfl, by decide⟩ (by simp [isLineTerminator_star])
    (by simp [isInlineMarker_star])

theorem matchItalic_inline : InlineShape matchItalic :=
  matchSpan_inline ['*'] ['*'] _ (by simp)
    (by simp [isMarkerChar_star]) (by simp [isMarkerChar_star]) (by decide)
    ⟨'*', [], rfl, by decide⟩ (by simp [isLineTerminator_star])
    (by simp [isInlineMarker_star])

theorem matchFence_inline : InlineShape matchFence :=
  matchSpan_inline [tick, tick, tick] [tick, tick, tick] _ (by simp)
    (by simp [isMarkerChar_tick]) (by simp [isMarkerChar_tick]) (by decide)
    ⟨tick, [tick, tick], rfl, by decide⟩ (by simp [isLineTerminator_tick])
    (by simp [isInlineMarker_tick])

theorem matchBold_shape : MatchShape matchBold := matchShape_of_inlineShape matchBold_inline

theorem matchItalic_shape : MatchShape matchItalic :=
  matchShape_of_inlineShape matchItalic_inline

theorem matchFence_shape : MatchShape matchFence := matchShape_of_inlineShape matchFence_inline

theorem matchInlineCode_eq_some (bol : Bool) (s g : List Char) (n : Nat)
    (h : matchInlineCode bol s = some (g, n)) :
    ∃ rest, s = tick :: (g ++ tick :: rest) ∧ n = g.length + 2 ∧ g ≠ [] ∧ ∀ c ∈ g, c ≠ tick := by
  cases s with
  | nil => simp [matchInlineCode] at h
  | cons c r =>
    simp only [matchInlineCode] at h
    by_cases hc : c = tick
    · subst hc
      simp only [if_true] at h
      split at h
      · rename_i hcond
        simp only [Option.some.injEq, Prod.mk.injEq] at h
        obtain ⟨hg, hn⟩ := h
        simp only [Bool.and_eq_true, Bool.not_eq_true', beq_iff_eq] at hcond
        obtain ⟨hne, hhead⟩ := hcond
        have hsplit := List.takeWhile_append_dropWhile (fun x => x != tick) r
        cases hd : r.dropWhile (fun x => x != tick) with
        | nil => rw [hd] at hhead; simp at hhead
        | cons d rest =>
          rw [hd] at hhead hsplit
          simp only [List.head?_cons, Option.some.injEq] at hhead
          subst hhead
          refine ⟨rest, ?_, by rw [← hn, ← hg], ?_, ?_⟩
          · rw [← hg, hsplit]
          · rw [← hg]; intro h0; rw [h0] at hne; simp at hne
          · intro x hx
            rw [← hg] at hx
            have := List.mem_takeWhile_imp hx
            simpa using this
      · cases h
    · simp [hc] at h

theorem matchInlineCode_inline : InlineShape matchInlineCode := by
  intro bol s g n h
  obtain ⟨rest, hs, hn, _, _⟩ := matchInlineCode_eq_some bol s g n h
  refine ⟨[tick], [tick], rest, by simp [hn], ?_, ?_⟩
  · refine ⟨by simp [hs], by simp, by simp [isMarkerChar_tick], by simp [isMarkerChar_tick],
      fun h => by simp at h, ?_⟩
    intro b
    exact endsLine_false_of_suffix b ([tick] ++ g) [tick] (by simp)
      (by simp [isLineTerminator_tick])
  · exact ⟨by decide, ⟨tick, [], rfl, by decide⟩, by simp [isInlineMarker_tick],
      Or.inr (by simp)⟩

theorem matchInlineCode_shape : MatchShape matchInlineCode :=
  matchShape_of_inlineShape matchInlineCode_inline

theorem matchNumbered_eq_some (bol : Bool) (s g : List Char) (n : Nat)
    (h : matchNumbered bol s = some (g, n)) :
    ∃ ds w rest, s = ds ++ '.' :: w :: (g ++ rest) ∧ n = ds.length + 2 + g.length ∧ bol = true
      ∧ ds ≠ [] ∧ (∀ d ∈ ds, isDigit d = true) ∧ isWhiteSpace w = true ∧ g ≠ []
      ∧ (∀ c ∈ g, isLineTerminator c = false)
      ∧ (∀ c ∈ rest.head?, isLineTerminator c = true) := by
  unfold matchNumbered at h
  cases bol with
  | false => simp at h
  | true =>
    simp only [if_true] at h
    split at h
    · cases h
    · rename_i hds
      have hsplit := List.takeWhile_append_dropWhile isDigit s
      split at h
      · rename_i d w r hdrop
        split at h
        · rename_i hcond
          split at h
          · cases h
          · rename_i hgne
            simp only [Option.some.injEq, Prod.mk.injEq] at h
            obtain ⟨hg, hn⟩ := h
            simp only [Bool.and_eq_true, decide_eq_true_eq] at hcond
            obtain ⟨hd, hw⟩ := hcond
            subst hd
            refine ⟨s.takeWhile isDigit, w, r.dropWhile (fun c => !isLineTerminator c),
              ?_, by rw [← hn, ← hg], rfl, ?_, ?_, hw, ?_, ?_, head_dropWhile_not_terminator r⟩
            · rw [← hg, List.takeWhile_append_dropWhile, ← hdrop, hsplit]
            · intro h0; rw [h0] at hds; simp at hds
            · intro x hx; exact List.mem_takeWhile_imp hx
            · rw [← hg]; intro h0; rw [h0] at hgne; simp at hgne
            · rw [← hg]; exact takeWhile_not_terminator r
        · cases h
      · cases h

theorem isMarkerChar_of_isDigit (c : Char) (h : isDigit c = true) : isMarkerChar c = true := by
  simp [isMarkerChar, h]

theorem isMarkerChar_of_isWhiteSpace (c : Char) (h : isWhiteSpace c = true) :
    isMarkerChar c = true := by
  simp [isMarkerChar, h]

theorem matchNumbered_shape : MatchShape matchNumbered := by
  intro bol s g n h
  obtain ⟨ds, w, rest, hs, hn, _, hdne, hds, hw, hgne, hg, hrest⟩ :=
    matchNumbered_eq_some bol s g n h
  refine ⟨ds ++ ['.', w], [], rest, by simp [hn]; omega, ?_⟩
  refine ⟨by simp [hs], by simp, ?_, by simp, fun _ => hrest, ?_⟩
  · intro c hc
    rcases List.mem_append.1 hc with hc | hc
    · exact isMarkerChar_of_isDigit c (hds c hc)
    · simp only [List.mem_cons, List.mem_singleton, List.not_mem_nil, or_false] at hc
      rcases hc with rfl | rfl
      · decide
      · exact isMarkerChar_of_isWhiteSpace _ hw
  · intro b
    rw [List.append_nil]
    exact endsLine_false_of_suffix b _ g hgne hg

theorem matchBullet_eq_some (bol : Bool) (s g : List Char) (n : Nat)
    (h : matchBullet bol s = some (g, n)) :
    ∃ b w rest, s = b :: w :: (g ++ rest) ∧ n = 2 + g.length ∧ bol = true
      ∧ (b = '-' ∨ b = '*') ∧ isWhiteSpace w = true ∧ g ≠ []
      ∧ (∀ c ∈ g, isLineTerminator c = false)
      ∧ (∀ c ∈ rest.head?, isLineTerminator c = true) := by
  unfold matchBullet at h
  cases bol with
  | false => simp at h
  | true =>
    simp only [if_true] at h
    split at h
    · rename_i b w r
      split at h
      · rename_i hcond
        split at h
        · cases h
        · rename_i hgne
          simp only [Option.some.injEq, Prod.mk.injEq] at h
          obtain ⟨hg, hn⟩ := h
          simp only [Bool.and_eq_true, Bool.or_eq_true, decide_eq_true_eq] at hcond
          obtain ⟨hb, hw⟩ := hcond
          refine ⟨b, w, r.dropWhile (fun c => !isLineTerminator c), ?_, by rw [← hn, ← hg],
            rfl, hb, hw,
            ?_, ?_, head_dropWhile_not_terminator r⟩
          · rw [← hg, List.takeWhile_append_dropWhile]
          · rw [← hg]; intro h0; rw [h0] at hgne; simp at hgne
          · rw [← hg]; exact takeWhile_not_terminator r
      · cases h
    · cases h

theorem matchBullet_shape : MatchShape matchBullet := by
  intro bol s g n h
  obtain ⟨b, w, rest, hs, hn, _, hb, hw, hgne, hg, hrest⟩ := matchBullet_eq_some bol s g n h
  refine ⟨[b, w], [], rest, by simp [hn]; omega, ?_⟩
  refine ⟨by simp [hs], by simp, ?_, by simp, fun _ => hrest, ?_⟩
  · intro c hc
    simp only [List.mem_cons, List.mem_singleton, List.not_mem_nil, or_false] at hc
    rcases hc with rfl | rfl
    · rcases hb with rfl | rfl <;> decide
    · exact isMarkerChar_of_isWhiteSpace _ hw
  · intro b'
    rw [List.append_nil]
    exact endsLine_false_of_suffix b' _ g hgne hg

theorem heading3_inline : InlineShape (matchHeading "### ".toList) :=
  matchHeading_inline _ (by decide) (by decide) ⟨'#', "## ".toList, rfl, by decide⟩

theorem heading2_inline : InlineShape (matchHeading "## ".toList) :=
  matchHeading_inline _ (by decide) (by decide) ⟨'#', "# ".toList, rfl, by decide⟩

theorem heading1_inline : InlineShape (matchHeading "# ".toList) :=
  matchHeading_inline _ (by decide) (by decide) ⟨'#', " ".toList, rfl, by decide⟩

theorem heading3_shape : MatchShape (matchHeading "### ".toList) :=
  matchShape_of_inlineShape heading3_inline

theorem heading2_shape : MatchShape (matchHeading "## ".toList) :=
  matchShape_of_inlineShape heading2_inline

theorem heading1_shape : MatchShape (matchHeading "# ".toList) :=
  matchShape_of_inlineShape heading1_inline

/-! ## Where the expressions do not match -/

theorem matchHeading_false (marker s : List Char) : matchHeading marker false s = none := by
  simp [matchHeading]

theorem matchNumbered_false (s : List Char) : matchNumbered false s = none := by
  simp [matchNumbered]

theorem matchBullet_false (s : List Char) : matchBullet false s = none := by
  simp [matchBullet]

theorem stripPrefix_cons_of_ne (a c : Char) (p t : List Char) (h : a ≠ c) :
    stripPrefix (a :: p) (c :: t) = none := by
  simp [stripPrefix, h]

theorem matchHeading_cons_of_ne (a : Char) (p : List Char) (bol : Bool) (c : Char)
    (t : List Char) (h : a ≠ c) : matchHeading (a :: p) bol (c :: t) = none := by
  cases bol <;> simp [matchHeading, stripPrefix_cons_of_ne a c p t h]

theorem matchSpan_cons_of_ne (a : Char) (p closer : List Char) (ok : Char → Bool) (c : Char)
    (t : List Char) (h : a ≠ c) : matchSpan (a :: p) closer ok (c :: t) = none := by
  simp [matchSpan, stripPrefix_cons_of_ne a c p t h]

theorem matchBold_cons_of_ne (bol : Bool) (c : Char) (t : List Char) (h : c ≠ '*') :
    matchBold bol (c :: t) = none :=
  matchSpan_cons_of_ne _ _ _ _ _ _ (Ne.symm h)

theorem matchItalic_cons_of_ne (bol : Bool) (c : Char) (t : List Char) (h : c ≠ '*') :
    matchItalic bol (c :: t) = none :=
  matchSpan_cons_of_ne _ _ _ _ _ _ (Ne.symm h)

theorem matchFence_cons_of_ne (bol : Bool) (c : Char) (t : List Char) (h : c ≠ tick) :
    matchFence bol (c :: t) = none :=
  matchSpan_cons_of_ne _ _ _ _ _ _ (Ne.symm h)

theorem matchInlineCode_cons_of_ne (bol : Bool) (c : Char) (t : List Char) (h : c ≠ tick) :
    matchInlineCode bol (c :: t) = none := by
  simp [matchInlineCode, h]

theorem matchNumbered_cons_of_not_digit (bol : Bool) (c : Char) (t : List Char)
    (h : isDigit c = false) : matchNumbered bol (c :: t) = none := by
  cases bol <;> simp [matchNumbered, List.takeWhile, h]

theorem matchBullet_cons_of_ne (bol : Bool) (c : Char) (t : List Char)
    (h1 : c ≠ '-') (h2 : c ≠ '*') : matchBullet bol (c :: t) = none := by
  cases bol
  · simp [matchBullet]
  · cases t with
    | nil => simp [matchBullet]
    | cons w r => simp [matchBullet, h1, h2]

/-- No match starts inside a text none of whose characters can start one. -/
theorem anyMatchIn_eq_false_of_head (m : Bool → List Char → Option (List Char × Nat))
    (H : Char → Prop) (hm : ∀ b c t, ¬ H c → m b (c :: t) = none) (a z : List Char)
    (ha : ∀ c ∈ a, ¬ H c) : ∀ bol, anyMatchIn m bol a z = false := by
  induction a with
  | nil => intro bol; rfl
  | cons c a ih =>
    intro bol
    rw [anyMatchIn_cons, hm bol c _ (ha c (List.mem_cons_self _ _)),
      ih (fun x hx => ha x (List.mem_cons_of_mem _ hx))]
    rfl

theorem anyMatch_eq_anyMatchIn (m : Bool → List Char → Option (List Char × Nat)) (bol : Bool)
    (s : List Char) : anyMatch m bol s = anyMatchIn m bol s [] := by
  induction s generalizing bol with
  | nil => rfl
  | cons c s ih => rw [anyMatch_cons, anyMatchIn_cons, ih, List.append_nil]

theorem anyMatch_eq_false_of_head (m : Bool → List Char → Option (List Char × Nat))
    (H : Char → Prop) (hm : ∀ b c t, ¬ H c → m b (c :: t) = none) (s : List Char)
    (hs : ∀ c ∈ s, ¬ H c) (bol : Bool) : anyMatch m bol s = false := by
  rw [anyMatch_eq_anyMatchIn]
  exact anyMatchIn_eq_false_of_head m H hm s [] hs bol

/-- An anchored expression matches nowhere inside a line after its start. -/
theorem anyMatchIn_false_of_no_terminator (m : Bool → List Char → Option (List Char × Nat))
    (hm : ∀ t, m false t = none) (a z : List Char)
    (ha : ∀ c ∈ a, isLineTerminator c = false) : anyMatchIn m false a z = false := by
  induction a with
  | nil => rfl
  | cons c a ih =>
    rw [anyMatchIn_cons, hm, ha c (List.mem_cons_self _ _),
      ih (fun x hx => ha x (List.mem_cons_of_mem _ hx))]
    rfl

theorem anyMatch_false_of_no_terminator (m : Bool → List Char → Option (List Char × Nat))
    (hm : ∀ t, m false t = none) (s : List Char)
    (hs : ∀ c ∈ s, isLineTerminator c = false) : anyMatch m false s = false := by
  rw [anyMatch_eq_anyMatchIn]
  exact anyMatchIn_false_of_no_terminator m hm s [] hs

/-- An anchored expression that does not match at the start of a one-line
text matches nowhere in it. -/
theorem anyMatch_of_one_line (m : Bool → List Char → Option (List Char × Nat))
    (hm : ∀ t, m false t = none) (bol : Bool) (s : List Char)
    (hs : ∀ c ∈ s, isLineTerminator c = false) (h0 : m bol s = none) :
    anyMatch m bol s = false := by
  cases s with
  | nil => rfl
  | cons c s =>
    rw [anyMatch_cons, h0, hs c (List.mem_cons_self _ _),
      anyMatch_false_of_no_terminator m hm s (fun x hx => hs x (List.mem_cons_of_mem _ hx))]
    rfl

/-- An expression that matches only at a line start, and there only what `p`
describes, matches nowhere in a text without such a line start. -/
theorem anyMatchIn_eq_false_of_atSomeLineStart
    (m : Bool → List Char → Option (List Char × Nat)) (p : List Char → Bool) (z : List Char)
    (hm : ∀ b c v, (m b (c :: (v ++ z))).isSome = true → b = true ∧ p (c :: v) = true) :
    ∀ bol a, atSomeLineStart p bol a = false → anyMatchIn m bol a z = false := by
  intro bol a
  induction a generalizing bol with
  | nil => intro _; rfl
  | cons c a ih =>
    intro h
    simp only [atSomeLineStart, Bool.or_eq_false_iff] at h
    rw [anyMatchIn_cons, ih _ h.2, Bool.or_false]
    by_contra hne
    have hsome : (m bol (c :: (a ++ z))).isSome = true := by
      cases hx : (m bol (c :: (a ++ z))).isSome with
      | true => rfl
      | false => exact absurd hx hne
    obtain ⟨hb, hp⟩ := hm bol c a hsome
    rw [hb, hp] at h
    simp at h

theorem anyMatch_eq_false_of_atSomeLineStart
    (m : Bool → List Char → Option (List Char × Nat)) (p : List Char → Bool)
    (hm : ∀ b v, (m b v).isSome = true → b = true ∧ p v = true) (bol : Bool) (s : List Char)
    (h : atSomeLineStart p bol s = false) : anyMatch m bol s = false := by
  rw [anyMatch_eq_anyMatchIn]
  apply anyMatchIn_eq_false_of_atSomeLineStart m p [] _ bol s h
  intro b c v hs
  rw [List.append_nil] at hs
  exact hm b (c :: v) hs

/-! ## The lazy group -/

theorem lazyUntil_append (ok : Char → Bool) (a : Char) (closer g rest : List Char)
    (hg : ∀ c ∈ g, ok c = true ∧ c ≠ a) :
    lazyUntil ok (a :: closer) (g ++ (a :: closer) ++ rest) = some g := by
  induction g with
  | nil =>
    have : (a :: closer).isPrefixOf ((a :: closer) ++ rest) = true := by
      rw [List.isPrefixOf_iff_prefix]; exact List.prefix_append _ _
    simp only [List.nil_append, List.cons_append] at this ⊢
    rw [lazyUntil, if_pos this]
  | cons c g ih =>
    obtain ⟨hok, hne⟩ := hg c (List.mem_cons_self _ _)
    have hp : (a :: closer).isPrefixOf (c :: (g ++ (a :: closer) ++ rest)) = false := by
      simp [List.isPrefixOf, Ne.symm hne]
    simp only [List.cons_append] at hp ih ⊢
    rw [lazyUntil, if_neg (by rw [hp]; simp), if_pos hok,
      ih (fun x hx => hg x (List.mem_cons_of_mem _ hx))]
    rfl

theorem lazyUntil_eq_none_of_not_mem (ok : Char → Bool) (a : Char) (closer s : List Char)
    (hs : a ∉ s) : lazyUntil ok (a :: closer) s = none := by
  cases h : lazyUntil ok (a :: closer) s with
  | none => rfl
  | some g =>
    obtain ⟨rest, hr, _⟩ := lazyUntil_eq_some ok (a :: closer) s g h
    exact absurd (by rw [hr]; simp) hs

/-! ## The list wrapper -/

theorem splitAtFirst_eq_some (pat s before r : List Char)
    (h : splitAtFirst pat s = some (before, r)) : s = before ++ pat ++ r := by
  induction s generalizing before with
  | nil => simp [splitAtFirst] at h
  | cons c cs ih =>
    rw [splitAtFirst] at h
    cases hs : stripPrefix pat (c :: cs) with
    | some r' =>
      rw [hs] at h
      simp only [Option.some.injEq, Prod.mk.injEq] at h
      obtain ⟨rfl, rfl⟩ := h
      rw [stripPrefix_eq_some_iff] at hs
      simpa using hs
    | none =>
      rw [hs] at h
      cases hx : splitAtFirst pat cs with
      | none => rw [hx] at h; simp at h
      | some x =>
        rw [hx] at h
        simp only [Option.map_some', Option.some.injEq, Prod.mk.injEq] at h
        obtain ⟨rfl, rfl⟩ := h
        have := ih x.1 (by rw [hx])
        simp [this]

theorem splitAtFirst_eq_none_iff (pat s : List Char) :
    splitAtFirst pat s = none ↔ countOcc pat s = 0 := by
  induction s with
  | nil => simp [splitAtFirst, countOcc]
  | cons c cs ih =>
    rw [splitAtFirst, countOcc_cons]
    cases hs : stripPrefix pat (c :: cs) with
    | some r =>
      have : pat.isPrefixOf (c :: cs) = true := by
        rw [List.isPrefixOf_iff_prefix]
        exact ⟨r, ((stripPrefix_eq_some_iff _ _ _).1 hs).symm⟩
      simp [this]
    | none =>
      have : pat.isPrefixOf (c :: cs) = false := by
        rw [← Bool.not_eq_true, List.isPrefixOf_iff_prefix]
        exact (stripPrefix_eq_none_iff _ _).1 hs
      simp [this, ih]

theorem splitAtLast_eq_some (pat s mid after : List Char)
    (h : splitAtLast pat s = some (mid, after)) : s = mid ++ pat ++ after := by
  induction s generalizing mid with
  | nil => simp [splitAtLast] at h
  | cons c cs ih =>
    rw [splitAtLast] at h
    cases hx : splitAtLast pat cs with
    | some x =>
      rw [hx] at h
      simp only [Option.some.injEq, Prod.mk.injEq] at h
      obtain ⟨rfl, rfl⟩ := h
      have := ih x.1 (by rw [hx])
      simp [this]
    | none =>
      rw [hx] at h
      simp only at h
      cases hs : stripPrefix pat (c :: cs) with
      | none => rw [hs] at h; cases h
      | some r =>
        rw [hs] at h
        simp only [Option.some.injEq, Prod.mk.injEq] at h
        obtain ⟨rfl, rfl⟩ := h
        rw [stripPrefix_eq_some_iff] at hs
        simpa using hs

theorem splitAtLast_eq_none_iff (pat s : List Char) :
    splitAtLast pat s = none ↔ countOcc pat s = 0 := by
  induction s with
  | nil => simp [splitAtLast, countOcc]
  | cons c cs ih =>
    rw [splitAtLast, countOcc_cons]
    cases hx : splitAtLast pat cs with
    | some x =>
      have h1 : countOcc pat cs ≠ 0 := fun h0 => by
        rw [ih.2 h0] at hx; cases hx
      simp only [false_iff, reduceCtorEq]
      omega
    | none =>
      have h0 := ih.1 hx
      cases hs : stripPrefix pat (c :: cs) with
      | some r =>
        have : pat.isPrefixOf (c :: cs) = true := by
          rw [List.isPrefixOf_iff_prefix]
          exact ⟨r, ((stripPrefix_eq_some_iff _ _ _).1 hs).symm⟩
        simp [this]
      | none =>
        have : pat.isPrefixOf (c :: cs) = false := by
          rw [← Bool.not_eq_true, List.isPrefixOf_iff_prefix]
          exact (stripPrefix_eq_none_iff _ _).1 hs
        simp [this, h0]

/-- Without an `<li>` that has a `</li>` after it the wrapper changes nothing. -/
theorem wrapList_of_not_hasItemSpan (op cl s : List Char) (h : hasItemSpan s = false) :
    wrapList op cl s = s := by
  unfold wrapList
  unfold hasItemSpan at h
  cases hf : splitAtFirst liOpen s with
  | none => rfl
  | some x =>
    obtain ⟨before, r⟩ := x
    rw [hf] at h
    simp only at h ⊢
    rw [includes_eq_false_iff, ← splitAtLast_eq_none_iff] at h
    rw [h]

theorem hasItemSpan_of_countOcc (s : List Char) (h : countOcc liOpen s = 0) :
    hasItemSpan s = false := by
  unfold hasItemSpan
  rw [(splitAtFirst_eq_none_iff liOpen s).2 h]

theorem wrapList_of_countOcc (op cl s : List Char) (h : countOcc liOpen s = 0) :
    wrapList op cl s = s :=
  wrapList_of_not_hasItemSpan op cl s (hasItemSpan_of_countOcc s h)

/-! ## Paragraphs -/

theorem splitBlank_of_countOcc (s : List Char) (h : countOcc ['\n', '\n'] s = 0) :
    splitBlank s = [s] := by
  induction s with
  | nil => rfl
  | cons c s ih =>
    cases s with
    | nil => rfl
    | cons d rest =>
      rw [countOcc_cons] at h
      have h2 : countOcc ['\n', '\n'] (d :: rest) = 0 := by omega
      have h1 : ¬ (c = '\n' ∧ d = '\n') := by
        rintro ⟨rfl, rfl⟩
        simp [List.isPrefixOf] at h
      rw [splitBlank, ih h2]
      simp only [Bool.and_eq_true, decide_eq_true_eq, h1, if_false]

theorem jsTrim_isEmpty_eq_false (p : List Char) (c : Char) (hc : c ∈ p)
    (hw : isWhiteSpace c = false) : (jsTrim p).isEmpty = false := by
  have h1 : p.dropWhile isWhiteSpace ≠ [] := by
    intro h0
    rw [List.dropWhile_eq_nil_iff] at h0
    have := h0 c hc
    rw [hw] at this; cases this
  have h2 : ∃ d r, p.dropWhile isWhiteSpace = d :: r ∧ isWhiteSpace d = false := by
    cases hd : p.dropWhile isWhiteSpace with
    | nil => exact absurd hd h1
    | cons d r =>
      refine ⟨d, r, rfl, ?_⟩
      have := List.head?_dropWhile_not isWhiteSpace p
      rw [hd] at this
      simpa using this
  obtain ⟨d, r, hdr, hd⟩ := h2
  unfold jsTrim
  rw [hdr]
  have h3 : (d :: r).reverse.dropWhile isWhiteSpace ≠ [] := by
    intro h0
    rw [List.dropWhile_eq_nil_iff] at h0
    have := h0 d (by simp)
    rw [hd] at this; cases this
  cases hx : (d :: r).reverse.dropWhile isWhiteSpace with
  | nil => exact absurd hx h3
  | cons e t => simp

theorem jsTrim_infix (p : List Char) : ∃ a b, p = a ++ jsTrim p ++ b := by
  unfold jsTrim
  obtain ⟨a, ha⟩ := List.dropWhile_suffix isWhiteSpace (l := p)
  obtain ⟨b, hb⟩ := List.dropWhile_suffix isWhiteSpace (l := (p.dropWhile isWhiteSpace).reverse)
  refine ⟨a, b.reverse, ?_⟩
  have : ((p.dropWhile isWhiteSpace).reverse.dropWhile isWhiteSpace).reverse ++ b.reverse
      = p.dropWhile isWhiteSpace := by
    rw [← List.reverse_append, hb, List.reverse_reverse]
  rw [List.append_assoc, this, ha]

theorem paragraphs_single (s : List Char) (h : countOcc ['\n', '\n'] s = 0)
    (c : Char) (hc : c ∈ s) (hw : isWhiteSpace c = false) :
    paragraphs s = wrapParagraph s := by
  unfold paragraphs
  rw [splitBlank_of_countOcc s h]
  simp [List.filter, jsTrim_isEmpty_eq_false s c hc hw]

/-! ## The stages of the formatter on texts they leave alone -/

theorem replaceAll_of_not_anyMatch (m : Bool → List Char → Option (List Char × Nat))
    (pre post s : List Char) (h : anyMatch m true s = false) : replaceAll m pre post s = s :=
  replaceAllAux_of_not_anyMatch m pre post true s h

theorem anyMatch_bold_of_no_star (s : List Char) (h : '*' ∉ s) (bol : Bool) :
    anyMatch matchBold bol s = false :=
  anyMatch_eq_false_of_head matchBold (fun c => c = '*')
    (fun b c t hc => matchBold_cons_of_ne b c t hc) s (fun _ hc he => h (he ▸ hc)) bol

theorem anyMatch_italic_of_no_star (s : List Char) (h : '*' ∉ s) (bol : Bool) :
    anyMatch matchItalic bol s = false :=
  anyMatch_eq_false_of_head matchItalic (fun c => c = '*')
    (fun b c t hc => matchItalic_cons_of_ne b c t hc) s (fun _ hc he => h (he ▸ hc)) bol

theorem anyMatch_fence_of_no_tick (s : List Char) (h : tick ∉ s) (bol : Bool) :
    anyMatch matchFence bol s = false :=
  anyMatch_eq_false_of_head matchFence (fun c => c = tick)
    (fun b c t hc => matchFence_cons_of_ne b c t hc) s (fun _ hc he => h (he ▸ hc)) bol

theorem anyMatch_inlineCode_of_no_tick (s : List Char) (h : tick ∉ s) (bol : Bool) :
    anyMatch matchInlineCode bol s = false :=
  anyMatch_eq_false_of_head matchInlineCode (fun c => c = tick)
    (fun b c t hc => matchInlineCode_cons_of_ne b c t hc) s (fun _ hc he => h (he ▸ hc)) bol

/-- The stages after the headings leave a text without `*` and backtick as it is. -/
theorem inlineStage_of_headings (text f : List Char)
    (hh : replaceAll (matchHeading "# ".toList) "<h1>".toList "</h1>".toList
      (replaceAll (matchHeading "## ".toList) "<h2>".toList "</h2>".toList
        (replaceAll (matchHeading "### ".toList) "<h3>".toList "</h3>".toList text)) = f)
    (hstar : '*' ∉ f) (htick : tick ∉ f) : inlineStage text = f := by
  unfold inlineStage
  simp only [hh]
  rw [replaceAll_of_not_anyMatch matchBold _ _ f (anyMatch_bold_of_no_star f hstar true),
    replaceAll_of_not_anyMatch matchItalic _ _ f (anyMatch_italic_of_no_star f hstar true),
    replaceAll_of_not_anyMatch matchFence _ _ f (anyMatch_fence_of_no_tick f htick true),
    replaceAll_of_not_anyMatch matchInlineCode _ _ f
      (anyMatch_inlineCode_of_no_tick f htick true)]

/-- The list rules leave a text without item lines and item span as it is. -/
theorem ulStage_of_inlineStage (text f : List Char) (hf : inlineStage text = f)
    (hnum : anyMatch matchNumbered true f = false) (hspan : hasItemSpan f = false)
    (hbul : anyMatch matchBullet true f = false) : ulStage text = f := by
  have h1 : numberedStage text = f := by
    unfold numberedStage
    rw [hf, replaceAll_of_not_anyMatch _ _ _ f hnum]
  have h2 : olStage text = f := by
    unfold olStage
    rw [h1, wrapList_of_not_hasItemSpan _ _ f hspan]
  have h3 : bulletStage text = f := by
    unfold bulletStage
    rw [h2, replaceAll_of_not_anyMatch _ _ _ f hbul]
  unfold ulStage
  rw [h3, wrapList_of_not_hasItemSpan _ _ f hspan]
  simp

theorem formatBotResponse_of_inlineStage (text f : List Char) (hne : text ≠ [])
    (hf : inlineStage text = f)
    (hnum : anyMatch matchNumbered true f = false) (hspan : hasItemSpan f = false)
    (hbul : anyMatch matchBullet true f = false)
    (hblank : countOcc ['\n', '\n'] f = 0) (c : Char) (hc : c ∈ f)
    (hw : isWhiteSpace c = false) : formatBotResponse text = wrapParagraph f := by
  unfold formatBotResponse
  have : text.isEmpty = false := by
    cases text with
    | nil => exact absurd rfl hne
    | cons a t => rfl
  rw [this, ulStage_of_inlineStage text f hf hnum hspan hbul,
    paragraphs_single f hblank c hc hw]
  simp

theorem wrapParagraph_plain (p : List Char) (h1 : "<h".toList.isPrefixOf p = false)
    (h2 : "<ol>".toList.isPrefixOf p = false) (h3 : "<ul>".toList.isPrefixOf p = false)
    (h4 : "<pre>".toList.isPrefixOf p = false) (h5 : liOpen.isPrefixOf (jsTrim p) = false) :
    wrapParagraph p = "<p>".toList ++ p ++ "</p>".toList := by
  unfold wrapParagraph
  rw [h1, h2, h3, h4, h5]
  simp

theorem wrapParagraph_heading (r : List Char) :
    wrapParagraph ('<' :: 'h' :: r) = '<' :: 'h' :: r := by
  simp [wrapParagraph, List.isPrefixOf]

theorem wrapParagraph_pre (r : List Char) :
    wrapParagraph ("<pre>".toList ++ r) = "<pre>".toList ++ r := by
  simp [wrapParagraph, List.isPrefixOf]

/-! ## What a match of an item expression starts with -/

theorem isSome_matchHeading (marker : List Char) (b : Bool) (v : List Char)
    (h : (matchHeading marker b v).isSome = true) : b = true ∧ marker <+: v := by
  cases b with
  | false => simp [matchHeading] at h
  | true =>
    refine ⟨rfl, ?_⟩
    cases hs : stripPrefix marker v with
    | none => simp [matchHeading, hs] at h
    | some r => exact ⟨r, ((stripPrefix_eq_some_iff _ _ _).1 hs).symm⟩

theorem headingMarker_of_prefix (marker v : List Char)
    (hm : marker = "# ".toList ∨ marker = "## ".toList ∨ marker = "### ".toList)
    (h : marker <+: v) : headingMarker v = true := by
  unfold headingMarker
  rw [← List.isPrefixOf_iff_prefix] at h
  rcases hm with rfl | rfl | rfl <;> rw [h] <;> simp

theorem numberedMarker_append (ds : List Char) (w : Char) (r : List Char) (hne : ds ≠ [])
    (hds : ∀ d ∈ ds, isDigit d = true) (hw : isWhiteSpace w = true) :
    numberedMarker (ds ++ '.' :: w :: r) = true := by
  unfold numberedMarker
  have hdot : isDigit '.' = false := by decide
  rw [List.takeWhile_append_of_pos hds, List.dropWhile_append_of_pos hds]
  simp only [List.takeWhile_cons, hdot, List.dropWhile_cons]
  cases ds with
  | nil => exact absurd rfl hne
  | cons d ds => simp [hw]

theorem numberedItem_append (ds : List Char) (w x : Char) (r : List Char) (hne : ds ≠ [])
    (hds : ∀ d ∈ ds, isDigit d = true) (hw : isWhiteSpace w = true)
    (hx : isLineTerminator x = false) : numberedItem (ds ++ '.' :: w :: x :: r) = true := by
  unfold numberedItem
  have hdot : isDigit '.' = false := by decide
  rw [List.takeWhile_append_of_pos hds, List.dropWhile_append_of_pos hds]
  simp only [List.takeWhile_cons, hdot, List.dropWhile_cons]
  cases ds with
  | nil => exact absurd rfl hne
  | cons d ds => simp [hw, hx]

theorem isSome_matchNumbered (b : Bool) (v : List Char)
    (h : (matchNumbered b v).isSome = true) : b = true ∧ numberedItem v = true := by
  cases hm : matchNumbered b v with
  | none => rw [hm] at h; cases h
  | some gn =>
    obtain ⟨g, n⟩ := gn
    obtain ⟨ds, w, rest, hs, _, hb, hdne, hds, hw, hgne, hg, _⟩ :=
      matchNumbered_eq_some b v g n hm
    refine ⟨hb, ?_⟩
    cases g with
    | nil => exact absurd rfl hgne
    | cons x g =>
      rw [hs]
      exact numberedItem_append ds w x _ hdne hds hw (hg x (List.mem_cons_self _ _))

theorem isSome_matchBullet (b : Bool) (v : List Char)
    (h : (matchBullet b v).isSome = true) : b = true ∧ bulletItem v = true := by
  cases hm : matchBullet b v with
  | none => rw [hm] at h; cases h
  | some gn =>
    obtain ⟨g, n⟩ := gn
    obtain ⟨a, w, rest, hs, _, hb, ha, hw, hgne, hg, _⟩ := matchBullet_eq_some b v g n hm
    refine ⟨hb, ?_⟩
    cases g with
    | nil => exact absurd rfl hgne
    | cons x g =>
      rw [hs]
      have hx := hg x (List.mem_cons_self _ _)
      rcases ha with rfl | rfl <;> simp [bulletItem, hw, hx]

theorem anyMatch_heading_of_atSomeLineStart (marker : List Char)
    (hm : marker = "# ".toList ∨ marker = "## ".toList ∨ marker = "### ".toList)
    (bol : Bool) (s : List Char) (h : atSomeLineStart headingMarker bol s = false) :
    anyMatch (matchHeading marker) bol s = false :=
  anyMatch_eq_false_of_atSomeLineStart _ headingMarker
    (fun b v hs => ⟨(isSome_matchHeading marker b v hs).1,
      headingMarker_of_prefix marker v hm (isSome_matchHeading marker b v hs).2⟩) bol s h

theorem anyMatch_numbered_of_atSomeLineStart (bol : Bool) (s : List Char)
    (h : atSomeLineStart numberedItem bol s = false) : anyMatch matchNumbered bol s = false :=
  anyMatch_eq_false_of_atSomeLineStart _ numberedItem isSome_matchNumbered bol s h

theorem anyMatch_bullet_of_atSomeLineStart (bol : Bool) (s : List Char)
    (h : atSomeLineStart bulletItem bol s = false) : anyMatch matchBullet bol s = false :=
  anyMatch_eq_false_of_atSomeLineStart _ bulletItem isSome_matchBullet bol s h

/-! ## Headings, paragraphs and fenced blocks -/

theorem countOcc_eq_zero_of_head_not_mem (a : Char) (X s : List Char) (h : a ∉ s) :
    countOcc (a :: X) s = 0 := by
  induction s with
  | nil => rfl
  | cons c s ih =>
    have hc : a ≠ c := fun he => h (he ▸ List.mem_cons_self _ _)
    rw [countOcc_cons, ih (fun hx => h (List.mem_cons_of_mem _ hx))]
    simp [List.isPrefixOf, hc]

theorem newline_not_mem (t : List Char) (hlt : ∀ c ∈ t, isLineTerminator c = false) :
    '\n' ∉ t := by
  intro h
  have := hlt _ h
  exact absurd this (by decide)

theorem tagLike_liOpen : TagLike liOpen := ⟨by decide, by decide, by decide⟩

theorem tagLike_blank : TagLike ['\n', '\n'] := ⟨by decide, by decide, by decide⟩

theorem countOcc_wrap (X o t c : List Char) (hX : TagLike X) (ho : TagBounded o)
    (hc : TagBounded c) :
    countOcc X (o ++ t ++ c) = countOcc X o + countOcc X t + countOcc X c := by
  have h1 := countOcc_append_tag X [] o (t ++ c) hX ho
  have h2 := countOcc_append_tag X t c [] hX hc
  simp only [List.nil_append, List.append_nil, countOcc_nil, Nat.zero_add, Nat.add_zero,
    ← List.append_assoc] at h1 h2
  rw [h1, h2]; omega

theorem takeWhile_not_terminator_self (t : List Char)
    (h : ∀ c ∈ t, isLineTerminator c = false) :
    t.takeWhile (fun c => !isLineTerminator c) = t := by
  rw [List.takeWhile_eq_self_iff]
  intro x hx
  simp [h x hx]

/-- A heading rule applied to a one-line text that is its marker and a title. -/
theorem replaceAll_heading_hit (marker pre post t : List Char) (hne : marker ≠ [])
    (hlt : ∀ c ∈ t, isLineTerminator c = false) :
    replaceAll (matchHeading marker) pre post (marker ++ t) = pre ++ t ++ post := by
  have hm : matchHeading marker true ((marker ++ t) ++ []) = some (t, (marker ++ t).length) := by
    simp [matchHeading, stripPrefix_append, takeWhile_not_terminator_self t hlt]
  have := replaceAllAux_hit (matchHeading marker) pre post true (marker ++ t) [] t
    (by simp [hne]) hm
  rw [List.append_nil] at this
  rw [replaceAll, this, replaceAllAux_nil]
  simp

theorem replaceAll_anchored_one_line (m : Bool → List Char → Option (List Char × Nat))
    (hm : ∀ t, m false t = none) (pre post s : List Char)
    (hs : ∀ c ∈ s, isLineTerminator c = false) (h0 : m true s = none) :
    replaceAll m pre post s = s :=
  replaceAll_of_not_anyMatch m pre post s (anyMatch_of_one_line m hm true s hs h0)

/-- The rules after the headings on a one-line text `o ++ t ++ c` whose title
`t` holds no marker and whose tags `o` and `c` are those of a heading. -/
theorem formatBotResponse_of_heading (text o t c : List Char) (hne : text ≠ [])
    (hh : replaceAll (matchHeading "# ".toList) "<h1>".toList "</h1>".toList
      (replaceAll (matchHeading "## ".toList) "<h2>".toList "</h2>".toList
        (replaceAll (matchHeading "### ".toList) "<h3>".toList "</h3>".toList text))
      = o ++ t ++ c)
    (ho : ∃ r, o = '<' :: 'h' :: r) (hob : TagBounded o) (hcb : TagBounded c)
    (hoc : ∀ x ∈ o ++ c, x ≠ '*' ∧ x ≠ tick ∧ isLineTerminator x = false)
    (holi : countOcc liOpen o = 0) (hcli : countOcc liOpen c = 0)
    (hstar : '*' ∉ t) (htick : tick ∉ t) (hlt : ∀ x ∈ t, isLineTerminator x = false)
    (hli : countOcc liOpen t = 0) : formatBotResponse text = o ++ t ++ c := by
  obtain ⟨r, hr⟩ := ho
  have hflt : ∀ x ∈ o ++ t ++ c, isLineTerminator x = false := by
    intro x hx
    simp only [List.mem_append] at hx
    rcases hx with (hx | hx) | hx
    · exact (hoc x (List.mem_append_left _ hx)).2.2
    · exact hlt x hx
    · exact (hoc x (List.mem_append_right _ hx)).2.2
  have hfstar : '*' ∉ o ++ t ++ c := by
    intro hx
    simp only [List.mem_append] at hx
    rcases hx with (hx | hx) | hx
    · exact (hoc _ (List.mem_append_left _ hx)).1 rfl
    · exact hstar hx
    · exact (hoc _ (List.mem_append_right _ hx)).1 rfl
  have hftick : tick ∉ o ++ t ++ c := by
    intro hx
    simp only [List.mem_append] at hx
    rcases hx with (hx | hx) | hx
    · exact (hoc _ (List.mem_append_left _ hx)).2.1 rfl
    · exact htick hx
    · exact (hoc _ (List.mem_append_right _ hx)).2.1 rfl
  have hinline := inlineStage_of_headings text (o ++ t ++ c) hh hfstar hftick
  have hhead : o ++ t ++ c = '<' :: 'h' :: (r ++ t ++ c) := by rw [hr]; simp
  have hnum : anyMatch matchNumbered true (o ++ t ++ c) = false := by
    apply anyMatch_of_one_line _ matchNumbered_false true _ hflt
    rw [hhead]
    exact matchNumbered_cons_of_not_digit _ _ _ (by decide)
  have hbul : anyMatch matchBullet true (o ++ t ++ c) = false := by
    apply anyMatch_of_one_line _ matchBullet_false true _ hflt
    rw [hhead]
    exact matchBullet_cons_of_ne _ _ _ (by decide) (by decide)
  have hspan : hasItemSpan (o ++ t ++ c) = false := by
    apply hasItemSpan_of_countOcc
    rw [countOcc_wrap liOpen o t c tagLike_liOpen hob hcb, holi, hcli, hli]
  have hblank : countOcc ['\n', '\n'] (o ++ t ++ c) = 0 :=
    countOcc_eq_zero_of_head_not_mem _ _ _ (newline_not_mem _ hflt)
  rw [formatBotResponse_of_inlineStage text (o ++ t ++ c) hne hinline hnum hspan hbul hblank
    '<' (by rw [hhead]; exact List.mem_cons_self _ _) (by decide), hhead]
  exact wrapParagraph_heading _

theorem heading_tags_inert (n : Nat) (hn : n = 1 ∨ n = 2 ∨ n = 3) :
    (∃ r, headingOpen n = '<' :: 'h' :: r) ∧ TagBounded (headingOpen n)
    ∧ TagBounded (headingClose n)
    ∧ (∀ x ∈ headingOpen n ++ headingClose n,
        x ≠ '*' ∧ x ≠ tick ∧ isLineTerminator x = false)
    ∧ countOcc liOpen (headingOpen n) = 0 ∧ countOcc liOpen (headingClose n) = 0 := by
  rcases hn with rfl | rfl | rfl <;>
    exact ⟨⟨_, rfl⟩, ⟨⟨_, rfl⟩, ⟨['<', 'h', _], rfl⟩⟩, ⟨⟨_, rfl⟩, ⟨['<', '/', 'h', _], rfl⟩⟩,
      by decide, by decide, by decide⟩

theorem headings_of_title (n : Nat) (hn : n = 1 ∨ n = 2 ∨ n = 3) (t : List Char)
    (hlt : ∀ x ∈ t, isLineTerminator x = false) :
    replaceAll (matchHeading "# ".toList) "<h1>".toList "</h1>".toList
      (replaceAll (matchHeading "## ".toList) "<h2>".toList "</h2>".toList
        (replaceAll (matchHeading "### ".toList) "<h3>".toList "</h3>".toList
          (List.replicate n '#' ++ ' ' :: t)))
      = headingOpen n ++ t ++ headingClose n := by
  have hsp : isLineTerminator ' ' = false := by decide
  have hha : isLineTerminator '#' = false := by decide
  have hall : ∀ (o c : List Char), (∀ x ∈ o ++ c, isLineTerminator x = false) →
      ∀ x ∈ o ++ t ++ c, isLineTerminator x = false := by
    intro o c hoc x hx
    simp only [List.mem_append] at hx
    rcases hx with (hx | hx) | hx
    · exact hoc x (List.mem_append_left _ hx)
    · exact hlt x hx
    · exact hoc x (List.mem_append_right _ hx)
  rcases hn with rfl | rfl | rfl
  · have e : List.replicate 1 '#' ++ ' ' :: t = "# ".toList ++ t := rfl
    rw [e, replaceAll_anchored_one_line _ (matchHeading_false _) _ _ ("# ".toList ++ t)
        (by simpa using hall "# ".toList [] (by decide)) (by simp [matchHeading, stripPrefix]),
      replaceAll_anchored_one_line _ (matchHeading_false _) _ _ ("# ".toList ++ t)
        (by simpa using hall "# ".toList [] (by decide)) (by simp [matchHeading, stripPrefix]),
      replaceAll_heading_hit _ _ _ t (by decide) hlt]
    rfl
  · have e : List.replicate 2 '#' ++ ' ' :: t = "## ".toList ++ t := rfl
    rw [e, replaceAll_anchored_one_line _ (matchHeading_false _) _ _ ("## ".toList ++ t)
        (by simpa using hall "## ".toList [] (by decide)) (by simp [matchHeading, stripPrefix]),
      replaceAll_heading_hit _ _ _ t (by decide) hlt,
      replaceAll_anchored_one_line _ (matchHeading_false _) _ _ _
        (hall "<h2>".toList "</h2>".toList (by decide)) (by simp [matchHeading, stripPrefix])]
    rfl
  · have e : List.replicate 3 '#' ++ ' ' :: t = "### ".toList ++ t := rfl
    rw [e, replaceAll_heading_hit _ _ _ t (by decide) hlt,
      replaceAll_anchored_one_line _ (matchHeading_false _) _ _ _
        (hall "<h3>".toList "</h3>".toList (by decide)) (by simp [matchHeading, stripPrefix]),
      replaceAll_anchored_one_line _ (matchHeading_false _) _ _ _
        (hall "<h3>".toList "</h3>".toList (by decide)) (by simp [matchHeading, stripPrefix])]
    rfl

/-- Counterexample to C7 as stated: the title `<li>x</li>` holds no `*`, no
backtick and no line break, yet `# <li>x</li>` is not turned into
`<h1><li>x</li></h1>`: line 45 wraps the item of the title in `<ol>`. -/
theorem C7_counterexample :
    '*' ∉ "<li>x</li>".toList ∧ tick ∉ "<li>x</li>".toList
    ∧ (∀ c ∈ "<li>x</li>".toList, isLineTerminator c = false)
    ∧ formatBotResponse (List.replicate 1 '#' ++ ' ' :: "<li>x</li>".toList)
        = "<h1><ol><li>x</li></ol></h1>".toList
    ∧ formatBotResponse (List.replicate 1 '#' ++ ' ' :: "<li>x</li>".toList)
        ≠ headingOpen 1 ++ "<li>x</li>".toList ++ headingClose 1 := by
  decide

/-- C7 (amended): for every level `n` in 1, 2, 3 and every title `t` that
holds no `*`, no backtick, no line break and no `<li>`, the formatter turns
`n` characters `#`, a space and `t` into exactly `<hn>` + `t` + `</hn>`:
no `<p>` around it and no `#` left over. -/
theorem C7_heading_line_becomes_heading (n : Nat) (hn : n = 1 ∨ n = 2 ∨ n = 3)
    (t : List Char) (hstar : '*' ∉ t) (htick : tick ∉ t)
    (hlt : ∀ c ∈ t, isLineTerminator c = false) (hli : includes liOpen t = false) :
    formatBotResponse (List.replicate n '#' ++ ' ' :: t)
      = headingOpen n ++ t ++ headingClose n := by
  obtain ⟨h1, h2, h3, h4, h5, h6⟩ := heading_tags_inert n hn
  exact formatBotResponse_of_heading _ (headingOpen n) t (headingClose n)
    (by rcases hn with rfl | rfl | rfl <;> simp [List.replicate])
    (headings_of_title n hn t hlt) h1 h2 h3 h4 h5 h6 hstar htick hlt
    ((includes_eq_false_iff _ _).1 hli)

/-- Witness of C7: the line `# Title` of the specification. -/
theorem C7_witness :
    (1 = 1 ∨ 1 = 2 ∨ 1 = 3) ∧ '*' ∉ "Title".toList ∧ tick ∉ "Title".toList
    ∧ (∀ c ∈ "Title".toList, isLineTerminator c = false)
    ∧ includes liOpen "Title".toList = false
    ∧ formatBotResponse "# Title".toList = "<h1>Title</h1>".toList :=
  ⟨by decide, by decide, by decide, by decide, by decide,
    C7_heading_line_becomes_heading 1 (by decide) "Title".toList (by decide) (by decide)
      (by decide) (by decide)⟩

/-- Counterexample to C8 as stated: the texts `<hr>` and `<li>a</li>` are not
empty and hold no heading line, no `*`, no backtick, no numbered or bullet
item and no blank line, yet the first is returned as it is (it starts with
`<h`) and the second is wrapped in `<ol>`, neither in `<p>`; and the text of
one space comes back empty. -/
theorem C8_counterexample :
    (atSomeLineStart headingMarker true "<hr>".toList = false ∧ '*' ∉ "<hr>".toList
      ∧ tick ∉ "<hr>".toList ∧ atSomeLineStart numberedItem true "<hr>".toList = false
      ∧ atSomeLineStart bulletItem true "<hr>".toList = false
      ∧ includes ['\n', '\n'] "<hr>".toList = false
      ∧ formatBotResponse "<hr>".toList = "<hr>".toList
      ∧ formatBotResponse "<hr>".toList ≠ "<p>".toList ++ "<hr>".toList ++ "</p>".toList)
    ∧ (atSomeLineStart headingMarker true "<li>a</li>".toList = false
      ∧ '*' ∉ "<li>a</li>".toList ∧ tick ∉ "<li>a</li>".toList
      ∧ atSomeLineStart numberedItem true "<li>a</li>".toList = false
      ∧ atSomeLineStart bulletItem true "<li>a</li>".toList = false
      ∧ includes ['\n', '\n'] "<li>a</li>".toList = false
      ∧ formatBotResponse "<li>a</li>".toList = "<ol><li>a</li></ol>".toList)
    ∧ formatBotResponse " ".toList = [] := by
  decide

/-- C8 (amended): a text that is not only white space, does not start with
`<h`, `<ol>`, `<ul>` or `<pre>` nor, once trimmed, with `<li>`, has no `<li>`
with a `</li>` after it, and matches none of the formatter's patterns (no
heading marker, numbered item or bullet item at a line start, no `*`, no
backtick, no two consecutive line feeds) is formatted as the single
paragraph `<p>` + text + `</p>`. -/
theorem C8_plain_text_is_one_paragraph (text : List Char)
    (hns : ∃ c ∈ text, isWhiteSpace c = false)
    (hh : atSomeLineStart headingMarker true text = false)
    (hstar : '*' ∉ text) (htick : tick ∉ text)
    (hnum : atSomeLineStart numberedItem true text = false)
    (hbul : atSomeLineStart bulletItem true text = false)
    (hblank : includes ['\n', '\n'] text = false)
    (hspan : hasItemSpan text = false)
    (h1 : "<h".toList.isPrefixOf text = false) (h2 : "<ol>".toList.isPrefixOf text = false)
    (h3 : "<ul>".toList.isPrefixOf text = false) (h4 : "<pre>".toList.isPrefixOf text = false)
    (h5 : liOpen.isPrefixOf (jsTrim text) = false) :
    formatBotResponse text = "<p>".toList ++ text ++ "</p>".toList := by
  obtain ⟨c, hc, hw⟩ := hns
  have hne : text ≠ [] := by
    intro h0; rw [h0] at hc; cases hc
  have hheadings : replaceAll (matchHeading "# ".toList) "<h1>".toList "</h1>".toList
      (replaceAll (matchHeading "## ".toList) "<h2>".toList "</h2>".toList
        (replaceAll (matchHeading "### ".toList) "<h3>".toList "</h3>".toList text))
      = text := by
    rw [replaceAll_of_not_anyMatch _ _ _ text
        (anyMatch_heading_of_atSomeLineStart _ (Or.inr (Or.inr rfl)) true text hh),
      replaceAll_of_not_anyMatch _ _ _ text
        (anyMatch_heading_of_atSomeLineStart _ (Or.inr (Or.inl rfl)) true text hh),
      replaceAll_of_not_anyMatch _ _ _ text
        (anyMatch_heading_of_atSomeLineStart _ (Or.inl rfl) true text hh)]
  rw [formatBotResponse_of_inlineStage text text hne
      (inlineStage_of_headings text text hheadings hstar htick)
      (anyMatch_numbered_of_atSomeLineStart true text hnum) hspan
      (anyMatch_bullet_of_atSomeLineStart true text hbul)
      ((includes_eq_false_iff _ _).1 hblank) c hc hw]
  exact wrapParagraph_plain text h1 h2 h3 h4 h5

/-- Witness of C8: a text of two lines. -/
theorem C8_witness :
    (∃ c ∈ "Hello\nworld".toList, isWhiteSpace c = false)
    ∧ formatBotResponse "Hello\nworld".toList = "<p>Hello\nworld</p>".toList :=
  ⟨⟨'H', by decide, by decide⟩,
    C8_plain_text_is_one_paragraph "Hello\nworld".toList ⟨'H', by decide, by decide⟩
      (by decide) (by decide) (by decide) (by decide) (by decide) (by decide) (by decide)
      (by decide) (by decide) (by decide) (by decide) (by decide)⟩

/-! ## Fenced blocks -/

/-- No match in `o ++ c ++ z` when no character of `o` and `z` can start one
and no line start inside `c` is followed by what a match starts with. -/
theorem anyMatch_wrapped (m : Bool → List Char → Option (List Char × Nat))
    (H : Char → Prop) (p : List Char → Bool) (o c z : List Char)
    (hhead : ∀ b x t, ¬ H x → m b (x :: t) = none)
    (ho : ∀ x ∈ o, ¬ H x) (hz : ∀ x ∈ z, ¬ H x) (hoe : endsLine true o = false)
    (hm : ∀ b x v, (m b (x :: (v ++ z))).isSome = true → b = true ∧ p (x :: v) = true)
    (hc : atSomeLineStart p false c = false) : anyMatch m true (o ++ c ++ z) = false := by
  rw [List.append_assoc, anyMatch_append, anyMatch_append, hoe,
    anyMatchIn_eq_false_of_head m H hhead o _ ho true,
    anyMatchIn_eq_false_of_atSomeLineStart m p z hm false c hc,
    anyMatch_eq_false_of_head m H hhead z hz]
  rfl

theorem matchHeading_cons_of_not_hash (marker : List Char)
    (hm : marker = "# ".toList ∨ marker = "## ".toList ∨ marker = "### ".toList)
    (b : Bool) (x : Char) (t : List Char) (hx : ¬ x = '#') :
    matchHeading marker b (x :: t) = none := by
  rcases hm with rfl | rfl | rfl <;> exact matchHeading_cons_of_ne '#' _ b x t (Ne.symm hx)

theorem headingMarker_of_isSome_append (marker : List Char)
    (hm : marker = "# ".toList ∨ marker = "## ".toList ∨ marker = "### ".toList)
    (a : Char) (z : List Char) (ha : a ≠ '#') (ha2 : a ≠ ' ')
    (b : Bool) (x : Char) (v : List Char)
    (h : (matchHeading marker b (x :: (v ++ a :: z))).isSome = true) :
    b = true ∧ headingMarker (x :: v) = true := by
  obtain ⟨hb, hp⟩ := isSome_matchHeading marker b _ h
  refine ⟨hb, headingMarker_of_prefix marker _ hm ?_⟩
  apply prefix_of_prefix_append_cons (L := x :: v) (c := a) (b := z) (by simp) ?_
    (by simpa using hp)
  rcases hm with rfl | rfl | rfl <;> simp [Ne.symm ha, Ne.symm ha2, ha, ha2]

theorem numberedMarker_of_isSome_append (a : Char) (z : List Char)
    (ha1 : isDigit a = false) (ha2 : a ≠ '.') (ha3 : isWhiteSpace a = false)
    (b : Bool) (x : Char) (v : List Char)
    (h : (matchNumbered b (x :: (v ++ a :: z))).isSome = true) :
    b = true ∧ numberedMarker (x :: v) = true := by
  cases hm : matchNumbered b (x :: (v ++ a :: z)) with
  | none => rw [hm] at h; cases h
  | some gn =>
    obtain ⟨g, n⟩ := gn
    obtain ⟨ds, w, rest, hs, _, hb, hdne, hds, hw, _, _, _⟩ := matchNumbered_eq_some b _ g n hm
    refine ⟨hb, ?_⟩
    have hp : ds ++ ['.', w] <+: (x :: v) ++ a :: z :=
      ⟨g ++ rest, by rw [List.cons_append, hs]; simp⟩
    have hnt : a ∉ (ds ++ ['.', w]).tail := by
      intro hmem
      have hmem2 := List.mem_of_mem_tail hmem
      simp only [List.mem_append, List.mem_cons, List.mem_singleton, List.not_mem_nil,
        or_false] at hmem2
      rcases hmem2 with hd | rfl | rfl
      · rw [hds a hd] at ha1; cases ha1
      · exact ha2 rfl
      · rw [hw] at ha3; cases ha3
    obtain ⟨r, hr⟩ := prefix_of_prefix_append_cons (L := x :: v) (by simp) hnt hp
    rw [← hr]
    simpa using numberedMarker_append ds w r hdne hds hw

theorem bulletMarker_of_isSome_append (a : Char) (z : List Char)
    (ha3 : isWhiteSpace a = false)
    (b : Bool) (x : Char) (v : List Char)
    (h : (matchBullet b (x :: (v ++ a :: z))).isSome = true) :
    b = true ∧ bulletMarker (x :: v) = true := by
  cases hm : matchBullet b (x :: (v ++ a :: z)) with
  | none => rw [hm] at h; cases h
  | some gn =>
    obtain ⟨g, n⟩ := gn
    obtain ⟨k, w, rest, hs, _, hb, hk, hw, _, _, _⟩ := matchBullet_eq_some b _ g n hm
    refine ⟨hb, ?_⟩
    have hp : [k, w] <+: (x :: v) ++ a :: z :=
      ⟨g ++ rest, by
        show [k, w] ++ (g ++ rest) = x :: (v ++ a :: z)
        rw [hs]; rfl⟩
    have hnt : a ∉ ([k, w] : List Char).tail := by
      intro hmem
      simp only [List.tail_cons, List.mem_singleton] at hmem
      subst hmem
      rw [hw] at ha3; cases ha3
    obtain ⟨r, hr⟩ := prefix_of_prefix_append_cons (L := x :: v) (by simp) hnt hp
    rw [← hr]
    rcases hk with rfl | rfl <;> simp [bulletMarker, hw]

/-- The fence rule on a text that is one fenced block. -/
theorem replaceAll_fence_hit (pre post c : List Char) (htick : tick ∉ c) :
    replaceAll matchFence pre post (fence ++ c ++ fence) = pre ++ c ++ post := by
  have hl : lazyUntil (fun _ => true) [tick, tick, tick] (c ++ [tick, tick, tick] ++ [])
      = some c :=
    lazyUntil_append _ tick [tick, tick] c [] (fun x hx => ⟨rfl, fun he => htick (he ▸ hx)⟩)
  have hm : matchFence true ((fence ++ c ++ fence) ++ []) =
      some (c, (fence ++ c ++ fence).length) := by
    rw [List.append_nil] at hl ⊢
    have hs : stripPrefix [tick, tick, tick] (fence ++ c ++ fence) = some (c ++ fence) := by
      rw [List.append_assoc]; exact stripPrefix_append _ _
    simp only [matchFence, matchSpan, hs]
    rw [show c ++ fence = c ++ [tick, tick, tick] from rfl, hl]
    simp [fence]; omega
  have := replaceAllAux_hit matchFence pre post true (fence ++ c ++ fence) [] c
    (by simp [fence]) hm
  rw [List.append_nil] at this
  rw [replaceAll, this, replaceAllAux_nil]
  simp

theorem tagBounded_preOpen : TagBounded "<pre><code>".toList :=
  ⟨⟨_, rfl⟩, ⟨"<pre><code".toList, rfl⟩⟩

theorem tagBounded_preClose : TagBounded "</code></pre>".toList :=
  ⟨⟨_, rfl⟩, ⟨"</code></pre".toList, rfl⟩⟩

theorem not_mem_wrap (a : Char) (o c z : List Char) (ho : a ∉ o) (hc : a ∉ c) (hz : a ∉ z) :
    a ∉ o ++ c ++ z := by
  simp [ho, hc, hz]

/-- Counterexample to C9 as stated: the content `**x**` holds no backtick,
yet it does not pass through unchanged: the bold rule of line 32 runs before
the fence rule of line 38. -/
theorem C9_counterexample :
    tick ∉ "**x**".toList
    ∧ formatBotResponse (fence ++ "**x**".toList ++ fence)
        = "<pre><code><strong>x</strong></code></pre>".toList
    ∧ formatBotResponse (fence ++ "**x**".toList ++ fence)
        ≠ "<pre><code>".toList ++ "**x**".toList ++ "</code></pre>".toList := by
  decide

/-- C9 (amended): for every content `c` that holds no backtick, no `*`, no
`<li>`, no two consecutive line feeds and, after a line break inside `c`, no
heading marker, numbered-item marker or bullet marker, the formatter turns
`c` between two fences into `<pre><code>` + `c` + `</code></pre>`. -/
theorem C9_fenced_block_passes_through (c : List Char)
    (htick : tick ∉ c) (hstar : '*' ∉ c)
    (hh : atSomeLineStart headingMarker false c = false)
    (hnum : atSomeLineStart numberedMarker false c = false)
    (hbul : atSomeLineStart bulletMarker false c = false)
    (hblank : includes ['\n', '\n'] c = false) (hli : includes liOpen c = false) :
    formatBotResponse (fence ++ c ++ fence)
      = "<pre><code>".toList ++ c ++ "</code></pre>".toList := by
  have hheading : ∀ marker pre post,
      (marker = "# ".toList ∨ marker = "## ".toList ∨ marker = "### ".toList) →
      replaceAll (matchHeading marker) pre post (fence ++ c ++ fence) = fence ++ c ++ fence := by
    intro marker pre post hm
    apply replaceAll_of_not_anyMatch
    exact anyMatch_wrapped _ (fun x => x = '#') headingMarker fence c fence
      (matchHeading_cons_of_not_hash marker hm) (by decide) (by decide) (by decide)
      (headingMarker_of_isSome_append marker hm tick [tick, tick] (by decide) (by decide)) hh
  have hT : '*' ∉ fence ++ c ++ fence := not_mem_wrap _ _ _ _ (by decide) hstar (by decide)
  have hF : tick ∉ "<pre><code>".toList ++ c ++ "</code></pre>".toList :=
    not_mem_wrap _ _ _ _ (by decide) htick (by decide)
  have hinline : inlineStage (fence ++ c ++ fence)
      = "<pre><code>".toList ++ c ++ "</code></pre>".toList := by
    unfold inlineStage
    simp only []
    rw [hheading _ _ _ (Or.inr (Or.inr rfl)), hheading _ _ _ (Or.inr (Or.inl rfl)),
      hheading _ _ _ (Or.inl rfl),
      replaceAll_of_not_anyMatch matchBold _ _ _ (anyMatch_bold_of_no_star _ hT true),
      replaceAll_of_not_anyMatch matchItalic _ _ _ (anyMatch_italic_of_no_star _ hT true),
      replaceAll_fence_hit _ _ c htick,
      replaceAll_of_not_anyMatch matchInlineCode _ _ _
        (anyMatch_inlineCode_of_no_tick _ hF true)]
  have hn : anyMatch matchNumbered true
      ("<pre><code>".toList ++ c ++ "</code></pre>".toList) = false :=
    anyMatch_wrapped _ (fun x => isDigit x = true) numberedMarker _ c _
      (fun b x t hx => matchNumbered_cons_of_not_digit b x t (by simpa using hx))
      (by decide) (by decide) (by decide)
      (numberedMarker_of_isSome_append '<' "/code></pre>".toList (by decide) (by decide)
        (by decide)) hnum
  have hb : anyMatch matchBullet true
      ("<pre><code>".toList ++ c ++ "</code></pre>".toList) = false :=
    anyMatch_wrapped _ (fun x => x = '-' ∨ x = '*') bulletMarker _ c _
      (fun b x t hx => matchBullet_cons_of_ne b x t (fun h => hx (Or.inl h))
        (fun h => hx (Or.inr h)))
      (by decide) (by decide) (by decide)
      (bulletMarker_of_isSome_append '<' "/code></pre>".toList (by decide)) hbul
  have hspan : hasItemSpan ("<pre><code>".toList ++ c ++ "</code></pre>".toList) = false := by
    apply hasItemSpan_of_countOcc
    rw [countOcc_wrap liOpen "<pre><code>".toList c "</code></pre>".toList tagLike_liOpen
      tagBounded_preOpen tagBounded_preClose, (includes_eq_false_iff _ _).1 hli]
    decide
  have hbl : countOcc ['\n', '\n'] ("<pre><code>".toList ++ c ++ "</code></pre>".toList)
      = 0 := by
    rw [countOcc_wrap ['\n', '\n'] "<pre><code>".toList c "</code></pre>".toList tagLike_blank
      tagBounded_preOpen tagBounded_preClose, (includes_eq_false_iff _ _).1 hblank]
    decide
  rw [formatBotResponse_of_inlineStage _ _ (by simp [fence]) hinline hn hspan hb hbl '<'
    (by simp) (by decide)]
  have e : "<pre><code>".toList ++ c ++ "</code></pre>".toList
      = "<pre>".toList ++ ("<code>".toList ++ c ++ "</code></pre>".toList) := by simp
  rw [e]
  exact wrapParagraph_pre _

/-- Witness of C9: a fenced block of two lines. -/
theorem C9_witness :
    tick ∉ "let x = 1;\nreturn x".toList ∧ '*' ∉ "let x = 1;\nreturn x".toList
    ∧ formatBotResponse (fence ++ "let x = 1;\nreturn x".toList ++ fence)
      = "<pre><code>let x = 1;\nreturn x</code></pre>".toList :=
  ⟨by decide, by decide,
    C9_fenced_block_passes_through "let x = 1;\nreturn x".toList (by decide) (by decide)
      (by decide) (by decide) (by decide) (by decide) (by decide)⟩

/-! ## Bold and italic -/

theorem jsTrim_eq_self (x y : Char) (r r2 : List Char) (hx : isWhiteSpace x = false)
    (hy : isWhiteSpace y = false) (h : x :: r = r2 ++ [y]) : jsTrim (x :: r) = x :: r := by
  unfold jsTrim
  rw [List.dropWhile_cons_of_neg (by simp [hx]), h, List.reverse_append]
  simp only [List.reverse_singleton, List.singleton_append]
  rw [List.dropWhile_cons_of_neg (by simp [hy])]
  simp

theorem matchBold_second_marker (bol : Bool) (b : List Char) (hb : '*' ∉ b) :
    matchBold bol ('*' :: (b ++ ['*'])) = none := by
  cases b with
  | nil => rfl
  | cons x b =>
    have hx : '*' ≠ x := fun he => hb (he ▸ List.mem_cons_self _ _)
    simp [matchBold, matchSpan, stripPrefix, hx]

theorem anyMatch_bold_tail (bol : Bool) (b : List Char) (hb : '*' ∉ b) :
    anyMatch matchBold bol (" and ".toList ++ '*' :: (b ++ ['*'])) = false := by
  have hhead : ∀ (k : Bool) (x : Char) (t : List Char), ¬ x = '*' → matchBold k (x :: t) = none :=
    fun k x t hx => matchBold_cons_of_ne k x t hx
  rw [anyMatch_append, anyMatchIn_eq_false_of_head matchBold (fun x => x = '*') hhead _ _
      (by decide) bol, Bool.false_or, anyMatch_cons, matchBold_second_marker _ b hb,
    anyMatch_append, anyMatchIn_eq_false_of_head matchBold (fun x => x = '*') hhead b _
      (fun _ hx he => hb (he ▸ hx))]
  simp [anyMatch_cons, anyMatch, matchBold, matchSpan, stripPrefix]

/-- The bold rule on the text of the claim. -/
theorem replaceAll_bold_hit (pre post a b : List Char)
    (ha : ∀ x ∈ a, isLineTerminator x = false ∧ x ≠ '*') (hb : '*' ∉ b) :
    replaceAll matchBold pre post
        (['*', '*'] ++ a ++ ['*', '*'] ++ (" and ".toList ++ '*' :: (b ++ ['*'])))
      = pre ++ a ++ post ++ (" and ".toList ++ '*' :: (b ++ ['*'])) := by
  have hl : lazyUntil (fun c => !isLineTerminator c) ['*', '*']
      (a ++ ['*', '*'] ++ (" and ".toList ++ '*' :: (b ++ ['*']))) = some a :=
    lazyUntil_append _ '*' ['*'] a _ (fun x hx => ⟨by simp [(ha x hx).1], (ha x hx).2⟩)
  have hm : matchBold true
      ((['*', '*'] ++ a ++ ['*', '*']) ++ (" and ".toList ++ '*' :: (b ++ ['*'])))
      = some (a, (['*', '*'] ++ a ++ ['*', '*']).length) := by
    have hs : stripPrefix ['*', '*']
        ((['*', '*'] ++ a ++ ['*', '*']) ++ (" and ".toList ++ '*' :: (b ++ ['*'])))
        = some (a ++ ['*', '*'] ++ (" and ".toList ++ '*' :: (b ++ ['*']))) := by
      rw [stripPrefix_eq_some_iff]; simp
    simp only [matchBold, matchSpan, hs, hl]
    simp; omega
  rw [replaceAll, replaceAllAux_hit matchBold pre post true _ _ a (by simp) hm,
    replaceAllAux_of_not_anyMatch matchBold pre post _ _ (anyMatch_bold_tail _ b hb)]

/-- The italic rule on the text the bold rule leaves. -/
theorem replaceAll_italic_hit (pre post p b : List Char) (hp : '*' ∉ p)
    (hb : ∀ x ∈ b, isLineTerminator x = false ∧ x ≠ '*') :
    replaceAll matchItalic pre post (p ++ '*' :: (b ++ ['*'])) = p ++ pre ++ b ++ post := by
  have hhead : ∀ (k : Bool) (x : Char) (t : List Char), ¬ x = '*' →
      matchItalic k (x :: t) = none := fun k x t hx => matchItalic_cons_of_ne k x t hx
  have hl : lazyUntil (fun c => !isLineTerminator c) ['*'] (b ++ ['*'] ++ []) = some b :=
    lazyUntil_append _ '*' [] b [] (fun x hx => ⟨by simp [(hb x hx).1], (hb x hx).2⟩)
  have hm : ∀ k, matchItalic k (('*' :: (b ++ ['*'])) ++ [])
      = some (b, ('*' :: (b ++ ['*'])).length) := by
    intro k
    have hs : stripPrefix ['*'] (('*' :: (b ++ ['*'])) ++ []) = some (b ++ ['*'] ++ []) := by
      rw [stripPrefix_eq_some_iff]; simp
    simp only [matchItalic, matchSpan, hs, hl]
    simp; omega
  have hit := fun k => replaceAllAux_hit matchItalic pre post k ('*' :: (b ++ ['*'])) [] b
    (by simp) (hm k)
  simp only [List.append_nil, replaceAllAux_nil] at hit
  rw [replaceAll, replaceAllAux_append_of_not_anyMatchIn matchItalic pre post true p _
    (anyMatchIn_eq_false_of_head matchItalic (fun x => x = '*') hhead p _
      (fun _ hx he => hp (he ▸ hx)) true), hit]
  simp

theorem forall_mem_sandwich (P : Char → Prop) (s₁ a s₂ b s₃ : List Char)
    (hs : ∀ x ∈ s₁ ++ s₂ ++ s₃, P x) (ha : ∀ x ∈ a, P x) (hb : ∀ x ∈ b, P x) :
    ∀ x ∈ s₁ ++ a ++ s₂ ++ b ++ s₃, P x := by
  intro x hx
  simp only [List.mem_append] at hx hs
  rcases hx with (((hx | hx) | hx) | hx) | hx
  · exact hs x (Or.inl (Or.inl hx))
  · exact ha x hx
  · exact hs x (Or.inl (Or.inr hx))
  · exact hb x hx
  · exact hs x (Or.inr hx)

/-- The rules after line 41 on a one-line text that starts with `<s`, ends
with `>` and has no `<li>`: a single paragraph. -/
theorem formatBotResponse_of_strong (text f r r2 : List Char) (hne : text ≠ [])
    (hinline : inlineStage text = f) (hflt : ∀ x ∈ f, isLineTerminator x = false)
    (hhead : f = '<' :: 's' :: r) (hlast : f = r2 ++ ['>']) (hli : countOcc liOpen f = 0) :
    formatBotResponse text = "<p>".toList ++ f ++ "</p>".toList := by
  have hnum : anyMatch matchNumbered true f = false := by
    apply anyMatch_of_one_line _ matchNumbered_false true _ hflt
    rw [hhead]
    exact matchNumbered_cons_of_not_digit _ _ _ (by decide)
  have hbul : anyMatch matchBullet true f = false := by
    apply anyMatch_of_one_line _ matchBullet_false true _ hflt
    rw [hhead]
    exact matchBullet_cons_of_ne _ _ _ (by decide) (by decide)
  have hblank : countOcc ['\n', '\n'] f = 0 :=
    countOcc_eq_zero_of_head_not_mem _ _ _ (newline_not_mem _ hflt)
  rw [formatBotResponse_of_inlineStage _ f hne hinline hnum (hasItemSpan_of_countOcc f hli)
    hbul hblank '<' (by rw [hhead]; exact List.mem_cons_self _ _) (by decide)]
  have htrim : jsTrim f = f := by
    rw [hhead]
    exact jsTrim_eq_self '<' '>' _ r2 (by decide) (by decide) (by rw [← hhead, hlast])
  apply wrapParagraph_plain f
  · rw [hhead]; simp [List.isPrefixOf]
  · rw [hhead]; simp [List.isPrefixOf]
  · rw [hhead]; simp [List.isPrefixOf]
  · rw [hhead]; simp [List.isPrefixOf]
  · rw [htrim, hhead]; simp [liOpen, List.isPrefixOf]

/-- Counterexample to C6 as stated: `a` = `<li></li>` and `b` empty hold no
`*`, no backtick and no line break, yet the result is not
`<p><strong><li></li></strong> and <em></em></p>`: line 45 wraps the item in
`<ol>`. -/
theorem C6_counterexample :
    '*' ∉ "<li></li>".toList ∧ tick ∉ "<li></li>".toList
    ∧ (∀ c ∈ "<li></li>".toList, isLineTerminator c = false)
    ∧ formatBotResponse ("**".toList ++ "<li></li>".toList ++ "** and *".toList ++ [] ++ "*".toList)
        = "<p><strong><ol><li></li></ol></strong> and <em></em></p>".toList
    ∧ formatBotResponse ("**".toList ++ "<li></li>".toList ++ "** and *".toList ++ [] ++ "*".toList)
        ≠ "<p><strong>".toList ++ "<li></li>".toList ++ "</strong> and <em>".toList ++ []
            ++ "</em></p>".toList := by
  decide

/-- C6 (amended): for all strings `a` and `b` that hold no `*`, no backtick,
no line break and no `<li>`, the formatter turns `**a** and *b*` into
`<p><strong>a</strong> and <em>b</em></p>`: the bold rule consumes the `**`
pairs before the italic rule runs. -/
theorem C6_bold_then_italic (a b : List Char)
    (hastar : '*' ∉ a) (hbstar : '*' ∉ b) (hatick : tick ∉ a) (hbtick : tick ∉ b)
    (halt : ∀ c ∈ a, isLineTerminator c = false) (hblt : ∀ c ∈ b, isLineTerminator c = false)
    (hali : includes liOpen a = false) (hbli : includes liOpen b = false) :
    formatBotResponse ("**".toList ++ a ++ "** and *".toList ++ b ++ "*".toList)
      = "<p><strong>".toList ++ a ++ "</strong> and <em>".toList ++ b ++ "</em></p>".toList := by
  have etext : "**".toList ++ a ++ "** and *".toList ++ b ++ "*".toList
      = ['*', '*'] ++ a ++ ['*', '*'] ++ (" and ".toList ++ '*' :: (b ++ ['*'])) := by simp
  have htlt : ∀ x ∈ "**".toList ++ a ++ "** and *".toList ++ b ++ "*".toList,
      isLineTerminator x = false :=
    forall_mem_sandwich _ _ a _ b _ (by decide) halt hblt
  have hheading : ∀ marker pre post,
      (marker = "# ".toList ∨ marker = "## ".toList ∨ marker = "### ".toList) →
      replaceAll (matchHeading marker) pre post
        ("**".toList ++ a ++ "** and *".toList ++ b ++ "*".toList)
        = "**".toList ++ a ++ "** and *".toList ++ b ++ "*".toList := by
    intro marker pre post hm
    apply replaceAll_anchored_one_line _ (matchHeading_false _) _ _ _ htlt
    exact matchHeading_cons_of_not_hash marker hm true '*' _ (by decide)
  obtain ⟨f, hf⟩ : ∃ f, f = "<strong>".toList ++ a ++ "</strong> and <em>".toList ++ b
      ++ "</em>".toList := ⟨_, rfl⟩
  have hftick : tick ∉ f := by
    rw [hf]
    exact fun h => forall_mem_sandwich (fun x => x ≠ tick) _ a _ b _ (by decide)
      (fun x hx he => hatick (he ▸ hx)) (fun x hx he => hbtick (he ▸ hx)) tick h rfl
  have hflt : ∀ x ∈ f, isLineTerminator x = false := by
    rw [hf]
    exact forall_mem_sandwich _ _ a _ b _ (by decide) halt hblt
  have hinline : inlineStage ("**".toList ++ a ++ "** and *".toList ++ b ++ "*".toList) = f := by
    unfold inlineStage
    simp only []
    rw [hheading _ _ _ (Or.inr (Or.inr rfl)), hheading _ _ _ (Or.inr (Or.inl rfl)),
      hheading _ _ _ (Or.inl rfl), etext,
      replaceAll_bold_hit _ _ a b (fun x hx => ⟨halt x hx, fun he => hastar (he ▸ hx)⟩) hbstar]
    have e2 : "<strong>".toList ++ a ++ "</strong>".toList
        ++ (" and ".toList ++ '*' :: (b ++ ['*']))
        = ("<strong>".toList ++ a ++ "</strong> and ".toList) ++ '*' :: (b ++ ['*']) := by simp
    rw [e2, replaceAll_italic_hit _ _ _ b
      (not_mem_wrap _ _ _ _ (by decide) hastar (by decide))
      (fun x hx => ⟨hblt x hx, fun he => hbstar (he ▸ hx)⟩)]
    have e3 : "<strong>".toList ++ a ++ "</strong> and ".toList ++ "<em>".toList ++ b
        ++ "</em>".toList = f := by rw [hf]; simp
    rw [e3, replaceAll_of_not_anyMatch matchFence _ _ f (anyMatch_fence_of_no_tick f hftick true),
      replaceAll_of_not_anyMatch matchInlineCode _ _ f
        (anyMatch_inlineCode_of_no_tick f hftick true)]
  have hfhead : f = '<' :: 's' :: ("trong>".toList ++ a ++ "</strong> and <em>".toList ++ b
      ++ "</em>".toList) := by rw [hf]; simp
  have hflast : f = ("<strong>".toList ++ a ++ "</strong> and <em>".toList ++ b
      ++ "</em".toList) ++ ['>'] := by rw [hf]; simp
  have hli : countOcc liOpen f = 0 := by
    have h1 := countOcc_append_tag liOpen ("<strong>".toList ++ a) "</strong> and <em>".toList
      (b ++ "</em>".toList) tagLike_liOpen ⟨⟨_, rfl⟩, ⟨"</strong> and <em".toList, rfl⟩⟩
    have h2 := countOcc_append_tag liOpen [] "<strong>".toList a tagLike_liOpen
      ⟨⟨_, rfl⟩, ⟨"<strong".toList, rfl⟩⟩
    have h3 := countOcc_append_tag liOpen b "</em>".toList [] tagLike_liOpen
      ⟨⟨_, rfl⟩, ⟨"</em".toList, rfl⟩⟩
    have e4 : f = "<strong>".toList ++ a ++ "</strong> and <em>".toList
        ++ (b ++ "</em>".toList) := by rw [hf]; simp
    rw [List.nil_append] at h2
    rw [List.append_nil] at h3
    rw [e4, h1, h2, h3, (includes_eq_false_iff _ _).1 hali, (includes_eq_false_iff _ _).1 hbli]
    decide
  rw [formatBotResponse_of_strong _ f _ _ (by simp) hinline hflt hfhead hflast hli, hf]
  simp

/-- Witness of C6: the text `**a** and *b*` of the specification. -/
theorem C6_witness :
    '*' ∉ "a".toList ∧ '*' ∉ "b".toList ∧ tick ∉ "a".toList ∧ tick ∉ "b".toList
    ∧ formatBotResponse "**a** and *b*".toList
      = "<p><strong>a</strong> and <em>b</em></p>".toList :=
  ⟨by decide, by decide, by decide, by decide,
    C6_bold_then_italic "a".toList "b".toList (by decide) (by decide) (by decide) (by decide)
      (by decide) (by decide) (by decide) (by decide)⟩

/-! ## A numbered item survives the rules of lines 27-41 -/

theorem replaceAll_inline_induction {m : Bool → List Char → Option (List Char × Nat)}
    (hm : InlineShape m) (P : Bool → List Char → Prop)
    (hnil : ∀ bol, P bol [])
    (hskip : ∀ bol c cs, m bol (c :: cs) = none → P (isLineTerminator c) cs → P bol (c :: cs))
    (hhit : ∀ bol s g o cl rest, m bol s = some (g, (o ++ g ++ cl).length) →
      HitShape s g o cl rest → InlineHit g o cl → P false rest → P bol s) :
    ∀ bol s, P bol s := by
  intro bol s
  obtain ⟨n, hn⟩ : ∃ n, s.length = n := ⟨_, rfl⟩
  induction n using Nat.strong_induction_on generalizing bol s with
  | _ n ih =>
    cases s with
    | nil => exact hnil bol
    | cons c cs =>
      cases hmc : m bol (c :: cs) with
      | none => exact hskip bol c cs hmc (ih cs.length (by simp [← hn]) _ cs rfl)
      | some gn =>
        obtain ⟨g, k⟩ := gn
        obtain ⟨o, cl, rest, hk, hs, hi⟩ := hm bol (c :: cs) g k hmc
        subst hk
        have hlen : rest.length < n := by
          have h1 := congrArg List.length hs.split
          have h2 : 0 < o.length := List.length_pos.2 hs.opener_ne
          simp only [List.length_append, List.length_cons] at h1 hn
          omega
        exact hhit bol (c :: cs) g o cl rest hmc hs hi (ih rest.length hlen _ rest rfl)

theorem isInlineMarker_plain (c : Char) (h : isInlineMarker c = true) :
    isDigit c = false ∧ c ≠ '.' ∧ isWhiteSpace c = false ∧ isLineTerminator c = false := by
  simp only [isInlineMarker, Bool.or_eq_true, beq_iff_eq] at h
  rcases h with (rfl | rfl) | rfl <;> decide

theorem numberedItem_iff (v : List Char) :
    numberedItem v = true ↔ ∃ ds w x r, v = ds ++ '.' :: w :: x :: r ∧ ds ≠ []
      ∧ (∀ d ∈ ds, isDigit d = true) ∧ isWhiteSpace w = true
      ∧ isLineTerminator x = false := by
  constructor
  · intro h
    unfold numberedItem at h
    simp only [Bool.and_eq_true, Bool.not_eq_true'] at h
    obtain ⟨hds, hrest⟩ := h
    have hsplit := List.takeWhile_append_dropWhile isDigit v
    split at hrest
    · rename_i d w x r hdrop
      simp only [Bool.and_eq_true, beq_iff_eq, Bool.not_eq_true'] at hrest
      obtain ⟨⟨hd, hw⟩, hx⟩ := hrest
      subst hd
      refine ⟨v.takeWhile isDigit, w, x, r, ?_, ?_, ?_, hw, hx⟩
      · rw [← hdrop, hsplit]
      · intro h0; rw [h0] at hds; simp at hds
      · intro y hy; exact List.mem_takeWhile_imp hy
    · cases hrest
  · rintro ⟨ds, w, x, r, rfl, hne, hds, hw, hx⟩
    exact numberedItem_append ds w x r hne hds hw hx

theorem isSome_matchNumbered_of_item (ds : List Char) (w x : Char) (r : List Char)
    (hne : ds ≠ []) (hds : ∀ d ∈ ds, isDigit d = true) (hw : isWhiteSpace w = true)
    (hx : isLineTerminator x = false) :
    (matchNumbered true (ds ++ '.' :: w :: x :: r)).isSome = true := by
  have hdot : isDigit '.' = false := by decide
  unfold matchNumbered
  simp only [if_true]
  rw [List.takeWhile_append_of_pos hds, List.dropWhile_append_of_pos hds]
  simp only [List.takeWhile_cons, hdot, List.dropWhile_cons]
  cases ds with
  | nil => exact absurd rfl hne
  | cons d ds => simp [hw, hx]

theorem isSome_matchNumbered_iff (b : Bool) (v : List Char) :
    (matchNumbered b v).isSome = true ↔ b = true ∧ numberedItem v = true := by
  constructor
  · exact isSome_matchNumbered b v
  · rintro ⟨rfl, h⟩
    obtain ⟨ds, w, x, r, rfl, hne, hds, hw, hx⟩ := (numberedItem_iff v).1 h
    exact isSome_matchNumbered_of_item ds w x r hne hds hw hx

theorem inline_none_of_head {m : Bool → List Char → Option (List Char × Nat)}
    (hm : InlineShape m) (b : Bool) (c : Char) (t : List Char)
    (hc : ¬ isInlineMarker c = true) : m b (c :: t) = none := by
  cases h : m b (c :: t) with
  | none => rfl
  | some gn =>
    obtain ⟨g, n⟩ := gn
    obtain ⟨o, cl, rest, _, hs, hi⟩ := hm b (c :: t) g n h
    obtain ⟨k, o', ho, hk⟩ := hi.opener_head
    have := hs.split
    rw [ho] at this
    simp only [List.cons_append, List.cons.injEq] at this
    rw [this.1] at hc
    exact absurd hk hc

/-- The result of a replacement on a text that starts inside a line starts
inside a line. -/
theorem replaceAllAux_head {m : Bool → List Char → Option (List Char × Nat)}
    (pre post : List Char) (hpre : TagText pre) (b : Bool) (x : Char) (r : List Char)
    (hx : isLineTerminator x = false) :
    ∃ y t, replaceAllAux m pre post 0 b (x :: r) = y :: t ∧ isLineTerminator y = false := by
  cases h : m b (x :: r) with
  | none => exact ⟨x, _, replaceAllAux_cons_none m pre post b x r h, hx⟩
  | some gn =>
    obtain ⟨⟨p, hp⟩, _⟩ := hpre
    rw [replaceAllAux, h, hp]
    simp only [List.cons_append, List.append_assoc]
    exact ⟨'<', _, rfl, by decide⟩

theorem isSome_matchNumbered_replaceAllAux {m : Bool → List Char → Option (List Char × Nat)}
    (pre post : List Char) (hm : InlineShape m) (hpre : TagText pre) (bol : Bool)
    (s : List Char) (h : (matchNumbered bol s).isSome = true) :
    (matchNumbered bol (replaceAllAux m pre post 0 bol s)).isSome = true := by
  obtain ⟨hb, hitem⟩ := (isSome_matchNumbered_iff bol s).1 h
  subst hb
  obtain ⟨ds, w, x, r, rfl, hne, hds, hw, hx⟩ := (numberedItem_iff s).1 hitem
  have hno : anyMatchIn m true (ds ++ ['.', w]) (x :: r) = false := by
    apply anyMatchIn_eq_false_of_head m (fun c => isInlineMarker c = true)
      (fun b c t hc => inline_none_of_head hm b c t hc)
    intro c hc hmark
    obtain ⟨h1, h2, h3, _⟩ := isInlineMarker_plain c hmark
    simp only [List.mem_append, List.mem_cons, List.mem_singleton, List.not_mem_nil,
      or_false] at hc
    rcases hc with hc | rfl | rfl
    · rw [hds c hc] at h1; cases h1
    · exact h2 rfl
    · rw [hw] at h3; cases h3
  have e : ds ++ '.' :: w :: x :: r = (ds ++ ['.', w]) ++ x :: r := by simp
  rw [e, replaceAllAux_append_of_not_anyMatchIn m pre post true _ _ hno]
  obtain ⟨y, t, hy, hylt⟩ := replaceAllAux_head (m := m) pre post hpre
    (endsLine true (ds ++ ['.', w])) x r hx
  rw [hy]
  have e2 : (ds ++ ['.', w]) ++ y :: t = ds ++ '.' :: w :: y :: t := by simp
  rw [e2]
  exact isSome_matchNumbered_of_item ds w y t hne hds hw hylt

theorem isSome_matchNumbered_swap (b : Bool) (L : List Char) (h : Char) (Z : List Char)
    (y : Char) (Y : List Char) (hL : L ≠ []) (hh : isInlineMarker h = true)
    (hy : isLineTerminator y = false)
    (hs : (matchNumbered b (L ++ h :: Z)).isSome = true) :
    (matchNumbered b (L ++ y :: Y)).isSome = true := by
  obtain ⟨hb, hitem⟩ := (isSome_matchNumbered_iff b _).1 hs
  subst hb
  obtain ⟨ds, w, x, r, hv, hne, hds, hw, hx⟩ := (numberedItem_iff _).1 hitem
  obtain ⟨h1, h2, h3, _⟩ := isInlineMarker_plain h hh
  have hp : ds ++ ['.', w] <+: L ++ h :: Z := ⟨x :: r, by rw [hv]; simp⟩
  have hnt : h ∉ (ds ++ ['.', w]).tail := by
    intro hmem
    have hmem2 := List.mem_of_mem_tail hmem
    simp only [List.mem_append, List.mem_cons, List.mem_singleton, List.not_mem_nil,
      or_false] at hmem2
    rcases hmem2 with hd | rfl | rfl
    · rw [hds h hd] at h1; cases h1
    · exact h2 rfl
    · rw [hw] at h3; cases h3
  obtain ⟨L2, hL2⟩ := prefix_of_prefix_append_cons hL hnt hp
  subst hL2
  cases L2 with
  | nil =>
    have e : ds ++ ['.', w] ++ [] ++ y :: Y = ds ++ '.' :: w :: y :: Y := by simp
    rw [e]
    exact isSome_matchNumbered_of_item ds w y Y hne hds hw hy
  | cons a L2 =>
    have ha : a = x := by
      have e1 : ds ++ ['.', w] ++ a :: L2 ++ h :: Z = (ds ++ ['.', w]) ++ (a :: (L2 ++ h :: Z)) := by
        simp
      have e2 : ds ++ '.' :: w :: x :: r = (ds ++ ['.', w]) ++ (x :: r) := by simp
      rw [e1, e2] at hv
      have := List.append_cancel_left hv
      simp only [List.cons.injEq] at this
      exact this.1
    subst ha
    have e : ds ++ ['.', w] ++ a :: L2 ++ y :: Y = ds ++ '.' :: w :: a :: (L2 ++ y :: Y) := by simp
    rw [e]
    exact isSome_matchNumbered_of_item ds w a _ hne hds hw hx

theorem anyMatchIn_numbered_swap (g : List Char) (h : Char) (Z : List Char) (y : Char)
    (Y : List Char) (hh : isInlineMarker h = true) (hy : isLineTerminator y = false) :
    ∀ b, anyMatchIn matchNumbered b g (h :: Z) = true →
      anyMatchIn matchNumbered b g (y :: Y) = true := by
  induction g with
  | nil => intro b hb; simp [anyMatchIn] at hb
  | cons c g ih =>
    intro b hb
    rw [anyMatchIn_cons, Bool.or_eq_true] at hb ⊢
    rcases hb with hb | hb
    · left
      have := isSome_matchNumbered_swap b (c :: g) h Z y Y (by simp) hh hy (by simpa using hb)
      simpa using this
    · right
      exact ih _ hb

theorem anyMatchIn_numbered_false_of_no_digit (a Z : List Char)
    (ha : ∀ c ∈ a, isDigit c = false) (bol : Bool) :
    anyMatchIn matchNumbered bol a Z = false :=
  anyMatchIn_eq_false_of_head matchNumbered (fun c => isDigit c = true)
    (fun b c t hc => matchNumbered_cons_of_not_digit b c t (by simpa using hc)) a Z
    (fun c hc => by simp [ha c hc]) bol

theorem tagText_no_digit_head (t : List Char) (ht : TagText t) :
    t ≠ [] ∧ ∀ b Z, (matchNumbered b (t ++ Z)).isSome = false := by
  obtain ⟨⟨r, hr⟩, _⟩ := ht
  subst hr
  refine ⟨by simp, fun b Z => ?_⟩
  rw [List.cons_append, matchNumbered_cons_of_not_digit b '<' _ (by decide)]
  rfl

theorem anyMatchIn_numbered_tagText (t Z : List Char) (ht : TagText t) (bol : Bool) :
    anyMatchIn matchNumbered bol t Z = false := by
  obtain ⟨⟨r, hr⟩, hlt⟩ := ht
  subst hr
  rw [anyMatchIn_cons, matchNumbered_cons_of_not_digit bol '<' _ (by decide),
    hlt '<' (List.mem_cons_self _ _),
    anyMatchIn_false_of_no_terminator matchNumbered matchNumbered_false r Z
      (fun c hc => hlt c (List.mem_cons_of_mem _ hc))]
  rfl

theorem endsLine_tagText (t : List Char) (ht : TagText t) (bol : Bool) (a : List Char) :
    endsLine bol (a ++ t) = false := by
  obtain ⟨⟨r, hr⟩, hlt⟩ := ht
  exact endsLine_false_of_suffix bol a t (by rw [hr]; simp) hlt

/-- A numbered item at a line start of a text is still there after a rule of
lines 27-41 has been applied. -/
theorem anyMatch_numbered_replaceAllAux {m : Bool → List Char → Option (List Char × Nat)}
    (pre post : List Char) (hm : InlineShape m) (hpre : TagText pre) (hpost : TagText post) :
    ∀ bol s, anyMatch matchNumbered bol s = true →
      anyMatch matchNumbered bol (replaceAllAux m pre post 0 bol s) = true := by
  refine replaceAll_inline_induction hm
    (fun bol s => anyMatch matchNumbered bol s = true →
      anyMatch matchNumbered bol (replaceAllAux m pre post 0 bol s) = true) ?_ ?_ ?_
  · intro bol h
    simp [anyMatch] at h
  · intro bol c cs hmc ih h
    rw [anyMatch_cons, Bool.or_eq_true] at h
    rcases h with h | h
    · have := isSome_matchNumbered_replaceAllAux pre post hm hpre bol (c :: cs) h
      cases hr : replaceAllAux m pre post 0 bol (c :: cs) with
      | nil => rw [hr] at this; simp [matchNumbered] at this
      | cons y t =>
        rw [hr] at this
        rw [anyMatch_cons, this]
        rfl
    · rw [replaceAllAux_cons_none m pre post bol c cs hmc, anyMatch_cons, ih h]
      simp
  · intro bol s g o cl rest hmc hs hi ih h
    have hne : o ++ g ++ cl ≠ [] := by
      have := hs.opener_ne
      simp [this]
    have hsplit : s = (o ++ g ++ cl) ++ rest := hs.split
    have hres : replaceAllAux m pre post 0 bol s
        = pre ++ (g ++ (post ++ replaceAllAux m pre post 0 false rest)) := by
      rw [hsplit] at hmc ⊢
      rw [replaceAllAux_hit m pre post bol (o ++ g ++ cl) rest g hne hmc, hs.ends bol]
      simp
    have holt : ∀ c ∈ o, isLineTerminator c = false := fun c hc => (hi.opener_plain c hc).1
    have hoe : endsLine bol o = false := by
      have := endsLine_false_of_suffix bol [] o hs.opener_ne holt
      simpa using this
    have hpe : endsLine bol pre = false := by
      have := endsLine_tagText pre hpre bol []
      simpa using this
    have hin : s = o ++ (g ++ (cl ++ rest)) := by rw [hsplit]; simp
    rw [hin, anyMatch_append, anyMatch_append, anyMatch_append, hoe,
      anyMatchIn_numbered_false_of_no_digit o _ (fun c hc => (hi.opener_plain c hc).2),
      anyMatchIn_numbered_false_of_no_digit cl _
        (fun c hc => (isInlineMarker_plain c (hi.closer_inline c hc)).1),
      Bool.false_or, Bool.false_or] at h
    have hends : endsLine (endsLine false g) cl = false := by
      have := hs.ends bol
      rw [List.append_assoc, endsLine_append, hoe, endsLine_append] at this
      exact this
    rw [hends] at h
    rw [hres, anyMatch_append, anyMatch_append, anyMatch_append, hpe,
      anyMatchIn_numbered_tagText pre _ hpre, anyMatchIn_numbered_tagText post _ hpost,
      Bool.false_or, Bool.false_or]
    have hpost_e : endsLine (endsLine false g) post = false := by
      have := endsLine_tagText post hpost false g
      rw [endsLine_append] at this
      exact this
    rw [hpost_e]
    rw [Bool.or_eq_true] at h ⊢
    rcases h with h | h
    · left
      rcases hi.group_line with hg | hcl
      · rw [anyMatchIn_false_of_no_terminator matchNumbered matchNumbered_false g _ hg] at h
        cases h
      · obtain ⟨⟨p, hp⟩, _⟩ := hpost
        cases hcl2 : cl with
        | nil => exact absurd hcl2 hcl
        | cons k cl2 =>
          rw [hcl2] at h
          rw [hp]
          exact anyMatchIn_numbered_swap g k _ '<' _
            (hi.closer_inline k (by rw [hcl2]; exact List.mem_cons_self _ _)) (by decide) _ h
    · right
      exact ih h

/-! ## Occurrences of a tag across the paragraph step -/

theorem splitBlank_cons_cons (c d : Char) (rest : List Char) :
    splitBlank (c :: d :: rest) =
      if c = '\n' && d = '\n' then [] :: splitBlank rest
      else
        match splitBlank (d :: rest) with
        | [] => [[c]]
        | p :: ps => (c :: p) :: ps := by
  rfl

/-- The first candidate of `split` is a prefix of the text, followed by
nothing or by a line feed. -/
theorem splitBlank_head (s : List Char) :
    ∃ p ps tail, splitBlank s = p :: ps ∧ s = p ++ tail ∧ (tail = [] ∨ ∃ t, tail = '\n' :: t) := by
  induction s with
  | nil => exact ⟨[], [], [], rfl, rfl, Or.inl rfl⟩
  | cons c s ih =>
    cases s with
    | nil => exact ⟨[c], [], [], rfl, rfl, Or.inl rfl⟩
    | cons d rest =>
      rw [splitBlank_cons_cons]
      by_cases hb : (c = '\n' && d = '\n') = true
      · rw [if_pos hb]
        simp only [Bool.and_eq_true, decide_eq_true_eq] at hb
        exact ⟨[], _, c :: d :: rest, rfl, rfl, Or.inr ⟨d :: rest, by rw [hb.1]⟩⟩
      · rw [if_neg hb]
        obtain ⟨p, ps, tail, hsp, hs, ht⟩ := ih
        rw [hsp]
        exact ⟨c :: p, ps, tail, rfl, by rw [hs]; rfl, ht⟩

theorem newline_not_mem_of_no_marker (X : List Char)
    (hXm : ∀ c ∈ X, isMarkerChar c = false) : '\n' ∉ X := by
  intro h
  have := hXm _ h
  exact absurd this (by decide)

theorem whiteSpace_free_of_no_marker (X : List Char) (hX : X ≠ [])
    (hXm : ∀ c ∈ X, isMarkerChar c = false) : ∃ c ∈ X, isWhiteSpace c = false := by
  cases X with
  | nil => exact absurd rfl hX
  | cons c X =>
    refine ⟨c, List.mem_cons_self _ _, ?_⟩
    cases hw : isWhiteSpace c with
    | false => rfl
    | true =>
      have := hXm c (List.mem_cons_self _ _)
      rw [isMarkerChar_of_isWhiteSpace c hw] at this
      cases this

theorem countOcc_splitBlank (X : List Char) (hX : X ≠ []) (hnl : '\n' ∉ X) (s : List Char) :
    countOcc X s = ((splitBlank s).map (countOcc X)).sum := by
  obtain ⟨n, hn⟩ : ∃ n, s.length = n := ⟨_, rfl⟩
  induction n using Nat.strong_induction_on generalizing s with
  | _ n ih =>
    cases s with
    | nil => rfl
    | cons c s =>
      cases s with
      | nil => simp [splitBlank]
      | cons d rest =>
        simp only [List.length_cons] at hn
        rw [splitBlank_cons_cons]
        by_cases hb : (c = '\n' && d = '\n') = true
        · rw [if_pos hb]
          simp only [Bool.and_eq_true, decide_eq_true_eq] at hb
          obtain ⟨rfl, rfl⟩ := hb
          have h1 := countOcc_markers_append X ['\n', '\n'] rest hX
            (by
              intro x hx
              simp only [List.mem_cons, List.mem_singleton, List.not_mem_nil, or_false,
                or_self] at hx
              rw [hx]; exact hnl)
          simp only [List.cons_append, List.nil_append] at h1
          rw [h1, ih rest.length (by omega) rest rfl]
          simp [countOcc]
        · rw [if_neg hb]
          obtain ⟨p, ps, tail, hsp, hs, ht⟩ := splitBlank_head (d :: rest)
          have hrec := ih (d :: rest).length (by simp; omega) (d :: rest) rfl
          rw [hsp] at hrec ⊢
          simp only [List.map_cons, List.sum_cons] at hrec ⊢
          rw [countOcc_cons X c (d :: rest), countOcc_cons X c p, hrec]
          have hp : X.isPrefixOf (c :: d :: rest) = X.isPrefixOf (c :: p) := by
            rw [hs]
            rcases ht with rfl | ⟨t, rfl⟩
            · simp
            · apply isPrefixOf_eq_of_iff
              constructor
              · intro h
                exact prefix_of_prefix_append_cons (L := c :: p) (by simp)
                  (fun hm => hnl (List.mem_of_mem_tail hm)) (by simpa using h)
              · intro h
                exact h.trans (by simp)
          rw [hp]
          omega

theorem all_whiteSpace_of_jsTrim_isEmpty (p : List Char) (h : (jsTrim p).isEmpty = true) :
    ∀ c ∈ p, isWhiteSpace c = true := by
  intro c hc
  by_contra hw
  have hw2 : isWhiteSpace c = false := by simpa using hw
  rw [jsTrim_isEmpty_eq_false p c hc hw2] at h
  cases h

theorem countOcc_eq_zero_of_all_whiteSpace (X p : List Char)
    (hns : ∃ c ∈ X, isWhiteSpace c = false) (hp : ∀ c ∈ p, isWhiteSpace c = true) :
    countOcc X p = 0 := by
  obtain ⟨c, hc, hw⟩ := hns
  have hX : X ≠ [] := by
    intro h0; rw [h0] at hc; cases hc
  by_contra hne
  obtain ⟨u, v, huv⟩ := (countOcc_pos_iff X p hX).1 (Nat.pos_of_ne_zero hne)
  have := hp c (by rw [huv]; simp [hc])
  rw [hw] at this
  cases this

theorem sum_countOcc_filter (X : List Char) (hns : ∃ c ∈ X, isWhiteSpace c = false)
    (ps : List (List Char)) :
    ((ps.filter (fun p => !(jsTrim p).isEmpty)).map (countOcc X)).sum
      = (ps.map (countOcc X)).sum := by
  induction ps with
  | nil => rfl
  | cons p ps ih =>
    by_cases hk : (jsTrim p).isEmpty = true
    · have h0 := countOcc_eq_zero_of_all_whiteSpace X p hns
        (all_whiteSpace_of_jsTrim_isEmpty p hk)
      simp [List.filter, hk, ih, h0]
    · simp [List.filter, hk, ih]

theorem countOcc_wrapParagraph_le (X p : List Char) :
    countOcc X p ≤ countOcc X (wrapParagraph p) := by
  unfold wrapParagraph
  split
  · exact Nat.le_refl _
  · split
    · exact Nat.le_refl _
    · have h1 := countOcc_append_le X ("<p>".toList ++ p) "</p>".toList
      have h2 := countOcc_append_le X "<p>".toList p
      omega

theorem countOcc_wrapParagraph (X p : List Char) (hX : TagLike X)
    (h1 : countOcc X "<p>".toList = 0) (h2 : countOcc X "</p>".toList = 0) :
    countOcc X (wrapParagraph p) = countOcc X p := by
  unfold wrapParagraph
  split
  · rfl
  · split
    · rfl
    · rw [countOcc_wrap X "<p>".toList p "</p>".toList hX ⟨⟨_, rfl⟩, ⟨"<p".toList, rfl⟩⟩
        ⟨⟨_, rfl⟩, ⟨"</p".toList, rfl⟩⟩, h1, h2]
      omega

theorem sum_countOcc_le_flatten (X : List Char) (l : List (List Char)) :
    (l.map (countOcc X)).sum ≤ countOcc X l.flatten := by
  induction l with
  | nil => simp [countOcc]
  | cons w l ih =>
    have := countOcc_append_le X w l.flatten
    simp only [List.map_cons, List.sum_cons, List.flatten_cons]
    omega

/-- An occurrence of a pattern without line feed that is not only white
space survives the paragraph step. -/
theorem countOcc_le_paragraphs_of_line (X : List Char) (hX : X ≠ []) (hnl : '\n' ∉ X)
    (hns : ∃ c ∈ X, isWhiteSpace c = false) (s : List Char) :
    countOcc X s ≤ countOcc X (paragraphs s) := by
  unfold paragraphs
  rw [countOcc_splitBlank X hX hnl s, ← sum_countOcc_filter X hns]
  refine Nat.le_trans ?_ (sum_countOcc_le_flatten X _)
  generalize (splitBlank s).filter (fun p => !(jsTrim p).isEmpty) = l
  induction l with
  | nil => simp
  | cons p l ih =>
    have := countOcc_wrapParagraph_le X p
    simp only [List.map_cons, List.sum_cons]
    omega

/-- An occurrence of a pattern without marker characters survives the
paragraph step. -/
theorem countOcc_le_paragraphs (X : List Char) (hX : X ≠ [])
    (hXm : ∀ c ∈ X, isMarkerChar c = false) (s : List Char) :
    countOcc X s ≤ countOcc X (paragraphs s) :=
  countOcc_le_paragraphs_of_line X hX (newline_not_mem_of_no_marker X hXm)
    (whiteSpace_free_of_no_marker X hX hXm) s

theorem suffix_snoc_of_ne_nil (l L : List Char) (c : Char) (h : l <:+ L ++ [c]) (hne : l ≠ []) :
    ∃ l2, l = l2 ++ [c] := by
  obtain ⟨a, ha⟩ := h
  obtain ⟨l2, d, rfl⟩ : ∃ l2 d, l = l2 ++ [d] := by
    rcases List.eq_nil_or_concat l with h0 | ⟨l2, d, h2⟩
    · exact absurd h0 hne
    · exact ⟨l2, d, by simpa using h2⟩
  rw [← List.append_assoc] at ha
  have := List.append_inj_right' ha rfl
  simp only [List.cons.injEq, and_true] at this
  exact ⟨l2, by rw [this]⟩

theorem jsTrim_cons_of_not_whiteSpace (c : Char) (t : List Char) (hc : isWhiteSpace c = false) :
    ∃ r, jsTrim (c :: t) = c :: r := by
  unfold jsTrim
  rw [List.dropWhile_cons_of_neg (by simp [hc]), List.reverse_cons]
  have hne : (t.reverse ++ [c]).dropWhile isWhiteSpace ≠ [] := by
    intro h0
    rw [List.dropWhile_eq_nil_iff] at h0
    have := h0 c (by simp)
    rw [hc] at this; cases this
  obtain ⟨l2, hl2⟩ := suffix_snoc_of_ne_nil _ t.reverse c
    (List.dropWhile_suffix isWhiteSpace) hne
  rw [hl2]
  exact ⟨l2.reverse, by simp⟩

/-- A kept candidate, wrapped or not, starts with `<` or with white space. -/
theorem wrapParagraph_head (p : List Char) (hk : (jsTrim p).isEmpty = false) :
    ∃ c t, wrapParagraph p = c :: t ∧ (c = '<' ∨ isWhiteSpace c = true) := by
  cases p with
  | nil => simp [jsTrim] at hk
  | cons c t =>
    by_cases hw : isWhiteSpace c = true
    · unfold wrapParagraph
      split
      · exact ⟨c, t, rfl, Or.inr hw⟩
      · split
        · exact ⟨c, t, rfl, Or.inr hw⟩
        · exact ⟨'<', _, rfl, Or.inl rfl⟩
    · have hw2 : isWhiteSpace c = false := by simpa using hw
      unfold wrapParagraph
      split
      · rename_i h
        refine ⟨c, t, rfl, Or.inl ?_⟩
        simp only [Bool.or_eq_true, List.isPrefixOf_iff_prefix] at h
        rcases h with ((h | h) | h) | h <;>
        · obtain ⟨r, hr⟩ := h
          have := congrArg List.head? hr
          simp at this
          exact this.symm
      · split
        · rename_i h
          refine ⟨c, t, rfl, Or.inl ?_⟩
          obtain ⟨r, hr⟩ := jsTrim_cons_of_not_whiteSpace c t hw2
          rw [hr, List.isPrefixOf_iff_prefix] at h
          obtain ⟨r2, hr2⟩ := h
          have := congrArg List.head? hr2
          simp [liOpen] at this
          exact this.symm
        · exact ⟨'<', _, rfl, Or.inl rfl⟩

theorem countOcc_flatten_of_heads (X : List Char) (l : List (List Char))
    (hl : ∀ w ∈ l, ∃ c t, w = c :: t ∧ c ∉ X.tail) :
    countOcc X l.flatten = (l.map (countOcc X)).sum := by
  induction l with
  | nil => rfl
  | cons w l ih =>
    have ih2 := ih (fun x hx => hl x (List.mem_cons_of_mem _ hx))
    simp only [List.map_cons, List.sum_cons, List.flatten_cons]
    cases l with
    | nil => simp [countOcc]
    | cons w2 l2 =>
      obtain ⟨c, t, hw2, hc⟩ := hl w2 (by simp)
      have e : (w2 :: l2).flatten = c :: (t ++ l2.flatten) := by simp [hw2]
      rw [e] at ih2 ⊢
      rw [countOcc_append_cons X w _ c hc, ih2]

/-- The number of occurrences of a tag other than `<p>` and `</p>` is the
same before and after the paragraph step. -/
theorem countOcc_paragraphs (X : List Char) (hX : TagLike X)
    (hXm : ∀ c ∈ X, isMarkerChar c = false)
    (h1 : countOcc X "<p>".toList = 0) (h2 : countOcc X "</p>".toList = 0) (s : List Char) :
    countOcc X (paragraphs s) = countOcc X s := by
  unfold paragraphs
  rw [countOcc_splitBlank X hX.1 (newline_not_mem_of_no_marker X hXm) s,
    ← sum_countOcc_filter X (whiteSpace_free_of_no_marker X hX.1 hXm),
    countOcc_flatten_of_heads]
  · generalize (splitBlank s).filter (fun p => !(jsTrim p).isEmpty) = l
    induction l with
    | nil => rfl
    | cons p l ih =>
      simp only [List.map_cons, List.sum_cons, ih, countOcc_wrapParagraph X p hX h1 h2]
  · intro w hw
    rw [List.mem_map] at hw
    obtain ⟨p, hp, rfl⟩ := hw
    rw [List.mem_filter] at hp
    obtain ⟨c, t, hct, hc⟩ := wrapParagraph_head p (by simpa using hp.2)
    refine ⟨c, t, hct, ?_⟩
    rcases hc with rfl | hc
    · exact hX.2.1
    · intro hm
      have := hXm c (List.mem_of_mem_tail hm)
      rw [isMarkerChar_of_isWhiteSpace c hc] at this
      cases this

/-! ## Numbered lists -/

theorem countOcc_replaceAll {m : Bool → List Char → Option (List Char × Nat)}
    {pre post : List Char} (hm : MatchShape m) (X : List Char) (hX : TagLike X)
    (hXm : ∀ c ∈ X, isMarkerChar c = false)
    (hpre : TagBounded pre) (hpost : TagBounded post)
    (hpre0 : countOcc X pre = 0) (hpost0 : countOcc X post = 0) (s : List Char) :
    countOcc X (replaceAll m pre post s) = countOcc X s := by
  have := countOcc_replaceAllAux hm X hX hXm hpre hpost hpre0 hpost0 true s []
  simpa using this

theorem countOcc_le_replaceAll {m : Bool → List Char → Option (List Char × Nat)}
    (pre post : List Char) (hm : MatchShape m) (X : List Char) (hX : X ≠ [])
    (hXm : ∀ c ∈ X, isMarkerChar c = false) (s : List Char) :
    countOcc X s ≤ countOcc X (replaceAll m pre post s) := by
  have := countOcc_le_replaceAllAux pre post hm X hX hXm true s []
  simpa using this

theorem anyMatch_numbered_eq (bol : Bool) (s : List Char) :
    anyMatch matchNumbered bol s = atSomeLineStart numberedItem bol s := by
  induction s generalizing bol with
  | nil => rfl
  | cons c s ih =>
    rw [anyMatch_cons, atSomeLineStart, ih]
    congr 1
    rw [Bool.eq_iff_iff, isSome_matchNumbered_iff]
    simp

theorem anyMatch_numbered_replaceAll {m : Bool → List Char → Option (List Char × Nat)}
    (pre post : List Char) (hm : InlineShape m) (hpre : TagText pre) (hpost : TagText post)
    (s : List Char) (h : anyMatch matchNumbered true s = true) :
    anyMatch matchNumbered true (replaceAll m pre post s) = true :=
  anyMatch_numbered_replaceAllAux pre post hm hpre hpost true s h

/-- A numbered item of the text is still one after the rules of lines 27-41. -/
theorem anyMatch_numbered_inlineStage (text : List Char)
    (h : anyMatch matchNumbered true text = true) :
    anyMatch matchNumbered true (inlineStage text) = true := by
  unfold inlineStage
  exact anyMatch_numbered_replaceAll _ _ matchInlineCode_inline ⟨⟨_, rfl⟩, by decide⟩
    ⟨⟨_, rfl⟩, by decide⟩ _
    (anyMatch_numbered_replaceAll _ _ matchFence_inline ⟨⟨_, rfl⟩, by decide⟩
      ⟨⟨_, rfl⟩, by decide⟩ _
      (anyMatch_numbered_replaceAll _ _ matchItalic_inline ⟨⟨_, rfl⟩, by decide⟩
        ⟨⟨_, rfl⟩, by decide⟩ _
        (anyMatch_numbered_replaceAll _ _ matchBold_inline ⟨⟨_, rfl⟩, by decide⟩
          ⟨⟨_, rfl⟩, by decide⟩ _
          (anyMatch_numbered_replaceAll _ _ heading1_inline ⟨⟨_, rfl⟩, by decide⟩
            ⟨⟨_, rfl⟩, by decide⟩ _
            (anyMatch_numbered_replaceAll _ _ heading2_inline ⟨⟨_, rfl⟩, by decide⟩
              ⟨⟨_, rfl⟩, by decide⟩ _
              (anyMatch_numbered_replaceAll _ _ heading3_inline ⟨⟨_, rfl⟩, by decide⟩
                ⟨⟨_, rfl⟩, by decide⟩ _ h))))))

theorem tagBounded_of_ends (a : List Char) : TagBounded ('<' :: (a ++ ['>'])) :=
  ⟨⟨_, rfl⟩, ⟨'<' :: a, rfl⟩⟩

/-- The number of occurrences of a tag that the rules of lines 27-41 do not
insert is the same before and after them. -/
theorem countOcc_inlineStage (X : List Char) (hX : TagLike X)
    (hXm : ∀ c ∈ X, isMarkerChar c = false)
    (h0 : ∀ t ∈ inlineTags,
      countOcc X t = 0) (text : List Char) :
    countOcc X (inlineStage text) = countOcc X text := by
  unfold inlineStage
  simp only []
  rw [countOcc_replaceAll matchInlineCode_shape X hX hXm (show TagBounded "<code>".toList from tagBounded_of_ends "code".toList)
      (show TagBounded "</code>".toList from tagBounded_of_ends "/code".toList) (h0 _ (by simp [inlineTags])) (h0 _ (by simp [inlineTags])),
    countOcc_replaceAll matchFence_shape X hX hXm (show TagBounded "<pre><code>".toList from tagBounded_of_ends "pre><code".toList)
      (show TagBounded "</code></pre>".toList from tagBounded_of_ends "/code></pre".toList) (h0 _ (by simp [inlineTags])) (h0 _ (by simp [inlineTags])),
    countOcc_replaceAll matchItalic_shape X hX hXm (show TagBounded "<em>".toList from tagBounded_of_ends "em".toList)
      (show TagBounded "</em>".toList from tagBounded_of_ends "/em".toList) (h0 _ (by simp [inlineTags])) (h0 _ (by simp [inlineTags])),
    countOcc_replaceAll matchBold_shape X hX hXm (show TagBounded "<strong>".toList from tagBounded_of_ends "strong".toList)
      (show TagBounded "</strong>".toList from tagBounded_of_ends "/strong".toList) (h0 _ (by simp [inlineTags])) (h0 _ (by simp [inlineTags])),
    countOcc_replaceAll heading1_shape X hX hXm (show TagBounded "<h1>".toList from tagBounded_of_ends "h1".toList)
      (show TagBounded "</h1>".toList from tagBounded_of_ends "/h1".toList) (h0 _ (by simp [inlineTags])) (h0 _ (by simp [inlineTags])),
    countOcc_replaceAll heading2_shape X hX hXm (show TagBounded "<h2>".toList from tagBounded_of_ends "h2".toList)
      (show TagBounded "</h2>".toList from tagBounded_of_ends "/h2".toList) (h0 _ (by simp [inlineTags])) (h0 _ (by simp [inlineTags])),
    countOcc_replaceAll heading3_shape X hX hXm (show TagBounded "<h3>".toList from tagBounded_of_ends "h3".toList)
      (show TagBounded "</h3>".toList from tagBounded_of_ends "/h3".toList) (h0 _ (by simp [inlineTags])) (h0 _ (by simp [inlineTags]))]

/-! ### The wrapper on a text with an item -/

theorem splitAtFirst_some_count (pat s P R : List Char)
    (h : splitAtFirst pat s = some (P, R)) : countOcc pat P = 0 := by
  induction s generalizing P with
  | nil => simp [splitAtFirst] at h
  | cons c cs ih =>
    rw [splitAtFirst] at h
    cases hs : stripPrefix pat (c :: cs) with
    | some r =>
      rw [hs] at h
      simp only [Option.some.injEq, Prod.mk.injEq] at h
      rw [← h.1]; rfl
    | none =>
      rw [hs] at h
      cases hx : splitAtFirst pat cs with
      | none => rw [hx] at h; simp at h
      | some x =>
        rw [hx] at h
        simp only [Option.map_some', Option.some.injEq, Prod.mk.injEq] at h
        obtain ⟨rfl, rfl⟩ := h
        have hrec := ih x.1 (by rw [hx])
        have hcs := splitAtFirst_eq_some pat cs x.1 x.2 (by rw [hx])
        rw [countOcc_cons, hrec]
        have hp : pat.isPrefixOf (c :: x.1) = false := by
          rw [← Bool.not_eq_true, List.isPrefixOf_iff_prefix]
          intro hpre
          rw [stripPrefix_eq_none_iff] at hs
          apply hs
          rw [hcs]
          exact hpre.trans (by simp [List.append_assoc])
        simp [hp]

theorem splitAtFirst_length_le (pat s P R a b : List Char)
    (h : splitAtFirst pat s = some (P, R)) (hs : s = a ++ pat ++ b) : P.length ≤ a.length := by
  induction s generalizing P a with
  | nil => simp [splitAtFirst] at h
  | cons c cs ih =>
    rw [splitAtFirst] at h
    cases hsp : stripPrefix pat (c :: cs) with
    | some r =>
      rw [hsp] at h
      simp only [Option.some.injEq, Prod.mk.injEq] at h
      rw [← h.1]; simp
    | none =>
      rw [hsp] at h
      cases hx : splitAtFirst pat cs with
      | none => rw [hx] at h; simp at h
      | some x =>
        rw [hx] at h
        simp only [Option.map_some', Option.some.injEq, Prod.mk.injEq] at h
        obtain ⟨rfl, rfl⟩ := h
        cases a with
        | nil =>
          exfalso
          rw [stripPrefix_eq_none_iff] at hsp
          exact hsp ⟨b, by rw [hs]; simp⟩
        | cons d a =>
          simp only [List.cons_append, List.cons.injEq] at hs
          have := ih x.1 a (by rw [hx]) hs.2
          simp only [List.length_cons]
          omega

theorem splitAtLast_some_count (pat s M Q : List Char) (hpat : pat ≠ [])
    (h : splitAtLast pat s = some (M, Q)) : countOcc pat Q = 0 := by
  induction s generalizing M with
  | nil => simp [splitAtLast] at h
  | cons c cs ih =>
    rw [splitAtLast] at h
    cases hx : splitAtLast pat cs with
    | some x =>
      rw [hx] at h
      simp only [Option.some.injEq, Prod.mk.injEq] at h
      obtain ⟨_, rfl⟩ := h
      exact ih x.1 (by rw [hx])
    | none =>
      rw [hx] at h
      simp only at h
      cases hs : stripPrefix pat (c :: cs) with
      | none => rw [hs] at h; cases h
      | some r =>
        rw [hs] at h
        simp only [Option.some.injEq, Prod.mk.injEq] at h
        obtain ⟨_, rfl⟩ := h
        rw [stripPrefix_eq_some_iff] at hs
        have h0 := (splitAtLast_eq_none_iff pat cs).1 hx
        cases pat with
        | nil => exact absurd rfl hpat
        | cons p pat =>
          simp only [List.cons_append, List.cons.injEq] at hs
          rw [hs.2] at h0
          exact (countOcc_eq_zero_of_append _ _ _ h0).2

theorem liOpen_ne_nil : liOpen ≠ [] := by decide

theorem liClose_ne_nil : liClose ≠ [] := by decide

/-- On a text that has an item the wrapper puts `op` before the first `<li>`
and `cl` after the last `</li>`. -/
theorem wrapList_of_item (op cl s a g b : List Char)
    (hs : s = a ++ liOpen ++ g ++ liClose ++ b) :
    ∃ P M Q, s = P ++ liOpen ++ M ++ liClose ++ Q ∧ countOcc liOpen P = 0
      ∧ countOcc liClose Q = 0
      ∧ wrapList op cl s = P ++ op ++ liOpen ++ M ++ liClose ++ cl ++ Q := by
  have hpos : 0 < countOcc liOpen s :=
    (countOcc_pos_iff liOpen s liOpen_ne_nil).2 ⟨a, g ++ liClose ++ b, by rw [hs]; simp⟩
  cases hf : splitAtFirst liOpen s with
  | none =>
    rw [splitAtFirst_eq_none_iff] at hf
    omega
  | some x =>
    obtain ⟨P, R⟩ := x
    have hPR := splitAtFirst_eq_some liOpen s P R hf
    have hP0 := splitAtFirst_some_count liOpen s P R hf
    have hlen := splitAtFirst_length_le liOpen s P R a (g ++ liClose ++ b) hf
      (by rw [hs]; simp)
    have hsuf : (g ++ liClose ++ b) <:+ R := by
      have k1 : (g ++ liClose ++ b) <:+ s := ⟨a ++ liOpen, by rw [hs]; simp⟩
      have k2 : R <:+ s := ⟨P ++ liOpen, by rw [hPR]⟩
      refine List.suffix_of_suffix_length_le k1 k2 ?_
      have h1 := congrArg List.length hPR
      have h2 := congrArg List.length hs
      simp only [List.length_append] at h1 h2 ⊢
      omega
    obtain ⟨y, hy⟩ := hsuf
    have hRpos : 0 < countOcc liClose R :=
      (countOcc_pos_iff liClose R liClose_ne_nil).2 ⟨y ++ g, b, by rw [← hy]; simp⟩
    cases hl : splitAtLast liClose R with
    | none =>
      rw [splitAtLast_eq_none_iff] at hl
      omega
    | some z =>
      obtain ⟨M, Q⟩ := z
      have hMQ := splitAtLast_eq_some liClose R M Q hl
      have hQ0 := splitAtLast_some_count liClose R M Q liClose_ne_nil hl
      refine ⟨P, M, Q, by rw [hPR, hMQ]; simp, hP0, hQ0, ?_⟩
      unfold wrapList
      rw [hf]
      simp only [hl]

theorem countOcc_sandwich (X P t₁ M t₂ Q : List Char) (hX : TagLike X)
    (h1 : TagBounded t₁) (h2 : TagBounded t₂) :
    countOcc X (P ++ t₁ ++ M ++ t₂ ++ Q) =
      countOcc X P + countOcc X t₁ + countOcc X M + countOcc X t₂ + countOcc X Q := by
  rw [countOcc_append_tag X (P ++ t₁ ++ M) t₂ Q hX h2,
    countOcc_append_tag X P t₁ M hX h1]

/-- A list tag that the text does not hold occurs in the text after line 45
as often as in the two wrappers. -/
theorem countOcc_olStage (X : List Char) (hX : TagLike X)
    (hXm : ∀ c ∈ X, isMarkerChar c = false) (h0 : ∀ t ∈ insertedTags, countOcc X t = 0)
    (text P M Q : List Char) (hX0 : countOcc X text = 0)
    (hN : numberedStage text = P ++ liOpen ++ M ++ liClose ++ Q)
    (hO : olStage text = P ++ "<ol>".toList ++ liOpen ++ M ++ liClose ++ "</ol>".toList ++ Q) :
    countOcc X (olStage text)
      = countOcc X "<ol><li>".toList + countOcc X "</li></ol>".toList := by
  have hli : countOcc X liOpen = 0 := h0 _ (by simp [insertedTags, inlineTags])
  have hlc : countOcc X liClose = 0 := h0 _ (by simp [insertedTags, inlineTags])
  have hN0 : countOcc X (numberedStage text) = 0 := by
    unfold numberedStage
    rw [countOcc_replaceAll matchNumbered_shape X hX hXm
      (show TagBounded liOpen from tagBounded_of_ends "li".toList)
      (show TagBounded liClose from tagBounded_of_ends "/li".toList) hli hlc,
      countOcc_inlineStage X hX hXm
        (fun t ht => h0 t (by simp [insertedTags, ht])), hX0]
  rw [hN, countOcc_sandwich X P liOpen M liClose Q hX
    (show TagBounded liOpen from tagBounded_of_ends "li".toList)
    (show TagBounded liClose from tagBounded_of_ends "/li".toList)] at hN0
  have e : P ++ "<ol>".toList ++ liOpen ++ M ++ liClose ++ "</ol>".toList ++ Q
      = P ++ "<ol><li>".toList ++ M ++ "</li></ol>".toList ++ Q := by
    simp [liOpen, liClose]
  rw [hO, e, countOcc_sandwich X P "<ol><li>".toList M "</li></ol>".toList Q hX
    (show TagBounded "<ol><li>".toList from tagBounded_of_ends "ol><li".toList)
    (show TagBounded "</li></ol>".toList from tagBounded_of_ends "/li></ol".toList)]
  omega

theorem formatBotResponse_of_ol (text : List Char) (hne : text ≠ [])
    (hol : 0 < countOcc "<ol>".toList (olStage text)) :
    formatBotResponse text = paragraphs (bulletStage text) := by
  have hb : 0 < countOcc "<ol>".toList (bulletStage text) := by
    unfold bulletStage
    exact Nat.lt_of_lt_of_le hol
      (countOcc_le_replaceAll liOpen liClose matchBullet_shape _ (by decide) (by decide) _)
  unfold formatBotResponse ulStage
  rw [(includes_eq_true_iff _ _).2 hb]
  cases text with
  | nil => exact absurd rfl hne
  | cons c t => simp

/-- A list tag occurs in the result as often as in the text after line 45,
when that text has an `<ol>`. -/
theorem countOcc_formatBotResponse_of_ol (X : List Char) (hX : TagLike X)
    (hXm : ∀ c ∈ X, isMarkerChar c = false) (h0 : ∀ t ∈ insertedTags, countOcc X t = 0)
    (text : List Char) (hne : text ≠ [])
    (hol : 0 < countOcc "<ol>".toList (olStage text)) :
    countOcc X (formatBotResponse text) = countOcc X (olStage text) := by
  rw [formatBotResponse_of_ol text hne hol,
    countOcc_paragraphs X hX hXm (h0 _ (by simp [insertedTags, inlineTags]))
      (h0 _ (by simp [insertedTags, inlineTags]))]
  unfold bulletStage
  exact countOcc_replaceAll matchBullet_shape X hX hXm
    (show TagBounded liOpen from tagBounded_of_ends "li".toList)
    (show TagBounded liClose from tagBounded_of_ends "/li".toList)
    (h0 _ (by simp [insertedTags, inlineTags])) (h0 _ (by simp [insertedTags, inlineTags])) _

/-- A text without marker characters that the text after line 45 holds is
still in the result. -/
theorem countOcc_le_formatBotResponse_of_ol (X : List Char) (hX : X ≠ [])
    (hXm : ∀ c ∈ X, isMarkerChar c = false) (text : List Char) (hne : text ≠ [])
    (hol : 0 < countOcc "<ol>".toList (olStage text)) :
    countOcc X (olStage text) ≤ countOcc X (formatBotResponse text) := by
  rw [formatBotResponse_of_ol text hne hol]
  refine Nat.le_trans ?_ (countOcc_le_paragraphs X hX hXm _)
  unfold bulletStage
  exact countOcc_le_replaceAll liOpen liClose matchBullet_shape X hX hXm _

/-- Counterexample to C4 as stated: the text `1. a` + line feed + `</ol>`
holds no `<ol>`, `<ul>` or `<li>` and has a numbered line, yet the result
holds `</ol>` twice; and in `1. a` + line feed + `</li>` the `</ol>` does not
follow the `</li>` of the numbered item. -/
theorem C4_counterexample :
    (includes "<ol>".toList "1. a\n</ol>".toList = false
      ∧ includes "<ul>".toList "1. a\n</ol>".toList = false
      ∧ includes liOpen "1. a\n</ol>".toList = false
      ∧ atSomeLineStart numberedItem true "1. a\n</ol>".toList = true
      ∧ formatBotResponse "1. a\n</ol>".toList = "<ol><li>a</li></ol>\n</ol>".toList
      ∧ countOcc "</ol>".toList (formatBotResponse "1. a\n</ol>".toList) = 2)
    ∧ (includes "<ol>".toList "1. a\n</li>".toList = false
      ∧ includes "<ul>".toList "1. a\n</li>".toList = false
      ∧ includes liOpen "1. a\n</li>".toList = false
      ∧ atSomeLineStart numberedItem true "1. a\n</li>".toList = true
      ∧ formatBotResponse "1. a\n</li>".toList = "<ol><li>a</li>\n</li></ol>".toList) := by
  decide

/-- C4 (amended): for every text that holds none of `<ol>`, `</ol>`, `<ul>`,
`<li>`, `</li>` and has a numbered item at a line start, the result holds
exactly one `<ol>` and one `</ol>` and no `<ul>`; line 45 puts the `<ol>`
right before the first `<li>` and the `</ol>` right after the last `</li>` of
the text in which the numbered items, and they alone, are list items; and in
the result the `<ol>` is followed by an `<li>` and the `</ol>` preceded by an
`</li>`. -/
theorem C4_numbered_items_get_one_ol (text : List Char)
    (h1 : includes "<ol>".toList text = false) (h2 : includes "</ol>".toList text = false)
    (h3 : includes "<ul>".toList text = false) (h4 : includes liOpen text = false)
    (h5 : includes liClose text = false)
    (hitem : atSomeLineStart numberedItem true text = true) :
    countOcc "<ol>".toList (formatBotResponse text) = 1
    ∧ countOcc "</ol>".toList (formatBotResponse text) = 1
    ∧ includes "<ul>".toList (formatBotResponse text) = false
    ∧ countOcc liOpen (inlineStage text) = 0 ∧ countOcc liClose (inlineStage text) = 0
    ∧ (∃ P M Q, numberedStage text = P ++ liOpen ++ M ++ liClose ++ Q
        ∧ includes liOpen P = false ∧ includes liClose Q = false
        ∧ olStage text
            = P ++ "<ol>".toList ++ liOpen ++ M ++ liClose ++ "</ol>".toList ++ Q)
    ∧ includes "<ol><li>".toList (formatBotResponse text) = true
    ∧ includes "</li></ol>".toList (formatBotResponse text) = true := by
  rw [includes_eq_false_iff] at h1 h2 h3 h4 h5
  have hne : text ≠ [] := by
    intro h0; rw [h0] at hitem; cases hitem
  have hany : anyMatch matchNumbered true (inlineStage text) = true :=
    anyMatch_numbered_inlineStage text (by rw [anyMatch_numbered_eq]; exact hitem)
  obtain ⟨a, g, b, hab⟩ := replaceAllAux_of_anyMatch liOpen liClose matchNumbered_shape true
    (inlineStage text) hany
  obtain ⟨P, M, Q, hN, hP0, hQ0, hO⟩ := wrapList_of_item "<ol>".toList "</ol>".toList
    (numberedStage text) a g b hab
  have hO2 : olStage text
      = P ++ "<ol>".toList ++ liOpen ++ M ++ liClose ++ "</ol>".toList ++ Q := hO
  have tl1 : TagLike "<ol>".toList := ⟨by decide, by decide, by decide⟩
  have tl2 : TagLike "</ol>".toList := ⟨by decide, by decide, by decide⟩
  have tl3 : TagLike "<ul>".toList := ⟨by decide, by decide, by decide⟩
  have c1 := countOcc_olStage _ tl1 (by decide) (by decide) text P M Q h1 hN hO2
  have c2 := countOcc_olStage _ tl2 (by decide) (by decide) text P M Q h2 hN hO2
  have c3 := countOcc_olStage _ tl3 (by decide) (by decide) text P M Q h3 hN hO2
  have d1 : countOcc "<ol>".toList "<ol><li>".toList + countOcc "<ol>".toList "</li></ol>".toList
      = 1 := by decide
  have d2 : countOcc "</ol>".toList "<ol><li>".toList
      + countOcc "</ol>".toList "</li></ol>".toList = 1 := by decide
  have d3 : countOcc "<ul>".toList "<ol><li>".toList
      + countOcc "<ul>".toList "</li></ol>".toList = 0 := by decide
  rw [d1] at c1
  rw [d2] at c2
  rw [d3] at c3
  have hol : 0 < countOcc "<ol>".toList (olStage text) := by omega
  have s1 : 0 < countOcc "<ol><li>".toList (olStage text) :=
    (countOcc_pos_iff _ _ (by decide)).2
      ⟨P, M ++ liClose ++ "</ol>".toList ++ Q, by rw [hO2]; simp [liOpen]⟩
  have s2 : 0 < countOcc "</li></ol>".toList (olStage text) :=
    (countOcc_pos_iff _ _ (by decide)).2
      ⟨P ++ "<ol>".toList ++ liOpen ++ M, Q, by rw [hO2]; simp [liClose]⟩
  refine ⟨?_, ?_, ?_, ?_, ?_, ⟨P, M, Q, hN, ?_, ?_, hO2⟩, ?_, ?_⟩
  · rw [countOcc_formatBotResponse_of_ol _ tl1 (by decide) (by decide) text hne hol, c1]
  · rw [countOcc_formatBotResponse_of_ol _ tl2 (by decide) (by decide) text hne hol, c2]
  · rw [includes_eq_false_iff,
      countOcc_formatBotResponse_of_ol _ tl3 (by decide) (by decide) text hne hol, c3]
  · rw [countOcc_inlineStage liOpen tagLike_liOpen (by decide) (by decide), h4]
  · rw [countOcc_inlineStage liClose ⟨by decide, by decide, by decide⟩ (by decide) (by decide),
      h5]
  · rw [includes_eq_false_iff]; exact hP0
  · rw [includes_eq_false_iff]; exact hQ0
  · rw [includes_eq_true_iff]
    exact Nat.lt_of_lt_of_le s1
      (countOcc_le_formatBotResponse_of_ol _ (by decide) (by decide) text hne hol)
  · rw [includes_eq_true_iff]
    exact Nat.lt_of_lt_of_le s2
      (countOcc_le_formatBotResponse_of_ol _ (by decide) (by decide) text hne hol)

/-- Witness of C4: two numbered lists around a paragraph, and a bullet line. -/
theorem C4_witness :
    atSomeLineStart numberedItem true "1. a\n\ntext\n\n2. b\n- c".toList = true
    ∧ formatBotResponse "1. a\n\ntext\n\n2. b\n- c".toList
        = "<ol><li>a</li><p>text</p><li>b</li></ol>\n<li>c</li>".toList
    ∧ countOcc "<ol>".toList (formatBotResponse "1. a\n\ntext\n\n2. b\n- c".toList) = 1
    ∧ includes "<ul>".toList (formatBotResponse "1. a\n\ntext\n\n2. b\n- c".toList)
        = false :=
  ⟨by decide, by decide,
    (C4_numbered_items_get_one_ol "1. a\n\ntext\n\n2. b\n- c".toList (by decide) (by decide)
      (by decide) (by decide) (by decide) (by decide)).1,
    (C4_numbered_items_get_one_ol "1. a\n\ntext\n\n2. b\n- c".toList (by decide) (by decide)
      (by decide) (by decide) (by decide) (by decide)).2.2.1⟩

/-! ## Bullet lines -/

theorem atSomeLineStart_cons (p : List Char → Bool) (bol : Bool) (c : Char) (cs : List Char) :
    atSomeLineStart p bol (c :: cs)
      = ((bol && p (c :: cs)) || atSomeLineStart p (isLineTerminator c) cs) := rfl

theorem atSomeLineStart_append_false (p : List Char → Bool) (a b : List Char) :
    ∀ bol, atSomeLineStart p bol (a ++ b) = false →
      atSomeLineStart p (endsLine bol a) b = false := by
  induction a with
  | nil => intro bol h; exact h
  | cons c a ih =>
    intro bol h
    rw [List.cons_append, atSomeLineStart_cons, Bool.or_eq_false_iff] at h
    exact ih _ h.2

theorem isLineTerminator_of_bullet (k : Char) (hk : k = '-' ∨ k = '*') :
    isLineTerminator k = false := by
  rcases hk with rfl | rfl <;> decide

theorem matchBullet_of_item (k w : Char) (item B : List Char) (hk : k = '-' ∨ k = '*')
    (hw : isWhiteSpace w = true) (hne : item ≠ [])
    (hitem : ∀ c ∈ item, isLineTerminator c = false)
    (hB : ∀ c ∈ B.head?, isLineTerminator c = true) :
    matchBullet true (k :: w :: (item ++ B)) = some (item, (k :: w :: item).length) := by
  have htw : (item ++ B).takeWhile (fun c => !isLineTerminator c) = item := by
    rw [List.takeWhile_append_of_pos (fun c hc => by simp [hitem c hc])]
    cases B with
    | nil => simp
    | cons b B =>
      have := hB b (by simp)
      simp [List.takeWhile, this]
  have hkb : (k == '-' || k == '*') = true := by
    rcases hk with rfl | rfl <;> decide
  unfold matchBullet
  simp only [if_true, htw]
  cases item with
  | nil => exact absurd rfl hne
  | cons x item =>
    simp [hw, hk]
    omega

/-- Reading a text whose lines are complete up to a line start: no bullet
match reaches over that line start when no lone marker stands before a line
break. -/
theorem replaceAllAux_bullet_split (pre post : List Char) (Z : List Char) :
    ∀ (A : List Char) (bol : Bool), (A = [] ∨ endsLine false A = true) →
      atSomeLineStart loneBullet bol (A ++ Z) = false →
      ∃ A2, replaceAllAux matchBullet pre post 0 bol (A ++ Z)
        = A2 ++ replaceAllAux matchBullet pre post 0 (endsLine bol A) Z := by
  intro A
  obtain ⟨n, hn⟩ : ∃ n, A.length = n := ⟨_, rfl⟩
  induction n using Nat.strong_induction_on generalizing A with
  | _ n ih =>
    intro bol hE hlone
    cases A with
    | nil => exact ⟨[], rfl⟩
    | cons c A1 =>
      simp only [List.length_cons] at hn
      have hlast : endsLine false (c :: A1) = true := by
        rcases hE with h | h
        · cases h
        · exact h
      cases hm : matchBullet bol (c :: (A1 ++ Z)) with
      | none =>
        have hE1 : A1 = [] ∨ endsLine false A1 = true := by
          by_cases h1 : A1 = []
          · exact Or.inl h1
          · right
            rw [← hlast, endsLine]
            exact endsLine_of_ne_nil A1 h1 _ _
        have hl1 : atSomeLineStart loneBullet (isLineTerminator c) (A1 ++ Z) = false := by
          rw [List.cons_append, atSomeLineStart_cons, Bool.or_eq_false_iff] at hlone
          exact hlone.2
        obtain ⟨A2, hA2⟩ := ih A1.length (by omega) A1 rfl (isLineTerminator c) hE1 hl1
        refine ⟨c :: A2, ?_⟩
        rw [List.cons_append, replaceAllAux_cons_none matchBullet pre post bol c _ hm, hA2]
        rfl
      | some gn =>
        obtain ⟨g, k⟩ := gn
        obtain ⟨b, w, rest, hs, hk, hb, hbk, hw, hgne, hg, hrest⟩ :=
          matchBullet_eq_some bol _ g k hm
        simp only [List.cons.injEq] at hs
        obtain ⟨rfl, hs⟩ := hs
        have hclt := isLineTerminator_of_bullet c hbk
        cases A1 with
        | nil =>
          simp only [endsLine] at hlast
          rw [hclt] at hlast
          cases hlast
        | cons w2 A2 =>
          simp only [List.cons_append, List.cons.injEq] at hs
          obtain ⟨rfl, hs⟩ := hs
          have hwlt : isLineTerminator w2 = false := by
            cases hwl : isLineTerminator w2 with
            | false => rfl
            | true =>
              exfalso
              cases g with
              | nil => exact hgne rfl
              | cons x g =>
                have hx := hg x (List.mem_cons_self _ _)
                have hl : loneBullet (c :: w2 :: (A2 ++ Z)) = true := by
                  rw [hs]
                  rcases hbk with rfl | rfl <;> simp [loneBullet, hwl, hx]
                rw [List.cons_append, List.cons_append, atSomeLineStart_cons, hb, hl] at hlone
                cases hlone
          have hA2ne : A2 ≠ [] := by
            intro h0
            subst h0
            simp only [endsLine] at hlast
            rw [hwlt] at hlast
            cases hlast
          have hlast2 : endsLine false A2 = true := by
            rw [← hlast]
            simp only [endsLine]
            exact endsLine_of_ne_nil A2 hA2ne _ _
          obtain ⟨A3, hA3⟩ : ∃ A3, A2 = g ++ A3 := by
            rcases List.append_eq_append_iff.1 hs with ⟨a2, h1, _⟩ | ⟨c2, h1, _⟩
            · exfalso
              have hglt : endsLine false g = false := endsLine_false_of_no_terminator g hg
              have hA2lt : ∀ x ∈ A2, isLineTerminator x = false := by
                intro x hx
                exact hg x (by rw [h1]; exact List.mem_append_left _ hx)
              rw [endsLine_false_of_no_terminator A2 hA2lt] at hlast2
              cases hlast2
            · exact ⟨c2, h1⟩
          subst hA3
          have hu : c :: w2 :: (g ++ A3) ++ Z = (c :: w2 :: g) ++ (A3 ++ Z) := by simp
          have hm2 : matchBullet bol ((c :: w2 :: g) ++ (A3 ++ Z))
              = some (g, (c :: w2 :: g).length) := by
            rw [← hu, List.cons_append, hm, hk]
            simp; omega
          have hue : endsLine bol (c :: w2 :: g) = false := by
            have := endsLine_false_of_suffix bol [c, w2] g hgne hg
            simpa using this
          have hE3 : A3 = [] ∨ endsLine false A3 = true := by
            by_cases h3 : A3 = []
            · exact Or.inl h3
            · right
              rw [← hlast2, endsLine_append]
              exact endsLine_of_ne_nil A3 h3 _ _
          have hl3 : atSomeLineStart loneBullet false (A3 ++ Z) = false := by
            have := atSomeLineStart_append_false loneBullet (c :: w2 :: g) (A3 ++ Z) bol
              (by rw [← hu]; exact hlone)
            rw [hue] at this
            exact this
          obtain ⟨A4, hA4⟩ := ih A3.length
            (by simp only [List.length_cons, List.length_append] at hn; omega) A3 rfl false
            hE3 hl3
          refine ⟨pre ++ g ++ post ++ A4, ?_⟩
          rw [hu, replaceAllAux_hit matchBullet pre post bol (c :: w2 :: g) (A3 ++ Z) g
            (by simp) hm2, hue, hA4]
          have e : endsLine bol (c :: w2 :: (g ++ A3)) = endsLine false A3 := by
            have : c :: w2 :: (g ++ A3) = (c :: w2 :: g) ++ A3 := by simp
            rw [this, endsLine_append, hue]
          rw [e]
          simp

/-- A complete bullet line of the text is turned into a list item that holds
its item text. -/
theorem replaceAll_bullet_line (A : List Char) (k w : Char) (item B : List Char)
    (hA : endsLine true A = true) (hk : k = '-' ∨ k = '*') (hw : isWhiteSpace w = true)
    (hne : item ≠ []) (hitem : ∀ c ∈ item, isLineTerminator c = false)
    (hB : ∀ c ∈ B.head?, isLineTerminator c = true)
    (hlone : atSomeLineStart loneBullet true (A ++ k :: w :: (item ++ B)) = false) :
    ∃ A2 B2, replaceAll matchBullet liOpen liClose (A ++ k :: w :: (item ++ B))
      = A2 ++ liOpen ++ item ++ liClose ++ B2 := by
  have hE : A = [] ∨ endsLine false A = true := by
    by_cases h0 : A = []
    · exact Or.inl h0
    · right
      rw [← hA]
      exact endsLine_of_ne_nil A h0 _ _
  obtain ⟨A2, hA2⟩ := replaceAllAux_bullet_split liOpen liClose (k :: w :: (item ++ B)) A true
    hE hlone
  have hm := matchBullet_of_item k w item B hk hw hne hitem hB
  have hu : k :: w :: (item ++ B) = (k :: w :: item) ++ B := by simp
  refine ⟨A2, replaceAllAux matchBullet liOpen liClose 0 (endsLine true (k :: w :: item)) B, ?_⟩
  rw [replaceAll, hA2, hA]
  rw [hu] at hm ⊢
  rw [replaceAllAux_hit matchBullet liOpen liClose true (k :: w :: item) B item (by simp) hm]
  simp

/-! ## The heading, fence and inline-code rules -/

theorem inlineShape_of_plainShape {m : Bool → List Char → Option (List Char × Nat)}
    (h : PlainShape m) : InlineShape m := by
  intro bol s g n hm
  obtain ⟨o, cl, rest, hn, hs, hi, _⟩ := h bol s g n hm
  exact ⟨o, cl, rest, hn, hs, hi⟩

theorem matchHeading_plain (marker : List Char)
    (hmk : ∀ c ∈ marker, isMarkerChar c = true)
    (hplain : ∀ c ∈ marker, isLineTerminator c = false ∧ isDigit c = false)
    (hhead : ∃ t, marker = '#' :: t) (hstar : '*' ∉ marker) :
    PlainShape (matchHeading marker) := by
  obtain ⟨t, ht⟩ := hhead
  have hin := matchHeading_inline marker hmk hplain ⟨'#', t, ht, by decide⟩
  intro bol s g n h
  have hb : bol = true := by
    cases bol with
    | false => rw [matchHeading_false] at h; cases h
    | true => rfl
  subst hb
  have hne : marker ≠ [] := by rw [ht]; simp
  have hlt : ∀ c ∈ marker, isLineTerminator c = false := fun c hc => (hplain c hc).1
  unfold matchHeading at h
  simp only [if_true] at h
  cases hs : stripPrefix marker s with
  | none => rw [hs] at h; cases h
  | some r =>
    rw [hs] at h
    simp only [Option.some.injEq, Prod.mk.injEq] at h
    obtain ⟨hg, hn⟩ := h
    rw [stripPrefix_eq_some_iff] at hs
    refine ⟨marker, [], r.dropWhile (fun c => !isLineTerminator c), ?_, ?_, ?_, ?_⟩
    · simp [← hn, ← hg]
    · refine ⟨?_, hne, hmk, by simp, fun _ => head_dropWhile_not_terminator r, ?_⟩
      · rw [hs, ← hg]; simp
      · intro b
        by_cases hgn : g = []
        · simp only [hgn, List.append_nil]
          simpa using endsLine_false_of_suffix b [] marker hne hlt
        · rw [List.append_nil]
          exact endsLine_false_of_suffix b marker g hgn
            (by rw [← hg]; exact takeWhile_not_terminator r)
    · exact ⟨hplain, ⟨'#', t, ht, by decide⟩, by simp,
        Or.inl (by rw [← hg]; exact takeWhile_not_terminator r)⟩
    · exact ⟨⟨'#', t, ht, Or.inr ⟨rfl, rfl⟩⟩, hstar, by simp⟩

theorem heading3_plain : PlainShape (matchHeading "### ".toList) :=
  matchHeading_plain _ (by decide) (by decide) ⟨"## ".toList, rfl⟩ (by decide)

theorem heading2_plain : PlainShape (matchHeading "## ".toList) :=
  matchHeading_plain _ (by decide) (by decide) ⟨"# ".toList, rfl⟩ (by decide)

theorem heading1_plain : PlainShape (matchHeading "# ".toList) :=
  matchHeading_plain _ (by decide) (by decide) ⟨" ".toList, rfl⟩ (by decide)

theorem matchFence_plain : PlainShape matchFence := by
  intro bol s g n h
  have hone : [tick, tick, tick] ≠ [] := by simp
  simp only [matchFence, matchSpan] at h
  cases hs : stripPrefix [tick, tick, tick] s with
  | none => rw [hs] at h; cases h
  | some r =>
    rw [hs] at h
    simp only at h
    cases hl : lazyUntil (fun _ => true) [tick, tick, tick] r with
    | none => rw [hl] at h; cases h
    | some g2 =>
      rw [hl] at h
      simp only [Option.some.injEq, Prod.mk.injEq] at h
      obtain ⟨hg, hn⟩ := h
      subst hg
      rw [stripPrefix_eq_some_iff] at hs
      obtain ⟨rest, hr, _⟩ := lazyUntil_eq_some _ [tick, tick, tick] r g2 hl
      refine ⟨[tick, tick, tick], [tick, tick, tick], rest, ?_, ?_, ?_, ?_⟩
      · simp [← hn]; omega
      · refine ⟨?_, hone, by simp [isMarkerChar_tick], by simp [isMarkerChar_tick],
          fun h => absurd h hone, ?_⟩
        · rw [hs, hr]; simp
        · intro b
          exact endsLine_false_of_suffix b ([tick, tick, tick] ++ g2) [tick, tick, tick] hone
            (by simp [isLineTerminator_tick])
      · exact ⟨by decide, ⟨tick, [tick, tick], rfl, by decide⟩, by simp [isInlineMarker_tick],
          Or.inr hone⟩
      · exact ⟨⟨tick, [tick, tick], rfl, Or.inl rfl⟩, by decide, by simp⟩

theorem matchInlineCode_plain : PlainShape matchInlineCode := by
  intro bol s g n h
  obtain ⟨rest, hs, hn, _, _⟩ := matchInlineCode_eq_some bol s g n h
  refine ⟨[tick], [tick], rest, by simp [hn], ?_, ?_, ?_⟩
  · refine ⟨by simp [hs], by simp, by simp [isMarkerChar_tick], by simp [isMarkerChar_tick],
      fun h => by simp at h, ?_⟩
    intro b
    exact endsLine_false_of_suffix b ([tick] ++ g) [tick] (by simp)
      (by simp [isLineTerminator_tick])
  · exact ⟨by decide, ⟨tick, [], rfl, by decide⟩, by simp [isInlineMarker_tick],
      Or.inr (by simp)⟩
  · exact ⟨⟨tick, [], rfl, Or.inl rfl⟩, by decide, by simp⟩

theorem replaceAll_plain_induction {m : Bool → List Char → Option (List Char × Nat)}
    (hm : PlainShape m) (P : Bool → List Char → Prop)
    (hnil : ∀ bol, P bol [])
    (hskip : ∀ bol c cs, m bol (c :: cs) = none → P (isLineTerminator c) cs → P bol (c :: cs))
    (hhit : ∀ bol s g o cl rest, m bol s = some (g, (o ++ g ++ cl).length) →
      HitShape s g o cl rest → InlineHit g o cl → PlainHit bol o cl → P false rest → P bol s) :
    ∀ bol s, P bol s := by
  intro bol s
  obtain ⟨n, hn⟩ : ∃ n, s.length = n := ⟨_, rfl⟩
  induction n using Nat.strong_induction_on generalizing bol s with
  | _ n ih =>
    cases s with
    | nil => exact hnil bol
    | cons c cs =>
      cases hmc : m bol (c :: cs) with
      | none => exact hskip bol c cs hmc (ih cs.length (by simp [← hn]) _ cs rfl)
      | some gn =>
        obtain ⟨g, k⟩ := gn
        obtain ⟨o, cl, rest, hk, hs, hi, hp⟩ := hm bol (c :: cs) g k hmc
        subst hk
        have hlen : rest.length < n := by
          have h1 := congrArg List.length hs.split
          have h2 : 0 < o.length := List.length_pos.2 hs.opener_ne
          simp only [List.length_append, List.length_cons] at h1 hn
          omega
        exact hhit bol (c :: cs) g o cl rest hmc hs hi hp
          (ih rest.length hlen _ rest rfl)

/-- A rule of this kind matches only at a backtick, or at a `#` that starts a
line. -/
theorem plain_head_of_isSome {m : Bool → List Char → Option (List Char × Nat)}
    (hm : PlainShape m) (b : Bool) (c : Char) (t : List Char)
    (h : (m b (c :: t)).isSome = true) : c = tick ∨ (c = '#' ∧ b = true) := by
  cases hmc : m b (c :: t) with
  | none => rw [hmc] at h; cases h
  | some gn =>
    obtain ⟨g, n⟩ := gn
    obtain ⟨o, cl, rest, _, hs, _, hp⟩ := hm b (c :: t) g n hmc
    obtain ⟨k, o2, ho, hk⟩ := hp.opener_head
    have := hs.split
    rw [ho] at this
    simp only [List.cons_append, List.cons.injEq] at this
    rw [this.1]
    exact hk

theorem plain_none_of_head {m : Bool → List Char → Option (List Char × Nat)}
    (hm : PlainShape m) (b : Bool) (c : Char) (t : List Char)
    (hc : ¬ (c = tick ∨ c = '#')) : m b (c :: t) = none := by
  cases hmc : m b (c :: t) with
  | none => rfl
  | some gn =>
    exfalso
    rcases plain_head_of_isSome hm b c t (by rw [hmc]; rfl) with h | h
    · exact hc (Or.inl h)
    · exact hc (Or.inr h.1)

theorem plain_none_inside {m : Bool → List Char → Option (List Char × Nat)}
    (hm : PlainShape m) (c : Char) (t : List Char) (hc : c ≠ tick) : m false (c :: t) = none := by
  cases hmc : m false (c :: t) with
  | none => rfl
  | some gn =>
    exfalso
    rcases plain_head_of_isSome hm false c t (by rw [hmc]; rfl) with h | h
    · exact hc h
    · cases h.2

/-- The result of a replacement that starts with a match starts with `<`. -/
theorem replaceAllAux_of_isSome {m : Bool → List Char → Option (List Char × Nat)}
    (pre post : List Char) (hpre : TagText pre) (b : Bool) (c : Char) (cs : List Char)
    (h : (m b (c :: cs)).isSome = true) :
    ∃ t, replaceAllAux m pre post 0 b (c :: cs) = '<' :: t := by
  cases hmc : m b (c :: cs) with
  | none => rw [hmc] at h; cases h
  | some gn =>
    obtain ⟨⟨p, hp⟩, _⟩ := hpre
    rw [replaceAllAux, hmc, hp]
    simp only [List.cons_append, List.append_assoc]
    exact ⟨_, rfl⟩

/-! ## Tests at a line start -/

theorem isSome_lineRule (p : List Char → Bool) (b : Bool) (v : List Char) :
    (lineRule p b v).isSome = (b && p v) := by
  unfold lineRule
  cases b && p v <;> rfl

theorem lineRule_false (p : List Char → Bool) (v : List Char) : lineRule p false v = none := rfl

theorem anyMatch_lineRule (p : List Char → Bool) (bol : Bool) (s : List Char) :
    anyMatch (lineRule p) bol s = atSomeLineStart p bol s := by
  induction s generalizing bol with
  | nil => rfl
  | cons c s ih => rw [anyMatch_cons, atSomeLineStart_cons, ih, isSome_lineRule]

theorem anyMatchIn_lineRule_headed (p : List Char → Bool) (c : Char) (a Z : List Char)
    (bol : Bool) (hc : ∀ t, p (c :: t) = false)
    (hlt : ∀ x ∈ c :: a, isLineTerminator x = false) :
    anyMatchIn (lineRule p) bol (c :: a) Z = false := by
  rw [anyMatchIn_cons, isSome_lineRule, hc, Bool.and_false, Bool.false_or,
    hlt c (List.mem_cons_self _ _)]
  exact anyMatchIn_false_of_no_terminator (lineRule p) (lineRule_false p) a Z
    (fun x hx => hlt x (List.mem_cons_of_mem _ hx))

theorem anyMatchIn_lineRule_tagText (p : List Char → Bool) (hp : ∀ t, p ('<' :: t) = false)
    (t Z : List Char) (ht : TagText t) (bol : Bool) :
    anyMatchIn (lineRule p) bol t Z = false := by
  obtain ⟨⟨r, hr⟩, hlt⟩ := ht
  subst hr
  exact anyMatchIn_lineRule_headed p '<' r Z bol hp hlt

theorem anyMatchIn_lineRule_swap (p : List Char → Bool) (a y : Char) (Z Y : List Char)
    (hswap : ∀ G, G ≠ [] → p (G ++ a :: Z) = true → p (G ++ y :: Y) = true) :
    ∀ g b, anyMatchIn (lineRule p) b g (a :: Z) = true →
      anyMatchIn (lineRule p) b g (y :: Y) = true := by
  intro g
  induction g with
  | nil => intro b hb; simp [anyMatchIn] at hb
  | cons c g ih =>
    intro b hb
    rw [anyMatchIn_cons, isSome_lineRule, Bool.or_eq_true, Bool.and_eq_true] at hb ⊢
    rcases hb with hb | hb
    · left
      refine ⟨hb.1, ?_⟩
      have := hswap (c :: g) (by simp) (by simpa using hb.2)
      simpa using this
    · right
      exact ih _ hb

theorem hit_ends_closer {s g o cl rest : List Char} (hs : HitShape s g o cl rest)
    (hi : InlineHit g o cl) (bol : Bool) :
    endsLine bol o = false ∧ endsLine (endsLine false g) cl = false := by
  have holt : ∀ c ∈ o, isLineTerminator c = false := fun c hc => (hi.opener_plain c hc).1
  have hoe : endsLine bol o = false := by
    have := endsLine_false_of_suffix bol [] o hs.opener_ne holt
    simpa using this
  refine ⟨hoe, ?_⟩
  have := hs.ends bol
  rw [List.append_assoc, endsLine_append, hoe, endsLine_append] at this
  exact this

/-- The line starts of a text that starts with a match of a heading, fence or
inline-code rule are those inside the group and those of the unread rest. -/
theorem anyMatch_lineRule_hit_input (p : List Char → Bool)
    (hp0 : ∀ c t, (c = '<' ∨ c = tick ∨ c = '#') → p (c :: t) = false)
    {s g o cl rest : List Char} {bol : Bool} (hs : HitShape s g o cl rest)
    (hi : InlineHit g o cl) (hp : PlainHit bol o cl) :
    anyMatch (lineRule p) bol s
      = (anyMatchIn (lineRule p) false g (cl ++ rest) || anyMatch (lineRule p) false rest) := by
  obtain ⟨hoe, hends⟩ := hit_ends_closer hs hi bol
  have hin : s = o ++ (g ++ (cl ++ rest)) := by rw [hs.split]; simp
  have ho : ∀ Z, anyMatchIn (lineRule p) bol o Z = false := by
    intro Z
    obtain ⟨h, t, ho, hh⟩ := hp.opener_head
    rw [ho]
    refine anyMatchIn_lineRule_headed p h t Z bol (fun t2 => hp0 h t2 ?_) ?_
    · rcases hh with hh | hh
      · exact Or.inr (Or.inl hh)
      · exact Or.inr (Or.inr hh.1)
    · intro x hx
      rw [← ho] at hx
      exact (hi.opener_plain x hx).1
  have hc : ∀ b Z, anyMatchIn (lineRule p) b cl Z = false := by
    intro b Z
    cases hcl : cl with
    | nil => rfl
    | cons c cl2 =>
      have hct : c = tick := hp.closer_tick c (by rw [hcl]; exact List.mem_cons_self _ _)
      subst hct
      refine anyMatchIn_lineRule_headed p tick cl2 Z b
        (fun t2 => hp0 tick t2 (Or.inr (Or.inl rfl))) ?_
      intro x hx
      rw [← hcl] at hx
      rw [hp.closer_tick x hx]
      exact isLineTerminator_tick
  rw [hin, anyMatch_append, anyMatch_append, anyMatch_append, ho, hoe, hc, hends]
  simp

theorem anyMatch_lineRule_hit_output (p : List Char → Bool)
    (hp0 : ∀ c t, (c = '<' ∨ c = tick ∨ c = '#') → p (c :: t) = false)
    {m : Bool → List Char → Option (List Char × Nat)} (pre post : List Char)
    (hpre : TagText pre) (hpost : TagText post)
    {s g o cl rest : List Char} {bol : Bool} (hmc : m bol s = some (g, (o ++ g ++ cl).length))
    (hs : HitShape s g o cl rest) :
    replaceAllAux m pre post 0 bol s
        = pre ++ (g ++ (post ++ replaceAllAux m pre post 0 false rest))
    ∧ anyMatch (lineRule p) bol (replaceAllAux m pre post 0 bol s)
      = (anyMatchIn (lineRule p) false g (post ++ replaceAllAux m pre post 0 false rest)
        || anyMatch (lineRule p) false (replaceAllAux m pre post 0 false rest)) := by
  have hne : o ++ g ++ cl ≠ [] := by
    have := hs.opener_ne
    simp [this]
  have hsplit : s = (o ++ g ++ cl) ++ rest := hs.split
  have hres : replaceAllAux m pre post 0 bol s
      = pre ++ (g ++ (post ++ replaceAllAux m pre post 0 false rest)) := by
    rw [hsplit] at hmc ⊢
    rw [replaceAllAux_hit m pre post bol (o ++ g ++ cl) rest g hne hmc, hs.ends bol]
    simp
  refine ⟨hres, ?_⟩
  have hlt : ∀ t2, p ('<' :: t2) = false := fun t2 => hp0 '<' t2 (Or.inl rfl)
  have hpe : endsLine bol pre = false := by
    have := endsLine_tagText pre hpre bol []
    simpa using this
  have hpost_e : endsLine (endsLine false g) post = false := by
    have := endsLine_tagText post hpost false g
    rw [endsLine_append] at this
    exact this
  rw [hres, anyMatch_append, anyMatch_append, anyMatch_append, hpe,
    anyMatchIn_lineRule_tagText p hlt pre _ hpre, anyMatchIn_lineRule_tagText p hlt post _ hpost,
    hpost_e]
  simp

theorem anyMatchIn_lineRule_group_forward (p : List Char → Bool) {g o cl : List Char}
    {bol : Bool} (hi : InlineHit g o cl) (hp : PlainHit bol o cl) (post rest R : List Char)
    (hpost : TagText post)
    (hswap : ∀ G Z Y, G ≠ [] → p (G ++ tick :: Z) = true → p (G ++ '<' :: Y) = true)
    (h : anyMatchIn (lineRule p) false g (cl ++ rest) = true) :
    anyMatchIn (lineRule p) false g (post ++ R) = true := by
  rcases hi.group_line with hg | hcl
  · rw [anyMatchIn_false_of_no_terminator (lineRule p) (lineRule_false p) g _ hg] at h
    cases h
  · obtain ⟨⟨q, hq⟩, _⟩ := hpost
    cases hcl2 : cl with
    | nil => exact absurd hcl2 hcl
    | cons k cl2 =>
      have hk : k = tick := hp.closer_tick k (by rw [hcl2]; exact List.mem_cons_self _ _)
      subst hk
      rw [hcl2] at h
      rw [hq]
      exact anyMatchIn_lineRule_swap p tick '<' _ _ (fun G hG => hswap G _ _ hG) g false h

theorem anyMatchIn_lineRule_group_backward (p : List Char → Bool) {g o cl : List Char}
    {bol : Bool} (hi : InlineHit g o cl) (hp : PlainHit bol o cl) (post rest R : List Char)
    (hpost : TagText post)
    (hswap : ∀ G Z Y, G ≠ [] → p (G ++ '<' :: Y) = true → p (G ++ tick :: Z) = true)
    (h : anyMatchIn (lineRule p) false g (post ++ R) = true) :
    anyMatchIn (lineRule p) false g (cl ++ rest) = true := by
  rcases hi.group_line with hg | hcl
  · rw [anyMatchIn_false_of_no_terminator (lineRule p) (lineRule_false p) g _ hg] at h
    cases h
  · obtain ⟨⟨q, hq⟩, _⟩ := hpost
    cases hcl2 : cl with
    | nil => exact absurd hcl2 hcl
    | cons k cl2 =>
      have hk : k = tick := hp.closer_tick k (by rw [hcl2]; exact List.mem_cons_self _ _)
      subst hk
      rw [hq] at h
      exact anyMatchIn_lineRule_swap p '<' tick _ _ (fun G hG => hswap G _ _ hG) g false h

/-- A test that holds at a line start of a text holds at a line start of the
text after a heading, fence or inline-code rule, when it survives the
replacement at its own position and the exchange of a backtick for a tag. -/
theorem atSomeLineStart_replaceAllAux_forward
    {m : Bool → List Char → Option (List Char × Nat)} (pre post : List Char)
    (hm : PlainShape m) (hpre : TagText pre) (hpost : TagText post) (p : List Char → Bool)
    (hp0 : ∀ c t, (c = '<' ∨ c = tick ∨ c = '#') → p (c :: t) = false)
    (hhead : ∀ b s, p s = true → p (replaceAllAux m pre post 0 b s) = true)
    (hswap : ∀ G Z Y, G ≠ [] → p (G ++ tick :: Z) = true → p (G ++ '<' :: Y) = true) :
    ∀ bol s, atSomeLineStart p bol s = true →
      atSomeLineStart p bol (replaceAllAux m pre post 0 bol s) = true := by
  intro bol s
  rw [← anyMatch_lineRule, ← anyMatch_lineRule]
  revert bol s
  refine replaceAll_plain_induction hm
    (fun bol s => anyMatch (lineRule p) bol s = true →
      anyMatch (lineRule p) bol (replaceAllAux m pre post 0 bol s) = true) ?_ ?_ ?_
  · intro bol h
    simp [anyMatch] at h
  · intro bol c cs hmc ih h
    have hh := hhead bol (c :: cs)
    rw [replaceAllAux_cons_none m pre post bol c cs hmc] at hh ⊢
    rw [anyMatch_cons, isSome_lineRule, Bool.or_eq_true, Bool.and_eq_true] at h ⊢
    rcases h with h | h
    · exact Or.inl ⟨h.1, hh h.2⟩
    · exact Or.inr (ih h)
  · intro bol s g o cl rest hmc hs hi hp ih h
    rw [anyMatch_lineRule_hit_input p hp0 hs hi hp, Bool.or_eq_true] at h
    rw [(anyMatch_lineRule_hit_output p hp0 pre post hpre hpost hmc hs).2, Bool.or_eq_true]
    rcases h with h | h
    · exact Or.inl (anyMatchIn_lineRule_group_forward p hi hp post rest _ hpost hswap h)
    · exact Or.inr (ih h)

/-- A test that holds at a line start of the text after a heading, fence or
inline-code rule held at a line start of the text before. -/
theorem atSomeLineStart_replaceAllAux_backward
    {m : Bool → List Char → Option (List Char × Nat)} (pre post : List Char)
    (hm : PlainShape m) (hpre : TagText pre) (hpost : TagText post) (p : List Char → Bool)
    (hp0 : ∀ c t, (c = '<' ∨ c = tick ∨ c = '#') → p (c :: t) = false)
    (hhead : ∀ b s, p (replaceAllAux m pre post 0 b s) = true → p s = true)
    (hswap : ∀ G Z Y, G ≠ [] → p (G ++ '<' :: Y) = true → p (G ++ tick :: Z) = true) :
    ∀ bol s, atSomeLineStart p bol (replaceAllAux m pre post 0 bol s) = true →
      atSomeLineStart p bol s = true := by
  intro bol s
  rw [← anyMatch_lineRule, ← anyMatch_lineRule]
  revert bol s
  refine replaceAll_plain_induction hm
    (fun bol s => anyMatch (lineRule p) bol (replaceAllAux m pre post 0 bol s) = true →
      anyMatch (lineRule p) bol s = true) ?_ ?_ ?_
  · intro bol h
    simp [replaceAllAux, anyMatch] at h
  · intro bol c cs hmc ih h
    have hh := hhead bol (c :: cs)
    rw [replaceAllAux_cons_none m pre post bol c cs hmc] at hh h
    rw [anyMatch_cons, isSome_lineRule, Bool.or_eq_true, Bool.and_eq_true] at h ⊢
    rcases h with h | h
    · exact Or.inl ⟨h.1, hh h.2⟩
    · exact Or.inr (ih h)
  · intro bol s g o cl rest hmc hs hi hp ih h
    rw [(anyMatch_lineRule_hit_output p hp0 pre post hpre hpost hmc hs).2, Bool.or_eq_true] at h
    rw [anyMatch_lineRule_hit_input p hp0 hs hi hp, Bool.or_eq_true]
    rcases h with h | h
    · exact Or.inl (anyMatchIn_lineRule_group_backward p hi hp post rest _ hpost hswap h)
    · exact Or.inr (ih h)

/-! ## Item markers at a line start survive the heading, fence and
inline-code rules, and none is created -/

theorem isItemChar_plain (c : Char) (h : isItemChar c = true) :
    c ≠ tick ∧ c ≠ '#' ∧ c ≠ '<' := by
  refine ⟨?_, ?_, ?_⟩ <;> · intro hc; subst hc; revert h; decide

theorem isItemChar_of_isWhiteSpace (c : Char) (h : isWhiteSpace c = true) :
    isItemChar c = true := by
  simp [isItemChar, h]

theorem isItemChar_of_isDigit (c : Char) (h : isDigit c = true) : isItemChar c = true := by
  simp [isItemChar, h]

theorem isWhiteSpace_of_isLineTerminator (c : Char) (h : isLineTerminator c = true) :
    isWhiteSpace c = true := by
  simp [isWhiteSpace, h]

theorem localPattern_head {p : List Char → Bool} (hp : LocalPattern p) (c : Char)
    (t : List Char) (hc : c = '<' ∨ c = tick ∨ c = '#') : p (c :: t) = false := by
  cases h : p (c :: t) with
  | false => rfl
  | true =>
    exfalso
    obtain ⟨u, x, r, hv, hne, hu, _, _⟩ := hp _ h
    cases u with
    | nil => exact hne rfl
    | cons a u =>
      simp only [List.cons_append, List.cons.injEq] at hv
      obtain ⟨h1, h2, h3⟩ := isItemChar_plain a (hu a (List.mem_cons_self _ _))
      rw [← hv.1] at h1 h2 h3
      rcases hc with hc | hc | hc
      · exact h3 hc
      · exact h1 hc
      · exact h2 hc

theorem localPattern_swap {p : List Char → Bool} (hp : LocalPattern p) (G : List Char)
    (a y : Char) (Z Y : List Char) (hG : G ≠ []) (ha : isItemChar a = false)
    (hy : isLineTerminator y = false) (h : p (G ++ a :: Z) = true) :
    p (G ++ y :: Y) = true := by
  obtain ⟨u, x, r, hv, hne, hu, hx, hcl⟩ := hp _ h
  have hpre : u <+: G ++ a :: Z := ⟨x :: r, hv.symm⟩
  have hnt : a ∉ u.tail := by
    intro hmem
    rw [hu a (List.mem_of_mem_tail hmem)] at ha
    cases ha
  obtain ⟨L2, hL2⟩ := prefix_of_prefix_append_cons hG hnt hpre
  subst hL2
  cases L2 with
  | nil =>
    rw [List.append_nil]
    exact hcl y Y hy
  | cons b L2 =>
    have hb : b = x := by
      rw [List.append_assoc] at hv
      have := List.append_cancel_left hv
      simp only [List.cons_append, List.cons.injEq] at this
      exact this.1
    subst hb
    have e : u ++ b :: L2 ++ y :: Y = u ++ b :: (L2 ++ y :: Y) := by simp
    rw [e]
    exact hcl b _ hx

/-- The marker of an item is not touched by a heading, fence or inline-code
rule, and what follows it still does not end the line. -/
theorem replaceAllAux_marker {m : Bool → List Char → Option (List Char × Nat)}
    (pre post : List Char) (hm : PlainShape m) (hpre : TagText pre) (b : Bool)
    (u : List Char) (x : Char) (r : List Char) (hu : ∀ c ∈ u, isItemChar c = true)
    (hx : isLineTerminator x = false) :
    ∃ y t, replaceAllAux m pre post 0 b (u ++ x :: r) = u ++ y :: t
      ∧ isLineTerminator y = false := by
  have hno : anyMatchIn m b u (x :: r) = false := by
    apply anyMatchIn_eq_false_of_head m (fun c => c = tick ∨ c = '#')
      (fun b c t hc => plain_none_of_head hm b c t hc)
    intro c hc hmark
    obtain ⟨h1, h2, _⟩ := isItemChar_plain c (hu c hc)
    rcases hmark with h | h
    · exact h1 h
    · exact h2 h
  rw [replaceAllAux_append_of_not_anyMatchIn m pre post b _ _ hno]
  obtain ⟨y, t, hy, hylt⟩ := replaceAllAux_head (m := m) pre post hpre (endsLine b u) x r hx
  exact ⟨y, t, by rw [hy], hylt⟩

/-- A marker of an item in the result of a heading, fence or inline-code rule
was in the text, followed there too by a character that does not end the
line. -/
theorem replaceAllAux_marker_inv {m : Bool → List Char → Option (List Char × Nat)}
    (pre post : List Char) (hm : PlainShape m) (hpre : TagText pre)
    (u : List Char) (x : Char) (r : List Char) (hu : ∀ c ∈ u, isItemChar c = true)
    (hx : isLineTerminator x = false) :
    ∀ b s, replaceAllAux m pre post 0 b s = u ++ x :: r →
      ∃ y t, s = u ++ y :: t ∧ isLineTerminator y = false := by
  induction u with
  | nil =>
    intro b s h
    cases s with
    | nil => simp [replaceAllAux] at h
    | cons c cs =>
      cases hmc : m b (c :: cs) with
      | none =>
        rw [replaceAllAux_cons_none m pre post b c cs hmc] at h
        simp only [List.nil_append, List.cons.injEq] at h
        exact ⟨c, cs, rfl, by rw [h.1]; exact hx⟩
      | some gn =>
        refine ⟨c, cs, rfl, ?_⟩
        rcases plain_head_of_isSome hm b c cs (by rw [hmc]; rfl) with hc | hc
        · rw [hc]; exact isLineTerminator_tick
        · rw [hc.1]; decide
  | cons a u ih =>
    intro b s h
    have ha := isItemChar_plain a (hu a (List.mem_cons_self _ _))
    cases s with
    | nil => simp [replaceAllAux] at h
    | cons c cs =>
      cases hmc : m b (c :: cs) with
      | none =>
        rw [replaceAllAux_cons_none m pre post b c cs hmc] at h
        simp only [List.cons_append, List.cons.injEq] at h
        obtain ⟨y, t, hs, hy⟩ := ih (fun c hc => hu c (List.mem_cons_of_mem _ hc)) _ cs h.2
        exact ⟨y, t, by rw [h.1, hs]; rfl, hy⟩
      | some gn =>
        exfalso
        obtain ⟨t, ht⟩ := replaceAllAux_of_isSome (m := m) pre post hpre b c cs
          (by rw [hmc]; rfl)
        rw [ht] at h
        simp only [List.cons_append, List.cons.injEq] at h
        exact ha.2.2 h.1.symm

/-- A heading, fence or inline-code rule keeps the line starts at which an
item-marker test holds and creates none. -/
theorem atSomeLineStart_replaceAllAux {m : Bool → List Char → Option (List Char × Nat)}
    (pre post : List Char) (hm : PlainShape m) (hpre : TagText pre) (hpost : TagText post)
    {p : List Char → Bool} (hp : LocalPattern p) (bol : Bool) (s : List Char) :
    atSomeLineStart p bol (replaceAllAux m pre post 0 bol s) = atSomeLineStart p bol s := by
  have htick : isItemChar tick = false := by decide
  have hlt : isItemChar '<' = false := by decide
  rw [Bool.eq_iff_iff]
  constructor
  · refine atSomeLineStart_replaceAllAux_backward pre post hm hpre hpost p
      (localPattern_head hp) ?_ ?_ bol s
    · intro b s h
      obtain ⟨u, x, r, hv, _, hu, hx, hcl⟩ := hp _ h
      obtain ⟨y, t, hs, hy⟩ := replaceAllAux_marker_inv pre post hm hpre u x r hu hx b s hv
      rw [hs]
      exact hcl y t hy
    · intro G Z Y hG h
      exact localPattern_swap hp G '<' tick Y Z hG hlt isLineTerminator_tick h
  · refine atSomeLineStart_replaceAllAux_forward pre post hm hpre hpost p
      (localPattern_head hp) ?_ ?_ bol s
    · intro b s h
      obtain ⟨u, x, r, hv, _, hu, hx, hcl⟩ := hp _ h
      obtain ⟨y, t, hs, hy⟩ := replaceAllAux_marker pre post hm hpre b u x r hu hx
      rw [hv, hs]
      exact hcl y t hy
    · intro G Z Y hG h
      exact localPattern_swap hp G tick '<' Z Y hG htick (by decide) h

theorem localPattern_numberedItem : LocalPattern numberedItem := by
  intro v h
  obtain ⟨ds, w, x, r, hv, hne, hds, hw, hx⟩ := (numberedItem_iff v).1 h
  refine ⟨ds ++ ['.', w], x, r, by rw [hv]; simp, by simp, ?_, hx, ?_⟩
  · intro c hc
    simp only [List.mem_append, List.mem_cons, List.mem_singleton, List.not_mem_nil,
      or_false] at hc
    rcases hc with hc | rfl | rfl
    · exact isItemChar_of_isDigit c (hds c hc)
    · decide
    · exact isItemChar_of_isWhiteSpace _ hw
  · intro y Y hy
    have e : ds ++ ['.', w] ++ y :: Y = ds ++ '.' :: w :: y :: Y := by simp
    rw [e]
    exact numberedItem_append ds w y Y hne hds hw hy

theorem localPattern_bulletItem : LocalPattern bulletItem := by
  intro v h
  unfold bulletItem at h
  split at h
  · rename_i k w x r
    simp only [Bool.and_eq_true, Bool.or_eq_true, beq_iff_eq, Bool.not_eq_true'] at h
    obtain ⟨⟨hk, hw⟩, hx⟩ := h
    refine ⟨[k, w], x, r, rfl, by simp, ?_, hx, ?_⟩
    · intro c hc
      simp only [List.mem_cons, List.mem_singleton, List.not_mem_nil, or_false] at hc
      rcases hc with rfl | rfl
      · rcases hk with rfl | rfl <;> decide
      · exact isItemChar_of_isWhiteSpace _ hw
    · intro y Y hy
      simp [bulletItem, hk, hw, hy]
  · cases h

theorem localPattern_loneBullet : LocalPattern loneBullet := by
  intro v h
  unfold loneBullet at h
  split at h
  · rename_i k w x r
    simp only [Bool.and_eq_true, Bool.or_eq_true, beq_iff_eq, Bool.not_eq_true'] at h
    obtain ⟨⟨hk, hw⟩, hx⟩ := h
    refine ⟨[k, w], x, r, rfl, by simp, ?_, hx, ?_⟩
    · intro c hc
      simp only [List.mem_cons, List.mem_singleton, List.not_mem_nil, or_false] at hc
      rcases hc with rfl | rfl
      · rcases hk with rfl | rfl <;> decide
      · exact isItemChar_of_isWhiteSpace _ (isWhiteSpace_of_isLineTerminator _ hw)
    · intro y Y hy
      simp [loneBullet, hk, hw, hy]
  · cases h

/-! ## A bullet line survives the heading, fence and inline-code rules -/

theorem lineIs_iff (L v : List Char) :
    lineIs L v = true ↔ ∃ B, v = L ++ B ∧ ∀ c ∈ B.head?, isLineTerminator c = true := by
  unfold lineIs
  cases hs : stripPrefix L v with
  | none =>
    simp only [Bool.false_eq_true, false_iff]
    rintro ⟨B, hv, _⟩
    rw [stripPrefix_eq_none_iff] at hs
    exact hs ⟨B, hv.symm⟩
  | some r =>
    rw [stripPrefix_eq_some_iff] at hs
    simp only
    constructor
    · intro h
      refine ⟨r, hs, ?_⟩
      intro c hc
      cases r with
      | nil => simp at hc
      | cons d r =>
        simp only [List.head?_cons, Option.mem_def, Option.some.injEq] at hc
        subst hc
        simpa using h
    · rintro ⟨B, hv, hB⟩
      rw [hs] at hv
      have := List.append_cancel_left hv
      subst this
      cases r with
      | nil => rfl
      | cons d r => simpa using hB d (by simp)

theorem atSomeLineStart_of_split (p : List Char → Bool) (A v : List Char) (hne : v ≠ [])
    (hv : p v = true) :
    ∀ bol, endsLine bol A = true → atSomeLineStart p bol (A ++ v) = true := by
  induction A with
  | nil =>
    intro bol h
    simp only [endsLine] at h
    subst h
    cases v with
    | nil => exact absurd rfl hne
    | cons c v => simp [atSomeLineStart, hv]
  | cons c A ih =>
    intro bol h
    rw [List.cons_append, atSomeLineStart_cons, ih _ h]
    simp

theorem atSomeLineStart_split (p : List Char → Bool) (s : List Char) :
    ∀ bol, atSomeLineStart p bol s = true →
      ∃ A v, s = A ++ v ∧ endsLine bol A = true ∧ p v = true := by
  induction s with
  | nil => intro bol h; cases h
  | cons c s ih =>
    intro bol h
    rw [atSomeLineStart_cons, Bool.or_eq_true, Bool.and_eq_true] at h
    rcases h with h | h
    · exact ⟨[], c :: s, rfl, h.1, h.2⟩
    · obtain ⟨A, v, hs, hA, hv⟩ := ih _ h
      exact ⟨c :: A, v, by rw [hs]; rfl, hA, hv⟩

theorem anyMatchIn_plain_inside {m : Bool → List Char → Option (List Char × Nat)}
    (hm : PlainShape m) (a Z : List Char)
    (ha : ∀ c ∈ a, c ≠ tick ∧ isLineTerminator c = false) :
    anyMatchIn m false a Z = false := by
  induction a with
  | nil => rfl
  | cons c a ih =>
    obtain ⟨h1, h2⟩ := ha c (List.mem_cons_self _ _)
    rw [anyMatchIn_cons, plain_none_inside hm c _ h1, h2,
      ih (fun x hx => ha x (List.mem_cons_of_mem _ hx))]
    rfl

/-- A bullet line whose item text holds no backtick is still there, at a line
start, after a heading, fence or inline-code rule. -/
theorem atSomeLineStart_lineIs_replaceAllAux
    {m : Bool → List Char → Option (List Char × Nat)} (pre post : List Char)
    (hm : PlainShape m) (hpre : TagText pre) (hpost : TagText post) (k w : Char)
    (item : List Char) (hk : k = '-' ∨ k = '*') (hw : w ≠ tick)
    (hwl : isLineTerminator w = false)
    (hitem : ∀ c ∈ item, c ≠ tick ∧ isLineTerminator c = false) :
    ∀ bol s, atSomeLineStart (lineIs (k :: w :: item)) bol s = true →
      atSomeLineStart (lineIs (k :: w :: item)) bol (replaceAllAux m pre post 0 bol s)
        = true := by
  have hk1 : k ≠ tick ∧ k ≠ '#' ∧ k ≠ '<' ∧ isLineTerminator k = false := by
    rcases hk with rfl | rfl <;> decide
  have hin : ∀ c ∈ w :: item, c ≠ tick ∧ isLineTerminator c = false := by
    intro c hc
    rcases List.mem_cons.1 hc with rfl | hc
    · exact ⟨hw, hwl⟩
    · exact hitem c hc
  refine atSomeLineStart_replaceAllAux_forward pre post hm hpre hpost _ ?_ ?_ ?_
  · intro c t hc
    cases h : lineIs (k :: w :: item) (c :: t) with
    | false => rfl
    | true =>
      exfalso
      obtain ⟨B, hv, _⟩ := (lineIs_iff _ _).1 h
      simp only [List.cons_append, List.cons.injEq] at hv
      rcases hc with hc | hc | hc
      · exact hk1.2.2.1 (by rw [← hv.1, hc])
      · exact hk1.1 (by rw [← hv.1, hc])
      · exact hk1.2.1 (by rw [← hv.1, hc])
  · intro b s h
    obtain ⟨B, hv, hB⟩ := (lineIs_iff _ _).1 h
    have hno : anyMatchIn m b (k :: w :: item) B = false := by
      rw [anyMatchIn_cons, plain_none_of_head hm b k _ (by
        rintro (h | h)
        · exact hk1.1 h
        · exact hk1.2.1 h), hk1.2.2.2, anyMatchIn_plain_inside hm _ _ hin]
      rfl
    have he : endsLine b (k :: w :: item) = false := by
      have := endsLine_false_of_suffix b [] (k :: w :: item) (by simp) (by
        intro c hc
        rcases List.mem_cons.1 hc with rfl | hc
        · exact hk1.2.2.2
        · exact (hin c hc).2)
      simpa using this
    rw [hv, replaceAllAux_append_of_not_anyMatchIn m pre post b _ _ hno, he, lineIs_iff]
    refine ⟨_, rfl, ?_⟩
    cases B with
    | nil => simp [replaceAllAux]
    | cons l B =>
      have hl : isLineTerminator l = true := hB l (by simp)
      have hlt : l ≠ tick := by
        intro h0
        rw [h0, isLineTerminator_tick] at hl
        cases hl
      rw [replaceAllAux_cons_none m pre post false l B (plain_none_inside hm l B hlt)]
      intro c hc
      simp only [List.head?_cons, Option.mem_def, Option.some.injEq] at hc
      rw [← hc]
      exact hl
  · intro G Z Y hG h
    obtain ⟨B, hv, hB⟩ := (lineIs_iff _ _).1 h
    have hpre2 : (k :: w :: item) <+: G ++ tick :: Z := ⟨B, hv.symm⟩
    have hnt : tick ∉ (k :: w :: item).tail := fun hmem => (hin tick hmem).1 rfl
    obtain ⟨G2, hG2⟩ := prefix_of_prefix_append_cons hG hnt hpre2
    subst hG2
    rw [List.append_assoc] at hv
    have hB2 := List.append_cancel_left hv
    rw [lineIs_iff]
    refine ⟨G2 ++ '<' :: Y, by simp, ?_⟩
    cases G2 with
    | nil =>
      exfalso
      rw [← hB2] at hB
      have := hB tick (by simp)
      rw [isLineTerminator_tick] at this
      cases this
    | cons l G2 =>
      rw [← hB2] at hB
      intro c hc
      exact hB c (by simpa using hc)

/-! ## The rules keep a text free of lines with two `*` -/

theorem twoStars_cons (seen : Bool) (c : Char) (cs : List Char) :
    twoStars seen (c :: cs)
      = if isLineTerminator c then twoStars false cs
        else if c == '*' then seen || twoStars true cs else twoStars seen cs := rfl

theorem twoStars_append_plain (a b : List Char)
    (ha : ∀ c ∈ a, c ≠ '*' ∧ isLineTerminator c = false) :
    ∀ seen, twoStars seen (a ++ b) = twoStars seen b := by
  induction a with
  | nil => intro seen; rfl
  | cons c a ih =>
    intro seen
    obtain ⟨h1, h2⟩ := ha c (List.mem_cons_self _ _)
    rw [List.cons_append, twoStars_cons, h2]
    simp [h1, ih (fun x hx => ha x (List.mem_cons_of_mem _ hx))]

theorem twoStars_congr (g X Y : List Char) (h : ∀ seen, twoStars seen X = twoStars seen Y) :
    ∀ seen, twoStars seen (g ++ X) = twoStars seen (g ++ Y) := by
  induction g with
  | nil => exact h
  | cons c g ih =>
    intro seen
    simp only [List.cons_append, twoStars_cons, ih]

theorem twoStars_replaceAllAux {m : Bool → List Char → Option (List Char × Nat)}
    (pre post : List Char) (hm : PlainShape m) (hpre : TagText pre) (hpost : TagText post)
    (hpre2 : '*' ∉ pre) (hpost2 : '*' ∉ post) :
    ∀ bol s seen, twoStars seen (replaceAllAux m pre post 0 bol s) = twoStars seen s := by
  have htag : ∀ t, TagText t → '*' ∉ t → ∀ c ∈ t, c ≠ '*' ∧ isLineTerminator c = false := by
    intro t ht hst c hc
    exact ⟨fun h0 => hst (h0 ▸ hc), ht.2 c hc⟩
  refine replaceAll_plain_induction hm
    (fun bol s => ∀ seen, twoStars seen (replaceAllAux m pre post 0 bol s) = twoStars seen s)
    ?_ ?_ ?_
  · intro bol seen; rfl
  · intro bol c cs hmc ih seen
    rw [replaceAllAux_cons_none m pre post bol c cs hmc]
    simp only [twoStars_cons, ih]
  · intro bol s g o cl rest hmc hs hi hp ih seen
    have hres := (anyMatch_lineRule_hit_output (fun _ => false) (fun _ _ _ => rfl) pre post
      hpre hpost hmc hs).1
    have hin : s = o ++ (g ++ (cl ++ rest)) := by rw [hs.split]; simp
    have ho : ∀ c ∈ o, c ≠ '*' ∧ isLineTerminator c = false :=
      fun c hc => ⟨fun h0 => hp.opener_star (h0 ▸ hc), (hi.opener_plain c hc).1⟩
    have hc : ∀ c ∈ cl, c ≠ '*' ∧ isLineTerminator c = false := by
      intro c hc
      rw [hp.closer_tick c hc]
      decide
    rw [hres, twoStars_append_plain pre _ (htag pre hpre hpre2)]
    conv_rhs => rw [hin, twoStars_append_plain o _ ho]
    refine twoStars_congr g _ _ ?_ seen
    intro seen2
    rw [twoStars_append_plain post _ (htag post hpost hpost2), twoStars_append_plain cl _ hc, ih]

theorem twoStars_eq (s : List Char) : ∀ seen,
    twoStars seen s
      = ((seen && (s.takeWhile (fun x => !isLineTerminator x)).contains '*')
          || atSomePosition starPair s) := by
  induction s with
  | nil => intro seen; simp [twoStars, atSomePosition]
  | cons c cs ih =>
    intro seen
    rw [twoStars_cons]
    by_cases hl : isLineTerminator c = true
    · have hc : c ≠ '*' := by
        intro h0
        rw [h0] at hl
        revert hl; decide
      simp [hl, ih, atSomePosition, starPair, hc, List.takeWhile]
    · have hl2 : isLineTerminator c = false := by simpa using hl
      by_cases hc : c = '*'
      · subst hc
        simp [hl2, ih, atSomePosition, starPair, List.takeWhile]
      · have hc2 : ¬ '*' = c := fun h0 => hc h0.symm
        have hc3 : (c == '*') = false := by simpa using hc
        simp [hl2, ih, atSomePosition, starPair, hc, hc2, hc3, List.takeWhile]

theorem twoStars_false (s : List Char) : twoStars false s = atSomePosition starPair s := by
  rw [twoStars_eq]; simp

/-! ## The rules of lines 27-41 on a text without two `*` on a line -/

theorem matchSpan_eq_some (opener closer : List Char) (ok : Char → Bool) (s g : List Char)
    (n : Nat) (h : matchSpan opener closer ok s = some (g, n)) :
    ∃ rest, s = opener ++ (g ++ closer ++ rest) ∧ ∀ c ∈ g, ok c = true := by
  simp only [matchSpan] at h
  cases hs : stripPrefix opener s with
  | none => rw [hs] at h; cases h
  | some r =>
    rw [hs] at h
    simp only at h
    cases hl : lazyUntil ok closer r with
    | none => rw [hl] at h; cases h
    | some g2 =>
      rw [hl] at h
      simp only [Option.some.injEq, Prod.mk.injEq] at h
      obtain ⟨hg, _⟩ := h
      subst hg
      rw [stripPrefix_eq_some_iff] at hs
      obtain ⟨rest, hr, hok⟩ := lazyUntil_eq_some ok closer r g2 hl
      exact ⟨rest, by rw [hs, hr], hok⟩

theorem starPair_of_isSome_matchItalic (b : Bool) (v : List Char)
    (h : (matchItalic b v).isSome = true) : starPair v = true := by
  cases hm : matchItalic b v with
  | none => rw [hm] at h; cases h
  | some gn =>
    obtain ⟨g, n⟩ := gn
    obtain ⟨rest, hs, hok⟩ := matchSpan_eq_some _ _ _ v g n hm
    rw [hs]
    simp only [List.singleton_append, List.append_assoc, starPair, beq_self_eq_true,
      Bool.true_and]
    rw [List.takeWhile_append_of_pos hok]
    have hst : isLineTerminator '*' = false := by decide
    simp [List.takeWhile, hst]

theorem starPair_of_isSome_matchBold (b : Bool) (v : List Char)
    (h : (matchBold b v).isSome = true) : starPair v = true := by
  cases hm : matchBold b v with
  | none => rw [hm] at h; cases h
  | some gn =>
    obtain ⟨g, n⟩ := gn
    obtain ⟨rest, hs, _⟩ := matchSpan_eq_some _ _ _ v g n hm
    rw [hs]
    have hst : isLineTerminator '*' = false := by decide
    simp [starPair, List.takeWhile, hst]

theorem anyMatch_eq_false_of_atSomePosition (m : Bool → List Char → Option (List Char × Nat))
    (p : List Char → Bool) (hm : ∀ b v, (m b v).isSome = true → p v = true) (s : List Char)
    (h : atSomePosition p s = false) : ∀ bol, anyMatch m bol s = false := by
  induction s with
  | nil => intro bol; rfl
  | cons c s ih =>
    intro bol
    simp only [atSomePosition, Bool.or_eq_false_iff] at h
    rw [anyMatch_cons, ih h.2, Bool.or_false]
    cases hx : (m bol (c :: s)).isSome with
    | false => rfl
    | true =>
      rw [hm bol _ hx] at h
      exact absurd h.1 (by simp)

theorem atSomePosition_starPair_replaceAll {m : Bool → List Char → Option (List Char × Nat)}
    (pre post : List Char) (hm : PlainShape m) (hpre : TagText pre) (hpost : TagText post)
    (hpre2 : '*' ∉ pre) (hpost2 : '*' ∉ post) (s : List Char)
    (h : atSomePosition starPair s = false) :
    atSomePosition starPair (replaceAll m pre post s) = false := by
  rw [← twoStars_false] at h ⊢
  unfold replaceAll
  rw [twoStars_replaceAllAux pre post hm hpre hpost hpre2 hpost2, h]

theorem inlineStage_eq (text : List Char) :
    inlineStage text
      = replaceAll matchInlineCode "<code>".toList "</code>".toList
          (replaceAll matchFence "<pre><code>".toList "</code></pre>".toList
            (replaceAll matchItalic "<em>".toList "</em>".toList
              (replaceAll matchBold "<strong>".toList "</strong>".toList
                (replaceAll (matchHeading "# ".toList) "<h1>".toList "</h1>".toList
                  (replaceAll (matchHeading "## ".toList) "<h2>".toList "</h2>".toList
                    (replaceAll (matchHeading "### ".toList) "<h3>".toList "</h3>".toList
                      text)))))) := rfl

/-- On a text without two `*` on a line the bold and italic rules change
nothing, so what every heading, fence and inline-code rule keeps holds of the
text after line 41. -/
theorem inlineStage_invariant (Φ : List Char → Prop)
    (hΦ : ∀ (m : Bool → List Char → Option (List Char × Nat)) (pre post : List Char),
      PlainShape m → TagText pre → TagText post → ∀ s, Φ s → Φ (replaceAll m pre post s))
    (text : List Char) (hstar : atSomePosition starPair text = false) (h : Φ text) :
    Φ (inlineStage text) := by
  have t1 : TagText "<h3>".toList := ⟨⟨_, rfl⟩, by decide⟩
  have t2 : TagText "</h3>".toList := ⟨⟨_, rfl⟩, by decide⟩
  have t3 : TagText "<h2>".toList := ⟨⟨_, rfl⟩, by decide⟩
  have t4 : TagText "</h2>".toList := ⟨⟨_, rfl⟩, by decide⟩
  have t5 : TagText "<h1>".toList := ⟨⟨_, rfl⟩, by decide⟩
  have t6 : TagText "</h1>".toList := ⟨⟨_, rfl⟩, by decide⟩
  have t7 : TagText "<pre><code>".toList := ⟨⟨_, rfl⟩, by decide⟩
  have t8 : TagText "</code></pre>".toList := ⟨⟨_, rfl⟩, by decide⟩
  have t9 : TagText "<code>".toList := ⟨⟨_, rfl⟩, by decide⟩
  have t10 : TagText "</code>".toList := ⟨⟨_, rfl⟩, by decide⟩
  rw [inlineStage_eq]
  obtain ⟨f1, hf1⟩ : ∃ f1, f1
      = replaceAll (matchHeading "### ".toList) "<h3>".toList "</h3>".toList text := ⟨_, rfl⟩
  obtain ⟨f2, hf2⟩ : ∃ f2, f2
      = replaceAll (matchHeading "## ".toList) "<h2>".toList "</h2>".toList f1 := ⟨_, rfl⟩
  obtain ⟨f3, hf3⟩ : ∃ f3, f3
      = replaceAll (matchHeading "# ".toList) "<h1>".toList "</h1>".toList f2 := ⟨_, rfl⟩
  rw [← hf1, ← hf2, ← hf3]
  have s1 : atSomePosition starPair f1 = false := by
    rw [hf1]
    exact atSomePosition_starPair_replaceAll _ _ heading3_plain t1 t2 (by decide) (by decide)
      text hstar
  have s2 : atSomePosition starPair f2 = false := by
    rw [hf2]
    exact atSomePosition_starPair_replaceAll _ _ heading2_plain t3 t4 (by decide) (by decide)
      f1 s1
  have s3 : atSomePosition starPair f3 = false := by
    rw [hf3]
    exact atSomePosition_starPair_replaceAll _ _ heading1_plain t5 t6 (by decide) (by decide)
      f2 s2
  have p1 : Φ f1 := by rw [hf1]; exact hΦ _ _ _ heading3_plain t1 t2 text h
  have p2 : Φ f2 := by rw [hf2]; exact hΦ _ _ _ heading2_plain t3 t4 f1 p1
  have p3 : Φ f3 := by rw [hf3]; exact hΦ _ _ _ heading1_plain t5 t6 f2 p2
  rw [replaceAll_of_not_anyMatch matchBold _ _ f3
      (anyMatch_eq_false_of_atSomePosition _ starPair starPair_of_isSome_matchBold f3 s3 true),
    replaceAll_of_not_anyMatch matchItalic _ _ f3
      (anyMatch_eq_false_of_atSomePosition _ starPair starPair_of_isSome_matchItalic f3 s3
        true)]
  exact hΦ _ _ _ matchInlineCode_plain t9 t10 _ (hΦ _ _ _ matchFence_plain t7 t8 f3 p3)

/-- The line starts at which an item-marker test holds are the same in the
text and in the text after line 41. -/
theorem atSomeLineStart_inlineStage {p : List Char → Bool} (hp : LocalPattern p)
    (text : List Char) (hstar : atSomePosition starPair text = false) :
    atSomeLineStart p true (inlineStage text) = atSomeLineStart p true text := by
  refine inlineStage_invariant
    (fun s => atSomeLineStart p true s = atSomeLineStart p true text) ?_ text hstar rfl
  intro m pre post hm hpre hpost s hs
  unfold replaceAll
  rw [atSomeLineStart_replaceAllAux pre post hm hpre hpost hp true s, hs]

/-- A bullet line of the text whose item text holds no backtick is a bullet
line of the text after line 41. -/
theorem bullet_line_inlineStage (text A : List Char) (k w : Char) (item B : List Char)
    (hstar : atSomePosition starPair text = false)
    (hT : text = A ++ k :: w :: (item ++ B)) (hA : endsLine true A = true)
    (hk : k = '-' ∨ k = '*') (hw : w ≠ tick) (hwl : isLineTerminator w = false)
    (hitem : ∀ c ∈ item, c ≠ tick ∧ isLineTerminator c = false)
    (hB : ∀ c ∈ B.head?, isLineTerminator c = true) :
    ∃ A2 B2, inlineStage text = A2 ++ k :: w :: (item ++ B2) ∧ endsLine true A2 = true
      ∧ ∀ c ∈ B2.head?, isLineTerminator c = true := by
  have h0 : atSomeLineStart (lineIs (k :: w :: item)) true text = true := by
    rw [hT]
    exact atSomeLineStart_of_split _ A _ (by simp)
      ((lineIs_iff _ _).2 ⟨B, by simp, hB⟩) true hA
  have h1 : atSomeLineStart (lineIs (k :: w :: item)) true (inlineStage text) = true := by
    refine inlineStage_invariant
      (fun s => atSomeLineStart (lineIs (k :: w :: item)) true s = true) ?_ text hstar h0
    intro m pre post hm hpre hpost s hs
    exact atSomeLineStart_lineIs_replaceAllAux pre post hm hpre hpost k w item hk hw hwl hitem
      true s hs
  obtain ⟨A2, v, hs, hA2, hv⟩ := atSomeLineStart_split _ _ true h1
  obtain ⟨B2, hv2, hB2⟩ := (lineIs_iff _ _).1 hv
  exact ⟨A2, B2, by rw [hs, hv2]; simp, hA2, hB2⟩

theorem isSome_matchBullet_iff (b : Bool) (v : List Char) :
    (matchBullet b v).isSome = true ↔ b = true ∧ bulletItem v = true := by
  constructor
  · exact isSome_matchBullet b v
  · rintro ⟨rfl, h⟩
    unfold bulletItem at h
    split at h
    · rename_i k w x r
      simp only [Bool.and_eq_true, Bool.or_eq_true, beq_iff_eq, Bool.not_eq_true'] at h
      obtain ⟨⟨hk, hw⟩, hx⟩ := h
      unfold matchBullet
      simp [hk, hw, List.takeWhile, hx]
    · cases h

theorem anyMatch_bullet_eq (bol : Bool) (s : List Char) :
    anyMatch matchBullet bol s = atSomeLineStart bulletItem bol s := by
  induction s generalizing bol with
  | nil => rfl
  | cons c s ih =>
    rw [anyMatch_cons, atSomeLineStart_cons, ih]
    congr 1
    rw [Bool.eq_iff_iff, isSome_matchBullet_iff]
    simp

theorem splitAtLast_length_le (pat s M Q a b : List Char) (hp : pat ≠ [])
    (h : splitAtLast pat s = some (M, Q)) (hs : s = a ++ pat ++ b) : Q.length ≤ b.length := by
  induction s generalizing M a with
  | nil => simp [splitAtLast] at h
  | cons c cs ih =>
    rw [splitAtLast] at h
    cases hx : splitAtLast pat cs with
    | some x =>
      rw [hx] at h
      simp only [Option.some.injEq, Prod.mk.injEq] at h
      obtain ⟨_, rfl⟩ := h
      cases a with
      | nil =>
        have h1 := splitAtLast_eq_some pat cs x.1 x.2 (by rw [hx])
        have h2 := congrArg List.length hs
        have h3 := congrArg List.length h1
        simp only [List.length_cons, List.length_append, List.nil_append] at h2 h3
        omega
      | cons d a =>
        simp only [List.cons_append, List.cons.injEq] at hs
        exact ih x.1 a (by rw [hx]) hs.2
    | none =>
      rw [hx] at h
      simp only at h
      cases hsp : stripPrefix pat (c :: cs) with
      | none => rw [hsp] at h; cases h
      | some r =>
        rw [hsp] at h
        simp only [Option.some.injEq, Prod.mk.injEq] at h
        obtain ⟨_, rfl⟩ := h
        rw [stripPrefix_eq_some_iff] at hsp
        have h0 := (splitAtLast_eq_none_iff pat cs).1 hx
        cases a with
        | nil =>
          rw [List.nil_append] at hs
          rw [hsp] at hs
          have := List.append_cancel_left hs
          rw [this]
        | cons d a =>
          exfalso
          simp only [List.cons_append, List.cons.injEq] at hs
          rw [hs.2] at h0
          have h1 := (countOcc_eq_zero_of_append _ _ _ h0).1
          have h2 := (countOcc_eq_zero_of_append _ _ _ h1).2
          cases pat with
          | nil => exact hp rfl
          | cons p pat =>
            simp [countOcc, List.isPrefixOf] at h2

/-- An item of the text is still an item after the wrapper. -/
theorem wrapList_keeps_item (op cl s a item b : List Char)
    (hs : s = a ++ liOpen ++ item ++ liClose ++ b) :
    ∃ U V, wrapList op cl s = U ++ (liOpen ++ item ++ liClose) ++ V := by
  have hpos : 0 < countOcc liOpen s :=
    (countOcc_pos_iff liOpen s liOpen_ne_nil).2 ⟨a, item ++ liClose ++ b, by rw [hs]; simp⟩
  cases hf : splitAtFirst liOpen s with
  | none =>
    rw [splitAtFirst_eq_none_iff] at hf
    omega
  | some x =>
    obtain ⟨P, R⟩ := x
    have hPR := splitAtFirst_eq_some liOpen s P R hf
    have hlen := splitAtFirst_length_le liOpen s P R a (item ++ liClose ++ b) hf
      (by rw [hs]; simp)
    have k1 : (item ++ liClose ++ b) <:+ s := ⟨a ++ liOpen, by rw [hs]; simp⟩
    have k2 : R <:+ s := ⟨P ++ liOpen, by rw [hPR]⟩
    obtain ⟨y, hy⟩ : (item ++ liClose ++ b) <:+ R := by
      refine List.suffix_of_suffix_length_le k1 k2 ?_
      have h1 := congrArg List.length hPR
      have h2 := congrArg List.length hs
      simp only [List.length_append] at h1 h2 ⊢
      omega
    have hRpos : 0 < countOcc liClose R :=
      (countOcc_pos_iff liClose R liClose_ne_nil).2 ⟨y ++ item, b, by rw [← hy]; simp⟩
    cases hl : splitAtLast liClose R with
    | none =>
      rw [splitAtLast_eq_none_iff] at hl
      omega
    | some z =>
      obtain ⟨M, Q⟩ := z
      have hMQ := splitAtLast_eq_some liClose R M Q hl
      have hQlen := splitAtLast_length_le liClose R M Q (y ++ item) b liClose_ne_nil hl
        (by rw [← hy]; simp)
      have q1 : Q <:+ R := ⟨M ++ liClose, hMQ.symm⟩
      have q2 : b <:+ R := ⟨y ++ item ++ liClose, by rw [← hy]; simp⟩
      obtain ⟨b2, hb2⟩ : Q <:+ b := List.suffix_of_suffix_length_le q1 q2 hQlen
      have p1 : P <+: s := ⟨liOpen ++ R, by rw [hPR]; simp⟩
      have p2 : a <+: s := ⟨liOpen ++ item ++ liClose ++ b, by rw [hs]; simp⟩
      obtain ⟨a2, ha2⟩ : P <+: a := List.prefix_of_prefix_length_le p1 p2 hlen
      have hmid : liOpen ++ M ++ liClose = a2 ++ (liOpen ++ item ++ liClose) ++ b2 := by
        have e1 : s = P ++ (liOpen ++ M ++ liClose) ++ Q := by rw [hPR, hMQ]; simp
        have e2 : s = P ++ (a2 ++ (liOpen ++ item ++ liClose) ++ b2) ++ Q := by
          rw [hs, ← ha2, ← hb2]; simp
        rw [e1] at e2
        exact List.append_cancel_left (List.append_cancel_right e2)
      refine ⟨P ++ op ++ a2, b2 ++ cl ++ Q, ?_⟩
      unfold wrapList
      rw [hf]
      simp only [hl]
      have e3 : P ++ op ++ liOpen ++ M ++ liClose ++ cl ++ Q
          = P ++ op ++ (liOpen ++ M ++ liClose) ++ cl ++ Q := by simp
      rw [e3, hmid]
      simp

/-- A list tag that the text after line 48 does not hold occurs after line 52
as often as in the two wrappers. -/
theorem countOcc_ulStage (X : List Char) (hX : TagLike X) (text P M Q : List Char)
    (hX0 : countOcc X (bulletStage text) = 0)
    (hN : bulletStage text = P ++ liOpen ++ M ++ liClose ++ Q)
    (hO : ulStage text = P ++ "<ul>".toList ++ liOpen ++ M ++ liClose ++ "</ul>".toList ++ Q) :
    countOcc X (ulStage text)
      = countOcc X "<ul><li>".toList + countOcc X "</li></ul>".toList := by
  rw [hN, countOcc_sandwich X P liOpen M liClose Q hX
    (show TagBounded liOpen from tagBounded_of_ends "li".toList)
    (show TagBounded liClose from tagBounded_of_ends "/li".toList)] at hX0
  have e : P ++ "<ul>".toList ++ liOpen ++ M ++ liClose ++ "</ul>".toList ++ Q
      = P ++ "<ul><li>".toList ++ M ++ "</li></ul>".toList ++ Q := by
    simp [liOpen, liClose]
  rw [hO, e, countOcc_sandwich X P "<ul><li>".toList M "</li></ul>".toList Q hX
    (show TagBounded "<ul><li>".toList from tagBounded_of_ends "ul><li".toList)
    (show TagBounded "</li></ul>".toList from tagBounded_of_ends "/li></ul".toList)]
  omega

theorem newline_not_mem_item (item : List Char)
    (hitem : ∀ c ∈ item, isLineTerminator c = false) :
    '\n' ∉ liOpen ++ item ++ liClose := by
  intro h
  simp only [List.mem_append] at h
  rcases h with (h | h) | h
  · revert h; decide
  · exact absurd (hitem _ h) (by decide)
  · revert h; decide

/-- A bullet marker followed by a line terminator and a further character of
the next line is a lone bullet. -/
theorem loneBullet_of_line (k w : Char) (item B : List Char) (hk : k = '-' ∨ k = '*')
    (hw : isLineTerminator w = true) (hne : item ≠ [])
    (hitem : ∀ c ∈ item, isLineTerminator c = false) :
    loneBullet (k :: w :: (item ++ B)) = true := by
  cases item with
  | nil => exact absurd rfl hne
  | cons x item =>
    have hx := hitem x (List.mem_cons_self _ _)
    rcases hk with rfl | rfl <;> simp [loneBullet, hw, hx]

/-- Counterexample to C5 as stated: each of the eight texts has no numbered
item and a line that starts with a bullet marker, a space and item text. In
the first the italic rule of line 35 consumes the bullet marker, so the result
has no list at all. The second and third hold a literal `<ul>` or `</ul>`,
which the result then holds twice. The fourth holds a literal `<ol>` and the
fifth a literal item, which line 45 wraps in `<ol>`: the result has no `<ul>`.
In the sixth the `</ul>` follows a literal `</li>`, not the `</li>` of the
bullet item. In the seventh the bullet rule starts at the lone `-` of the
first line and the item holds the marker of the second line. In the eighth
the item text is rewritten by the inline-code rule of line 41. -/
theorem C5_counterexample :
    (atSomeLineStart numberedItem true "* a *b*".toList = false
      ∧ atSomeLineStart bulletItem true "* a *b*".toList = true
      ∧ formatBotResponse "* a *b*".toList = "<p><em> a </em>b*</p>".toList
      ∧ countOcc "<ul>".toList (formatBotResponse "* a *b*".toList) = 0)
    ∧ (atSomeLineStart numberedItem true "- a <ul>".toList = false
      ∧ atSomeLineStart bulletItem true "- a <ul>".toList = true
      ∧ formatBotResponse "- a <ul>".toList = "<ul><li>a <ul></li></ul>".toList
      ∧ countOcc "<ul>".toList (formatBotResponse "- a <ul>".toList) = 2)
    ∧ (atSomeLineStart numberedItem true "- a </ul>".toList = false
      ∧ atSomeLineStart bulletItem true "- a </ul>".toList = true
      ∧ formatBotResponse "- a </ul>".toList = "<ul><li>a </ul></li></ul>".toList
      ∧ countOcc "</ul>".toList (formatBotResponse "- a </ul>".toList) = 2)
    ∧ (atSomeLineStart numberedItem true "- a <ol>".toList = false
      ∧ atSomeLineStart bulletItem true "- a <ol>".toList = true
      ∧ formatBotResponse "- a <ol>".toList = "<li>a <ol></li>".toList
      ∧ countOcc "<ul>".toList (formatBotResponse "- a <ol>".toList) = 0)
    ∧ (atSomeLineStart numberedItem true "<li>x</li>\n- a".toList = false
      ∧ atSomeLineStart bulletItem true "<li>x</li>\n- a".toList = true
      ∧ formatBotResponse "<li>x</li>\n- a".toList
          = "<ol><li>x</li></ol>\n<li>a</li>".toList
      ∧ countOcc "<ul>".toList (formatBotResponse "<li>x</li>\n- a".toList) = 0)
    ∧ (atSomeLineStart numberedItem true "- a\n</li>".toList = false
      ∧ atSomeLineStart bulletItem true "- a\n</li>".toList = true
      ∧ formatBotResponse "- a\n</li>".toList = "<ul><li>a</li>\n</li></ul>".toList
      ∧ includes "<li>a</li></ul>".toList (formatBotResponse "- a\n</li>".toList) = false)
    ∧ (atSomeLineStart numberedItem true "-\n- a".toList = false
      ∧ atSomeLineStart bulletItem true "-\n- a".toList = true
      ∧ formatBotResponse "-\n- a".toList = "<ul><li>- a</li></ul>".toList
      ∧ includes "<li>a</li>".toList (formatBotResponse "-\n- a".toList) = false)
    ∧ (atSomeLineStart numberedItem true [ '-', ' ', tick, 'x', tick ] = false
      ∧ atSomeLineStart bulletItem true [ '-', ' ', tick, 'x', tick ] = true
      ∧ formatBotResponse [ '-', ' ', tick, 'x', tick ]
          = "<ul><li><code>x</code></li></ul>".toList
      ∧ includes (liOpen ++ [tick, 'x', tick] ++ liClose)
          (formatBotResponse [ '-', ' ', tick, 'x', tick ]) = false) := by
  decide

/-- C5 (amended): for every text with no `*` followed by another `*` on its
line, no numbered item, none of `<ol>`, `<ul>`, `</ul>`, `<li>`, `</li>`, no
lone bullet marker directly followed by a line break and a further character,
and with a bullet item at a line start: the result holds exactly one `<ul>`
and one `</ul>`; the text the bullet rule of line 48 reads is the text after
line 41 and holds no `<li>` and no `</li>`; lines 50-52 put the `<ul>` right
before the first `<li>` and the `</ul>` right after the last `</li>` of the
text after line 48; in the result the `<ul>` is followed by an `<li>` and the
`</ul>` preceded by an `</li>`; every line of the text the bullet rule reads
that is a bullet marker, a white space and a non-empty item text becomes an
`<li>` holding exactly that item text, which the result still holds; and every
such line of the text itself whose item text holds no backtick is such a line
of the text the bullet rule reads, headings, fences and inline code elsewhere
notwithstanding. -/
theorem C5_bullet_lines_get_one_ul (text : List Char)
    (hstar : atSomePosition starPair text = false)
    (hnum : atSomeLineStart numberedItem true text = false)
    (h1 : includes "<ol>".toList text = false) (h2 : includes "<ul>".toList text = false)
    (h3 : includes "</ul>".toList text = false) (h4 : includes liOpen text = false)
    (h5 : includes liClose text = false)
    (hlone : atSomeLineStart loneBullet true text = false)
    (hitem : atSomeLineStart bulletItem true text = true) :
    countOcc "<ul>".toList (formatBotResponse text) = 1
    ∧ countOcc "</ul>".toList (formatBotResponse text) = 1
    ∧ (olStage text = inlineStage text ∧ countOcc liOpen (olStage text) = 0
        ∧ countOcc liClose (olStage text) = 0)
    ∧ (∃ P M Q, bulletStage text = P ++ liOpen ++ M ++ liClose ++ Q
        ∧ includes liOpen P = false ∧ includes liClose Q = false
        ∧ ulStage text
            = P ++ "<ul>".toList ++ liOpen ++ M ++ liClose ++ "</ul>".toList ++ Q)
    ∧ includes "<ul><li>".toList (formatBotResponse text) = true
    ∧ includes "</li></ul>".toList (formatBotResponse text) = true
    ∧ (∀ (A : List Char) (k w : Char) (item B : List Char),
        olStage text = A ++ k :: w :: (item ++ B) → endsLine true A = true →
        (k = '-' ∨ k = '*') → isWhiteSpace w = true → item ≠ [] →
        (∀ c ∈ item, isLineTerminator c = false) →
        (∀ c ∈ B.head?, isLineTerminator c = true) →
        (∃ A2 B2, bulletStage text = A2 ++ liOpen ++ item ++ liClose ++ B2)
        ∧ includes (liOpen ++ item ++ liClose) (formatBotResponse text) = true)
    ∧ (∀ (A : List Char) (k w : Char) (item B : List Char),
        text = A ++ k :: w :: (item ++ B) → endsLine true A = true →
        (k = '-' ∨ k = '*') → isWhiteSpace w = true → item ≠ [] →
        (∀ c ∈ item, isLineTerminator c = false) → tick ∉ item →
        (∀ c ∈ B.head?, isLineTerminator c = true) →
        (∃ A2 B2, olStage text = A2 ++ k :: w :: (item ++ B2) ∧ endsLine true A2 = true
          ∧ ∀ c ∈ B2.head?, isLineTerminator c = true)
        ∧ (∃ A2 B2, bulletStage text = A2 ++ liOpen ++ item ++ liClose ++ B2)
        ∧ includes (liOpen ++ item ++ liClose) (formatBotResponse text) = true) := by
  rw [includes_eq_false_iff] at h1 h2 h3 h4 h5
  have hne : text ≠ [] := by
    intro h0; rw [h0] at hitem; cases hitem
  have tb1 : TagBounded liOpen := tagBounded_of_ends "li".toList
  have tb2 : TagBounded liClose := tagBounded_of_ends "/li".toList
  have tl1 : TagLike "<ol>".toList := ⟨by decide, by decide, by decide⟩
  have tl2 : TagLike "<ul>".toList := ⟨by decide, by decide, by decide⟩
  have tl3 : TagLike "</ul>".toList := ⟨by decide, by decide, by decide⟩
  have tl5 : TagLike liClose := ⟨by decide, by decide, by decide⟩
  have hN2 : atSomeLineStart numberedItem true (inlineStage text) = false := by
    rw [atSomeLineStart_inlineStage localPattern_numberedItem text hstar]; exact hnum
  have hL2 : atSomeLineStart loneBullet true (inlineStage text) = false := by
    rw [atSomeLineStart_inlineStage localPattern_loneBullet text hstar]; exact hlone
  have hB2 : atSomeLineStart bulletItem true (inlineStage text) = true := by
    rw [atSomeLineStart_inlineStage localPattern_bulletItem text hstar]; exact hitem
  have i1 : countOcc "<ol>".toList (inlineStage text) = 0 := by
    rw [countOcc_inlineStage _ tl1 (by decide) (by decide), h1]
  have i2 : countOcc "<ul>".toList (inlineStage text) = 0 := by
    rw [countOcc_inlineStage _ tl2 (by decide) (by decide), h2]
  have i3 : countOcc "</ul>".toList (inlineStage text) = 0 := by
    rw [countOcc_inlineStage _ tl3 (by decide) (by decide), h3]
  have i4 : countOcc liOpen (inlineStage text) = 0 := by
    rw [countOcc_inlineStage _ tagLike_liOpen (by decide) (by decide), h4]
  have i5 : countOcc liClose (inlineStage text) = 0 := by
    rw [countOcc_inlineStage _ tl5 (by decide) (by decide), h5]
  have hOl : olStage text = inlineStage text := by
    unfold olStage numberedStage
    rw [replaceAll_of_not_anyMatch matchNumbered _ _ _
        (anyMatch_numbered_of_atSomeLineStart true _ hN2),
      wrapList_of_countOcc _ _ _ i4]
  have hB : bulletStage text = replaceAll matchBullet liOpen liClose (inlineStage text) := by
    unfold bulletStage
    rw [hOl]
  have hany : anyMatch matchBullet true (inlineStage text) = true := by
    rw [anyMatch_bullet_eq]; exact hB2
  obtain ⟨a, g, b, hab⟩ := replaceAllAux_of_anyMatch liOpen liClose matchBullet_shape true
    (inlineStage text) hany
  have hab2 : bulletStage text = a ++ liOpen ++ g ++ liClose ++ b := by
    rw [hB]; exact hab
  have b1 : countOcc "<ol>".toList (bulletStage text) = 0 := by
    rw [hB, countOcc_replaceAll matchBullet_shape _ tl1 (by decide) tb1 tb2 (by decide)
      (by decide), i1]
  have b2 : countOcc "<ul>".toList (bulletStage text) = 0 := by
    rw [hB, countOcc_replaceAll matchBullet_shape _ tl2 (by decide) tb1 tb2 (by decide)
      (by decide), i2]
  have b3 : countOcc "</ul>".toList (bulletStage text) = 0 := by
    rw [hB, countOcc_replaceAll matchBullet_shape _ tl3 (by decide) tb1 tb2 (by decide)
      (by decide), i3]
  have hU : ulStage text = wrapList "<ul>".toList "</ul>".toList (bulletStage text) := by
    unfold ulStage
    rw [(includes_eq_false_iff _ _).2 b1]
    rfl
  have hF : formatBotResponse text = paragraphs (ulStage text) := by
    unfold formatBotResponse
    cases text with
    | nil => exact absurd rfl hne
    | cons c t => simp
  obtain ⟨P, M, Q, hN, hP0, hQ0, hO⟩ := wrapList_of_item "<ul>".toList "</ul>".toList
    (bulletStage text) a g b hab2
  rw [← hU] at hO
  have c2 := countOcc_ulStage _ tl2 text P M Q b2 hN hO
  have c3 := countOcc_ulStage _ tl3 text P M Q b3 hN hO
  have d2 : countOcc "<ul>".toList "<ul><li>".toList + countOcc "<ul>".toList "</li></ul>".toList
      = 1 := by decide
  have d3 : countOcc "</ul>".toList "<ul><li>".toList
      + countOcc "</ul>".toList "</li></ul>".toList = 1 := by decide
  rw [d2] at c2
  rw [d3] at c3
  have s1 : 0 < countOcc "<ul><li>".toList (ulStage text) :=
    (countOcc_pos_iff _ _ (by decide)).2
      ⟨P, M ++ liClose ++ "</ul>".toList ++ Q, by rw [hO]; simp [liOpen]⟩
  have s2 : 0 < countOcc "</li></ul>".toList (ulStage text) :=
    (countOcc_pos_iff _ _ (by decide)).2
      ⟨P ++ "<ul>".toList ++ liOpen ++ M, Q, by rw [hO]; simp [liClose]⟩
  have hline : ∀ (A : List Char) (k w : Char) (item B : List Char),
      olStage text = A ++ k :: w :: (item ++ B) → endsLine true A = true →
      (k = '-' ∨ k = '*') → isWhiteSpace w = true → item ≠ [] →
      (∀ c ∈ item, isLineTerminator c = false) →
      (∀ c ∈ B.head?, isLineTerminator c = true) →
      (∃ A2 B2, bulletStage text = A2 ++ liOpen ++ item ++ liClose ++ B2)
      ∧ includes (liOpen ++ item ++ liClose) (formatBotResponse text) = true := by
    intro A k w item B hT hA hk hw hine hit hBh
    rw [hOl] at hT
    rw [hT] at hL2
    obtain ⟨A2, B2, hl⟩ := replaceAll_bullet_line A k w item B hA hk hw hine hit hBh hL2
    rw [← hT, ← hB] at hl
    refine ⟨⟨A2, B2, hl⟩, ?_⟩
    obtain ⟨U, V, hUV⟩ := wrapList_keeps_item "<ul>".toList "</ul>".toList (bulletStage text)
      A2 item B2 hl
    rw [← hU] at hUV
    have hXne : liOpen ++ item ++ liClose ≠ [] := by
      intro h0
      have := congrArg List.length h0
      simp [liOpen] at this
    have s3 : 0 < countOcc (liOpen ++ item ++ liClose) (ulStage text) :=
      (countOcc_pos_iff _ _ hXne).2 ⟨U, V, hUV⟩
    rw [includes_eq_true_iff, hF]
    exact Nat.lt_of_lt_of_le s3
      (countOcc_le_paragraphs_of_line _ hXne (newline_not_mem_item item hit)
        ⟨'<', by simp [liOpen], by decide⟩ _)
  refine ⟨?_, ?_, ⟨hOl, by rw [hOl]; exact i4, by rw [hOl]; exact i5⟩,
    ⟨P, M, Q, hN, ?_, ?_, hO⟩, ?_, ?_, hline, ?_⟩
  · rw [hF, countOcc_paragraphs _ tl2 (by decide) (by decide) (by decide), c2]
  · rw [hF, countOcc_paragraphs _ tl3 (by decide) (by decide) (by decide), c3]
  · rw [includes_eq_false_iff]; exact hP0
  · rw [includes_eq_false_iff]; exact hQ0
  · rw [includes_eq_true_iff, hF]
    exact Nat.lt_of_lt_of_le s1 (countOcc_le_paragraphs _ (by decide) (by decide) _)
  · rw [includes_eq_true_iff, hF]
    exact Nat.lt_of_lt_of_le s2 (countOcc_le_paragraphs _ (by decide) (by decide) _)
  · intro A k w item B hT hA hk hw hine hit htk hBh
    have hwl : isLineTerminator w = false := by
      cases hwl : isLineTerminator w with
      | false => rfl
      | true =>
        exfalso
        have := atSomeLineStart_of_split loneBullet A (k :: w :: (item ++ B)) (by simp)
          (loneBullet_of_line k w item B hk hwl hine hit) true hA
        rw [← hT, hlone] at this
        cases this
    have hwt : w ≠ tick := by
      intro h0
      rw [h0] at hw
      revert hw; decide
    obtain ⟨A2, B2, hs, hA2, hB2h⟩ := bullet_line_inlineStage text A k w item B hstar hT hA hk
      hwt hwl (fun c hc => ⟨fun h0 => htk (h0 ▸ hc), hit c hc⟩) hBh
    rw [← hOl] at hs
    exact ⟨⟨A2, B2, hs, hA2, hB2h⟩, hline A2 k w item B2 hs hA2 hk hw hine hit hB2h⟩

/-- Witness of C5: a heading, a bullet line with inline code and a bullet line
with the marker `*`. -/
theorem C5_witness :
    formatBotResponse "# T\n- a `x`\n* b".toList
        = "<h1>T</h1>\n<ul><li>a <code>x</code></li>\n<li>b</li></ul>".toList
    ∧ countOcc "<ul>".toList (formatBotResponse "# T\n- a `x`\n* b".toList) = 1
    ∧ includes (liOpen ++ "b".toList ++ liClose)
        (formatBotResponse "# T\n- a `x`\n* b".toList) = true :=
  ⟨by decide,
    (C5_bullet_lines_get_one_ul "# T\n- a `x`\n* b".toList (by decide) (by decide) (by decide)
      (by decide) (by decide) (by decide) (by decide) (by decide) (by decide)).1,
    ((C5_bullet_lines_get_one_ul "# T\n- a `x`\n* b".toList (by decide) (by decide)
      (by decide) (by decide) (by decide) (by decide) (by decide) (by decide)
      (by decide)).2.2.2.2.2.2.2 "# T\n- a `x`\n".toList '*' ' ' "b".toList [] rfl (by decide)
      (Or.inr rfl) (by decide) (by decide) (by decide) (by decide) (by decide)).2.2⟩

end ChatBot
